import Mathlib

/-!
# Verification of the acc-tree accumulator / Merkle-forest engine

This file is a shallow embedding, in Lean 4, of the cryptographic core of the
acc-tree repository: the digest-to-field reduction and public-parameter store
(accumulator_ads/src/acc/{utils,setup}.rs), the dynamic accumulator and its
polynomial kernel (accumulator_ads/src/acc/{dynamic_accumulator,digest_set}.rs),
the proof objects (accumulator_ads/src/acc/proofs.rs, src/response.rs), and the
accumulator-augmented binomial Merkle forest (src/{node,tree,crypto}.rs).

Modelling conventions:

* Group elements of G1, G2 and GT are represented by their discrete logarithms
  with respect to the fixed generators: the groups are cyclic of prime order r
  (the BLS12-381 scalar-field order), so g ↦ g = g1^a ↦ a is a group
  isomorphism onto the scalar field, the pairing e(g1^a, g2^b) = gt^(a*b)
  becomes multiplication of exponents, and equality of group elements becomes
  equality of exponents.  The scalar field Fr is modelled by a type F carrying
  a CommRing (or Field, where the code divides) instance; concrete instances
  use ZMod r with the actual BLS12-381 scalar modulus.
* The trapdoor s (setup.rs PRI_S) and the digest map String -> Fr
  (digest_to_prime_field of a SHA-256 digest) are parameters of the embedding.
* SHA-256 itself is modelled by abstract functions shaLeaf / shaNode standing
  for leaf_hash_fids and nonleaf_hash (src/crypto.rs); the embedding is
  parametric in them, and concrete witnesses instantiate them with a free
  (injective by construction) hash algebra.
* Rust imperative loops are rendered as recursions whose argument is the loop
  state; Vec is List, HashSet is Finset, Rc/Box are erased.
-/

set_option linter.unusedSectionVars false

namespace AccTree

/-! ## The BLS12-381 scalar modulus and the digest-to-field reduction
    (accumulator_ads/src/acc/utils.rs, try_digest_to_prime_field) -/

/-- Order of the BLS12-381 scalar field Fr (the modulus of ark_bls12_381::Fr). -/
def rBLS : Nat := 52435875175126190479447740508185965837690552500527637822603658699938581184513

/-- Little-endian 64-bit limb i of a natural number, as in ark_ff BigInteger256:
limb 0 is the least significant. -/
def digestLimb (n : Nat) (i : Nat) : Nat := n / 2 ^ (64 * i) % 2 ^ 64

/-- Faithful rendering of try_digest_to_prime_field (utils.rs lines 34-44) at the
level of canonical integer representatives.  The Rust code:
1. reduces the 256-bit big-endian digest modulo rBLS (from_be_bytes_mod_order)
   and takes its canonical 4-limb representation (into_repr);
2. iterates num.as_mut().iter_mut().skip(3), which for the 4-limb BigInteger256
   zeroes limb 3 (bits 192..255);
3. then masks limb 3 with 0x00ff_ffff_ffff_ffff - but limb 3 is already zero at
   that point, so the mask acts on 0;
4. F::from_repr returns Some iff the recombined value is below the modulus. -/
def tryDigestToPrimeField (d : Nat) : Option Nat :=
  let num := d % rBLS
  let l0 := digestLimb num 0
  let l1 := digestLimb num 1
  let l2 := digestLimb num 2
  let l3 : Nat := 0
  let l3m := l3 &&& 0x00ffffffffffffff
  let v := l0 + l1 * 2 ^ 64 + l2 * 2 ^ 128 + l3m * 2 ^ 192
  if v < rBLS then some v else none

/-- The reduction described by the specification: reduce the digest modulo rBLS,
then zero all bits at positions 248 and above, keeping the low 248 bits. -/
def digestToFieldSpec (d : Nat) : Nat := (d % rBLS) % 2 ^ 248

theorem limb_recombine (n : Nat) :
    digestLimb n 0 + digestLimb n 1 * 2 ^ 64 + digestLimb n 2 * 2 ^ 128 = n % 2 ^ 192 := by
  have h192 : (2 : Nat) ^ 192 = 2 ^ 64 * 2 ^ 128 := by norm_num
  have h128 : (2 : Nat) ^ 128 = 2 ^ 64 * 2 ^ 64 := by norm_num
  have step1 : n % 2 ^ 192 = n % 2 ^ 64 + 2 ^ 64 * (n / 2 ^ 64 % 2 ^ 128) := by
    rw [h192]; exact Nat.mod_mul
  have step2 : n / 2 ^ 64 % 2 ^ 128 =
      n / 2 ^ 64 % 2 ^ 64 + 2 ^ 64 * (n / 2 ^ 64 / 2 ^ 64 % 2 ^ 64) := by
    rw [h128]; exact Nat.mod_mul
  have hdd : n / 2 ^ 64 / 2 ^ 64 = n / 2 ^ 128 := by
    rw [Nat.div_div_eq_div_mul]; norm_num
  rw [step1, step2, hdd]
  simp only [digestLimb]
  norm_num
  ring

/-- What the code actually computes: the digest reduced modulo rBLS and then
truncated to its low 192 bits (not 248), always successfully. -/
theorem tryDigestToPrimeField_eq (d : Nat) :
    tryDigestToPrimeField d = some (d % rBLS % 2 ^ 192) := by
  unfold tryDigestToPrimeField
  simp only [Nat.zero_and, Nat.zero_mul, Nat.add_zero]
  rw [limb_recombine]
  have hlt : d % rBLS % 2 ^ 192 < rBLS := by
    calc d % rBLS % 2 ^ 192 < 2 ^ 192 := Nat.mod_lt _ (by norm_num)
    _ < rBLS := by norm_num [rBLS]
  rw [if_pos hlt]

/-- Claim C7 (code_bug evidence): at the digest 2^192 (a 256-bit digest with
only bit 192 set), the code returns 0, while the specified 248-bit truncation
retains the value 2^192; in general the code truncates to 192 bits because the
zeroing loop kills limb 3 before the 56-bit mask is applied to it. -/
theorem claim7_digest_truncation :
    tryDigestToPrimeField (2 ^ 192) = some 0 ∧
    digestToFieldSpec (2 ^ 192) = 2 ^ 192 ∧
    (∀ d : Nat, tryDigestToPrimeField d = some (d % rBLS % 2 ^ 192)) := by
  refine ⟨?_, ?_, tryDigestToPrimeField_eq⟩
  · rw [tryDigestToPrimeField_eq]
    norm_num [rBLS]
  · unfold digestToFieldSpec
    norm_num [rBLS]

/-! ## Public parameter store (accumulator_ads/src/acc/setup.rs)

In the exponent model a G1 point g1^a is the scalar a, so the parameter vectors
(g1^(s^i))_i and (g2^(s^i))_i are lists of scalars s^i, and the generators are
the scalar 1. -/

/-- The test trapdoor setup.rs PRI_S, as a natural number. -/
def priSNat : Nat := 259535143263514268207918833918737523409

section RingCore

variable {F : Type} [CommRing F] [DecidableEq F]

/-- accumulator_ads::acc::setup::PublicParameters in the exponent model. -/
structure PublicParams (F : Type) where
  g1 : F
  g2 : F
  g1_s_vec : List F
  g2_s_vec : List F

/-- The generation loop of PublicParameters::generate_for_testing: s_power
starts at 1, each iteration pushes g^(s_power) (exponent s_power) and then
multiplies s_power by the secret. -/
def powersLoop (s : F) : Nat → F → List F
  | 0, _ => []
  | n + 1, sPower => sPower :: powersLoop s n (sPower * s)

/-- PublicParameters::generate_for_testing (setup.rs lines 83-113): vectors of
length maxDegree+1 holding exponents s^0, ..., s^maxDegree. -/
def generateForTesting (s : F) (maxDegree : Nat) : PublicParams F :=
  { g1 := 1
    g2 := 1
    g1_s_vec := powersLoop s (maxDegree + 1) 1
    g2_s_vec := powersLoop s (maxDegree + 1) 1 }

/-- get_g1s (setup.rs lines 157-161): params.g1_s_vec[i].  Rust vector indexing
panics when i is out of bounds; the panic is modelled by none. -/
def getG1s (pp : PublicParams F) (i : Nat) : Option F := pp.g1_s_vec.get? i

/-- get_g2s (setup.rs lines 163-167): params.g2_s_vec[i], panic modelled by none. -/
def getG2s (pp : PublicParams F) (i : Nat) : Option F := pp.g2_s_vec.get? i

theorem powersLoop_get (s : F) :
    ∀ (n : Nat) (p : F) (i : Nat),
      (powersLoop s n p).get? i = if i < n then some (p * s ^ i) else none := by
  intro n
  induction n with
  | zero => intro p i; simp [powersLoop]
  | succ m ih =>
      intro p i
      cases i with
      | zero => simp [powersLoop]
      | succ j =>
          simp only [powersLoop, List.get?_cons_succ, ih (p * s)]
          by_cases hj : j < m
          · simp [hj, Nat.succ_lt_succ hj, pow_succ]
            ring
          · simp [hj, fun h => hj (Nat.lt_of_succ_lt_succ h)]

/-- Claim C9, amended: for i ≤ N the getters return g^(s^i) (exponent s^i); for
i > N the vector indexing panics (modelled by none) - there is no
ParamsOutOfRange tagged error in the code. -/
theorem claim9_amended (s : F) (bigN : Nat) (i : Nat) :
    (i ≤ bigN →
      getG1s (generateForTesting s bigN) i = some (s ^ i) ∧
      getG2s (generateForTesting s bigN) i = some (s ^ i)) ∧
    (bigN < i →
      getG1s (generateForTesting s bigN) i = none ∧
      getG2s (generateForTesting s bigN) i = none) := by
  have h1 : getG1s (generateForTesting s bigN) i =
      if i < bigN + 1 then some ((1 : F) * s ^ i) else none :=
    powersLoop_get s (bigN + 1) 1 i
  have h2 : getG2s (generateForTesting s bigN) i =
      if i < bigN + 1 then some ((1 : F) * s ^ i) else none :=
    powersLoop_get s (bigN + 1) 1 i
  constructor
  · intro hle
    have h : i < bigN + 1 := Nat.lt_succ_of_le hle
    rw [h1, h2, if_pos h, one_mul]
    exact ⟨rfl, rfl⟩
  · intro hgt
    have h : ¬ i < bigN + 1 := by omega
    rw [h1, h2, if_neg h]
    exact ⟨rfl, rfl⟩

/-- Claim C9 (refutation of the error-handling half): with test parameters of
maximum degree 2, the access at index 3 hits the out-of-bounds panic (none);
the code has no ParamsOutOfRange error outcome to report to the caller. -/
theorem claim9_counterexample :
    getG1s (generateForTesting (3 : ZMod 101) 2) 3 = none ∧
    getG2s (generateForTesting (3 : ZMod 101) 2) 3 = none := by
  constructor <;> rfl

/-- Witness for claim9_amended at concrete inputs: degree bound 2, index 1. -/
theorem claim9_witness :
    (1 ≤ 2 →
      getG1s (generateForTesting (3 : ZMod 101) 2) 1 = some (3 ^ 1) ∧
      getG2s (generateForTesting (3 : ZMod 101) 2) 1 = some (3 ^ 1)) ∧
    (2 < 1 →
      getG1s (generateForTesting (3 : ZMod 101) 2) 1 = none ∧
      getG2s (generateForTesting (3 : ZMod 101) 2) 1 = none) :=
  claim9_amended (3 : ZMod 101) 2 1

/-! ## Dense polynomials as coefficient lists (ark_poly DensePolynomial)

A polynomial is its little-endian coefficient list: entry i is the coefficient
of X^i.  ark keeps coefficient vectors free of trailing zeros; trimP restores
that invariant after arithmetic, exactly as ark truncates leading zeros. -/

/-- Remove trailing zero coefficients (ark truncate_leading_zeros). -/
def trimP : List F → List F
  | [] => []
  | c :: cs =>
      match trimP cs with
      | [] => if c = 0 then [] else [c]
      | c' :: cs' => c :: c' :: cs'

/-- Coefficient-wise addition of coefficient lists. -/
def addP : List F → List F → List F
  | [], q => q
  | p, [] => p
  | a :: p, b :: q => (a + b) :: addP p q

/-- Coefficient-wise negation. -/
def negP (p : List F) : List F := p.map (fun c => -c)

/-- Schoolbook polynomial multiplication (convolution), as ark naive mul. -/
def mulP : List F → List F → List F
  | [], _ => []
  | a :: p, q => addP (q.map (fun c => a * c)) ((0 : F) :: mulP p q)

/-- Horner evaluation of a coefficient list at the point s. -/
def evalP (s : F) (p : List F) : F := p.foldr (fun c acc => c + s * acc) 0

theorem evalP_nil (s : F) : evalP s ([] : List F) = 0 := rfl

theorem evalP_cons (s c : F) (p : List F) : evalP s (c :: p) = c + s * evalP s p := rfl

theorem evalP_addP (s : F) : ∀ p q : List F, evalP s (addP p q) = evalP s p + evalP s q := by
  intro p
  induction p with
  | nil => intro q; simp [addP, evalP_nil]
  | cons a p ih =>
      intro q
      cases q with
      | nil => simp [addP, evalP_nil]
      | cons b q =>
          simp only [addP, evalP_cons, ih]
          ring

theorem evalP_map_mul (s a : F) (q : List F) :
    evalP s (q.map (fun c => a * c)) = a * evalP s q := by
  induction q with
  | nil => simp [evalP_nil]
  | cons b q ih => simp only [List.map_cons, evalP_cons, ih]; ring

theorem evalP_mulP (s : F) : ∀ p q : List F, evalP s (mulP p q) = evalP s p * evalP s q := by
  intro p
  induction p with
  | nil => intro q; simp [mulP, evalP_nil]
  | cons a p ih =>
      intro q
      simp only [mulP, evalP_addP, evalP_map_mul, evalP_cons, ih]
      ring

theorem evalP_trimP (s : F) : ∀ p : List F, evalP s (trimP p) = evalP s p := by
  intro p
  induction p with
  | nil => rfl
  | cons c cs ih =>
      simp only [trimP]
      cases htc : trimP cs with
      | nil =>
          rw [htc] at ih
          by_cases hc : c = 0 <;>
            simp [hc, evalP_cons, evalP_nil, ← ih]
      | cons c' cs' =>
          rw [htc] at ih
          simp [evalP_cons, ih]

/-! ## DigestSet.expand_to_poly (accumulator_ads/src/acc/digest_set.rs)

The source builds the list of monic linear factors (X - k) and multiplies them
by recursive halving (rayon::join over the two halves).  The recursion is
rendered with an explicit fuel argument bounding the recursion depth; fuel
list-length + 1 always suffices because each half is strictly shorter. -/

/-- The halving product of a list of polynomials (digest_set.rs expand). -/
def expandDCF : Nat → List (List F) → List F
  | 0, _ => [1]
  | fuel + 1, ps =>
      if ps.length ≤ 1 then
        match ps with
        | [] => [1]
        | [p] => p
        | _ => [1]
      else
        mulP (expandDCF fuel (ps.take (ps.length / 2)))
          (expandDCF fuel (ps.drop (ps.length / 2)))

/-- DigestSet::expand_to_poly: the product of (X - k) over the element list. -/
def expandToPoly (l : List F) : List F :=
  expandDCF (l.length + 1) (l.map (fun k => [-k, (1 : F)]))

theorem evalP_expandDCF (s : F) :
    ∀ (fuel : Nat) (ps : List (List F)), ps.length ≤ fuel →
      evalP s (expandDCF fuel ps) = (ps.map (evalP s)).prod := by
  intro fuel
  induction fuel with
  | zero =>
      intro ps hlen
      have : ps = [] := List.eq_nil_of_length_eq_zero (Nat.le_zero.mp hlen)
      subst this
      simp [expandDCF, evalP_cons, evalP_nil]
  | succ n ih =>
      intro ps hlen
      by_cases hle : ps.length ≤ 1
      · match ps with
        | [] => simp [expandDCF, evalP_cons, evalP_nil]
        | [p] => simp [expandDCF, evalP_cons, evalP_nil]
        | p :: q :: rest => simp at hle
      · have h2 : 2 ≤ ps.length := by omega
        have htake : (ps.take (ps.length / 2)).length ≤ n := by
          rw [List.length_take]
          omega
        have hdrop : (ps.drop (ps.length / 2)).length ≤ n := by
          rw [List.length_drop]
          omega
        have hsplit : ps.take (ps.length / 2) ++ ps.drop (ps.length / 2) = ps :=
          List.take_append_drop _ ps
        calc evalP s (expandDCF (n + 1) ps)
            = evalP s (expandDCF n (ps.take (ps.length / 2))) *
              evalP s (expandDCF n (ps.drop (ps.length / 2))) := by
              simp only [expandDCF, if_neg hle, evalP_mulP]
          _ = ((ps.take (ps.length / 2)).map (evalP s)).prod *
              ((ps.drop (ps.length / 2)).map (evalP s)).prod := by
              rw [ih _ htake, ih _ hdrop]
          _ = (ps.map (evalP s)).prod := by
              rw [← List.prod_append, ← List.map_append, hsplit]

theorem evalP_expandToPoly (s : F) (l : List F) :
    evalP s (expandToPoly l) = (l.map (fun k => s - k)).prod := by
  unfold expandToPoly
  rw [evalP_expandDCF s (l.length + 1) _ (by simp)]
  rw [List.map_map]
  congr 1
  apply List.map_congr_left
  intro k _
  simp [Function.comp, evalP_cons, evalP_nil]
  ring

/-! ## The dynamic accumulator in the exponent model
    (accumulator_ads/src/acc/dynamic_accumulator.rs, utils.rs poly_to_g1)

poly_to_g1 pairs each nonzero coefficient with the public power g1^(s^i) and
returns the multi-scalar product, i.e. g1^(p(s)); in the exponent model this is
evaluation of the polynomial at the trapdoor s.  The modelled parameter table
is unbounded (the real table has N+1 entries and indexing beyond it panics;
all claims below stay inside that bound for the workloads they quantify over). -/

/-- poly_to_g1 (utils.rs lines 247-272) in the exponent model: g1^(p(s)) ↦ p(s). -/
def polyToG1 (s : F) (p : List F) : F := evalP s p

/-- poly_to_g2 (utils.rs lines 274-299) in the exponent model. -/
def polyToG2 (s : F) (p : List F) : F := evalP s p

/-- DynamicAccumulator::calculate_commitment (dynamic_accumulator.rs 53-57):
the commitment g1^(P_E(s)) to a digest list E. -/
def calculateCommitment (s : F) (l : List F) : F := polyToG1 s (expandToPoly l)

/-- DynamicAccumulator::compute_add (dynamic_accumulator.rs 90-98, the
trapdoor-holding test/debug build): acc^(s - element). -/
def computeAdd (s acc element : F) : F := acc * (s - element)

theorem calculateCommitment_eq_prod (s : F) (l : List F) :
    calculateCommitment s l = (l.map (fun k => s - k)).prod :=
  evalP_expandToPoly s l

/-- The commitment only depends on the element list up to permutation, so a
duplicate-free list is a faithful enumeration of its element set. -/
theorem calculateCommitment_perm (s : F) {l l' : List F} (h : l.Perm l') :
    calculateCommitment s l = calculateCommitment s l' := by
  rw [calculateCommitment_eq_prod, calculateCommitment_eq_prod]
  exact List.Perm.prod_eq (List.Perm.map _ h)

/-- DynamicAccumulator::compute_delete (dynamic_accumulator.rs 111-123, the
trapdoor-holding test/debug build): acc^(1/(s - element)); the inverse fails
(anyhow error) exactly when element = s. -/
def computeDelete [Field F] (s acc element : F) : Except String F :=
  let sMinusElem := s - element
  if sMinusElem = 0 then
    Except.error "Failed to compute inverse: element might be equal to s"
  else
    Except.ok (acc * sMinusElem⁻¹)

/-- Claim C4, amended: the add law holds for x outside the set (for x already
in the set, add multiplies another (s-x) factor into the exponent, so the
result is the commitment of the multiset with x doubled, not of the set E∪{x});
the delete law holds as claimed for x in the set (with x different from the
trapdoor, where compute_delete succeeds).  A set E is a duplicate-free digest
list, and x :: l, l.erase x enumerate E ∪ {x} and E \ {x}. -/
theorem claim4_amended {F : Type} [Field F] [DecidableEq F]
    (s x : F) (l : List F) (hnd : l.Nodup) :
    (x ∉ l → computeAdd s (calculateCommitment s l) x = calculateCommitment s (x :: l)) ∧
    (x ∈ l → s ≠ x →
      computeDelete s (calculateCommitment s l) x =
        Except.ok (calculateCommitment s (l.erase x))) := by
  constructor
  · intro _
    rw [calculateCommitment_eq_prod, calculateCommitment_eq_prod, List.map_cons,
      List.prod_cons, computeAdd]
    ring
  · intro hx hs
    have hperm : l.Perm (x :: l.erase x) := List.perm_cons_erase hx
    have hcc : calculateCommitment s l = (s - x) * calculateCommitment s (l.erase x) := by
      rw [calculateCommitment_perm s hperm, calculateCommitment_eq_prod,
        calculateCommitment_eq_prod, List.map_cons, List.prod_cons]
    have hne : s - x ≠ 0 := sub_ne_zero.mpr hs
    unfold computeDelete
    rw [if_neg hne, hcc, mul_comm (s - x), mul_assoc, mul_inv_cancel₀ hne, mul_one]

/-- Claim C4 (refutation as stated): over the actual BLS12-381 scalar field,
with the actual test trapdoor s = PRI_S, the set E = {0} and the element x = 0
(which lies in E), the value after add(x) differs from the commitment of the
set E ∪ {x} = E: the claim fails when x is already a member. -/
theorem claim4_counterexample :
    computeAdd (priSNat : ZMod rBLS) (calculateCommitment (priSNat : ZMod rBLS) [0]) 0 ≠
      calculateCommitment (priSNat : ZMod rBLS) [0] := by
  decide

instance fact_prime_101 : Fact (Nat.Prime 101) := ⟨by norm_num⟩

/-- Witness for claim4_amended at concrete inputs in the field ZMod 101. -/
theorem claim4_witness :
    ([(7 : ZMod 101)].Nodup) ∧
    computeAdd 2 (calculateCommitment 2 [(7 : ZMod 101)]) 5 =
      calculateCommitment 2 (5 :: [(7 : ZMod 101)]) ∧
    computeDelete 2 (calculateCommitment 2 [(7 : ZMod 101)]) 7 =
      Except.ok (calculateCommitment 2 ([(7 : ZMod 101)].erase 7)) :=
  ⟨by decide,
   (claim4_amended 2 5 [(7 : ZMod 101)] (by decide)).1 (by decide),
   (claim4_amended 2 7 [(7 : ZMod 101)] (by decide)).2 (by decide) (by decide)⟩

/-! ## Merkle path proofs and the update response (src/proof.rs, src/response.rs)

Hashes are an abstract type HashT; the two SHA-256 computations of
src/crypto.rs are abstract parameters: shaLeaf key sortedFids stands for
leaf_hash_fids (which hashes the length-prefixed key and the sorted fid list)
and shaNode stands for nonleaf_hash. -/

variable {HashT : Type} [DecidableEq HashT]

/-- Codepoint-wise lexicographic strict comparison of char lists: the total
order used to give finite string sets a deterministic enumeration. -/
def charListLt : List Char → List Char → Bool
  | [], [] => false
  | [], _ :: _ => true
  | _ :: _, [] => false
  | a :: as, b :: bs =>
      if a.toNat < b.toNat then true
      else if b.toNat < a.toNat then false
      else charListLt as bs

/-- The corresponding total order on strings (a ≤ b iff not b < a). -/
def strLe (a b : String) : Prop := charListLt b.data a.data = false

instance : DecidableRel strLe := fun a b => by unfold strLe; infer_instance

theorem charListLt_irrefl : ∀ l : List Char, charListLt l l = false := by
  intro l
  induction l with
  | nil => rfl
  | cons a as ih => simp [charListLt, ih]

theorem charListLt_trans :
    ∀ a b c : List Char, charListLt a b = true → charListLt b c = true →
      charListLt a c = true := by
  intro a
  induction a with
  | nil =>
      intro b c hab hbc
      cases b with
      | nil => simp [charListLt] at hab
      | cons y bs =>
          cases c with
          | nil => simp [charListLt] at hbc
          | cons z cs => simp [charListLt]
  | cons x as ih =>
      intro b c hab hbc
      cases b with
      | nil => simp [charListLt] at hab
      | cons y bs =>
          cases c with
          | nil => simp [charListLt] at hbc
          | cons z cs =>
              simp only [charListLt] at hab hbc ⊢
              by_cases hxy : x.toNat < y.toNat
              · by_cases hyz : y.toNat < z.toNat
                · simp [Nat.lt_trans hxy hyz]
                · simp only [if_pos hxy] at hab
                  by_cases hzy : z.toNat < y.toNat
                  · simp [if_neg hyz, hzy] at hbc
                  · have : y.toNat = z.toNat := by omega
                    simp [this ▸ hxy]
              · by_cases hyx : y.toNat < x.toNat
                · simp [hxy, hyx] at hab
                · have hxey : x.toNat = y.toNat := by omega
                  by_cases hyz : y.toNat < z.toNat
                  · simp [hxey ▸ hyz]
                  · by_cases hzy : z.toNat < y.toNat
                    · simp [hyz, hzy] at hbc
                    · have hyez : y.toNat = z.toNat := by omega
                      have hxz : ¬ x.toNat < z.toNat := by omega
                      have hzx : ¬ z.toNat < x.toNat := by omega
                      simp only [if_neg hxy, if_neg hyx] at hab
                      simp only [if_neg hyz, if_neg hzy] at hbc
                      simp [hxz, hzx, ih bs cs hab hbc]

theorem charListLt_antisymm :
    ∀ a b : List Char, charListLt a b = false → charListLt b a = false → a = b := by
  intro a
  induction a with
  | nil =>
      intro b hab _
      cases b with
      | nil => rfl
      | cons y bs => simp [charListLt] at hab
  | cons x as ih =>
      intro b hab hba
      cases b with
      | nil => simp [charListLt] at hba
      | cons y bs =>
          simp only [charListLt] at hab hba
          by_cases hxy : x.toNat < y.toNat
          · simp [hxy] at hab
          · by_cases hyx : y.toNat < x.toNat
            · simp [hxy, hyx] at hba
            · have hxy2 : ¬ y.toNat < x.toNat := hyx
              simp only [if_neg hxy, if_neg hyx] at hab
              simp only [if_neg hxy2, if_neg fun h => hxy h] at hba
              have hn : x.toNat = y.toNat := by omega
              have hchar : x = y := Char.ext (UInt32.ext hn)
              rw [hchar, ih bs hab hba]

instance : IsTotal String strLe :=
  ⟨fun a b => by
    unfold strLe
    cases h1 : charListLt b.data a.data with
    | false => exact Or.inl rfl
    | true =>
        cases h2 : charListLt a.data b.data with
        | false => exact Or.inr rfl
        | true =>
            have hself := charListLt_trans _ _ _ h1 h2
            rw [charListLt_irrefl] at hself
            exact absurd hself (by simp)⟩

instance : IsTrans String strLe :=
  ⟨fun a b c hab hbc => by
    unfold strLe at hab hbc ⊢
    cases hca : charListLt c.data a.data with
    | false => rfl
    | true =>
        exfalso
        cases hab2 : charListLt a.data b.data with
        | true =>
            have h2 := charListLt_trans _ _ _ hca hab2
            rw [hbc] at h2
            exact absurd h2 (by simp)
        | false =>
            have heq : a.data = b.data := charListLt_antisymm _ _ hab2 hab
            rw [← heq] at hbc
            rw [hbc] at hca
            exact absurd hca (by simp)⟩

instance : IsAntisymm String strLe :=
  ⟨fun a b hab hba => by
    have hd : b.data = a.data := charListLt_antisymm _ _ hab hba
    cases a with
    | mk d1 =>
        cases b with
        | mk d2 => exact congrArg String.mk hd.symm⟩

/-- The sorted enumeration of a finite set of strings, by insertion sort lifted
to the multiset quotient (two permutations sort to the same sorted list, so the
lift is well defined); this is the deterministic fid ordering of crypto.rs. -/
def sortedList (fids : Finset String) : List String :=
  Quotient.lift (List.insertionSort strLe)
    (fun l1 l2 (h : l1.Perm l2) =>
      List.eq_of_perm_of_sorted
        ((List.perm_insertionSort _ l1).trans (h.trans (List.perm_insertionSort _ l2).symm))
        (List.sorted_insertionSort _ l1) (List.sorted_insertionSort _ l2))
    fids.val

/-- leaf_hash_fids (src/crypto.rs 22-37): the fids are sorted before hashing. -/
def leafHashFids (shaLeaf : String → List String → HashT)
    (key : String) (fids : Finset String) : HashT :=
  shaLeaf key (sortedList fids)

/-- src/proof.rs Proof: root hash, leaf hash, and the sibling path from leaf to
root; each entry is (sibling_hash, sibling_is_left). -/
structure ProofM (HashT : Type) where
  root_hash : HashT
  leaf_hash : HashT
  path : List (HashT × Bool)

/-- Proof::verify (proof.rs 25-35): fold the path upwards from the leaf hash
and compare with the stored root hash. -/
def ProofM.verify (shaNode : HashT → HashT → HashT) (p : ProofM HashT) : Bool :=
  decide ((p.path.foldl
    (fun cur q => if q.2 then shaNode q.1 cur else shaNode cur q.1) p.leaf_hash) = p.root_hash)

/-- Proof::verify_with_kv in the fid-set design (the response.rs callers pass
(key, fids); the hash recomputed from them must match the stored leaf hash). -/
def ProofM.verifyWithKv (shaLeaf : String → List String → HashT)
    (shaNode : HashT → HashT → HashT) (p : ProofM HashT)
    (key : String) (fids : Finset String) : Bool :=
  if leafHashFids shaLeaf key fids ≠ p.leaf_hash then false else p.verify shaNode

/-- MembershipProof::verify (accumulator_ads proofs.rs 180-195) in the exponent
model: e(witness, g2^(s-element)) = e(accumulator, g2) becomes
witness * (s - element) = accumulator. -/
def membershipProofVerify (s : F) (witness element accumulator : F) : Bool :=
  decide (witness * (s - element) = accumulator)

/-- verify_membership (src/response.rs 61-76): digest the key to a field
element and check the membership pairing equation. -/
def verifyMembership (s : F) (digest : String → F) (acc witness : F) (key : String) : Bool :=
  membershipProofVerify s witness (digest key) acc

/-- src/response.rs UpdateResponse (lines 217-245). -/
structure UpdateResponseM (F HashT : Type) where
  key : String
  old_fid : String
  new_fid : String
  old_fids : Option (Finset String)
  new_fids : Finset String
  pre_proof : Option (ProofM HashT)
  pre_accumulator : Option F
  pre_membership_witness : Option F
  post_proof : ProofM HashT
  post_accumulator : F
  post_membership_witness : F
  pre_root_hash : Option HashT
  post_root_hash : HashT

/-- UpdateResponse::verify_update (src/response.rs 287-356).  The source is a
sequence of early-return-false checks; each conjunct below is one return site,
in source order: (1) old_fid was in the old fid set, (2) the new fid set is
old minus old_fid plus new_fid, (3) the pre Merkle proof verifies and matches
(key, old fids) when present, (4) the post Merkle proof verifies and matches
(key, new fids), (5) the pre and post sibling paths agree elementwise when the
pre proof is present, (6) the pre membership witness verifies when both pre
accumulator and witness are present, and the post membership witness verifies.
No comparison of pre and post accumulator values appears anywhere. -/
def UpdateResponseM.verifyUpdate (s : F) (digest : String → F)
    (shaLeaf : String → List String → HashT) (shaNode : HashT → HashT → HashT)
    (r : UpdateResponseM F HashT) : Bool :=
  match r.old_fids with
  | none => false
  | some old =>
      decide (r.old_fid ∈ old) &&
      decide (r.new_fids = (old \ {r.old_fid}) ∪ {r.new_fid}) &&
      (match r.pre_proof with
       | some pre_p =>
           pre_p.verify shaNode && pre_p.verifyWithKv shaLeaf shaNode r.key old
       | none => true) &&
      r.post_proof.verify shaNode &&
      r.post_proof.verifyWithKv shaLeaf shaNode r.key r.new_fids &&
      (match r.pre_proof with
       | some pre_p =>
           decide (pre_p.path.length = r.post_proof.path.length) &&
           (pre_p.path.zip r.post_proof.path).all (fun q => decide (q.1 = q.2))
       | none => true) &&
      (match r.pre_accumulator, r.pre_membership_witness with
       | some acc, some w => verifyMembership s digest acc w r.key
       | _, _ => true) &&
      verifyMembership s digest r.post_accumulator r.post_membership_witness r.key

theorem zip_all_eq {α : Type} [DecidableEq α] :
    ∀ l1 l2 : List α, l1.length = l2.length →
      ((l1.zip l2).all fun q => decide (q.1 = q.2)) = true → l1 = l2 := by
  intro l1
  induction l1 with
  | nil =>
      intro l2 hlen _
      exact (List.eq_nil_of_length_eq_zero hlen.symm).symm
  | cons a t ih =>
      intro l2 hlen hall
      cases l2 with
      | nil => simp at hlen
      | cons b t2 =>
          simp only [List.zip_cons_cons, List.all_cons, Bool.and_eq_true, decide_eq_true_eq] at hall
          have := ih t2 (by simpa using hlen) hall.2
          rw [hall.1, this]

/-- Claim C6, amended: when verify_update returns true, all the listed checks
hold except equality of the pre and post accumulator values, which the code
never compares; the pre-side checks apply when the optional pre fields are
present. -/
theorem claim6_amended {F HashT : Type} [CommRing F] [DecidableEq F] [DecidableEq HashT]
    (s : F) (digest : String → F)
    (shaLeaf : String → List String → HashT) (shaNode : HashT → HashT → HashT)
    (r : UpdateResponseM F HashT) (old : Finset String)
    (hold : r.old_fids = some old)
    (hver : r.verifyUpdate s digest shaLeaf shaNode = true) :
    r.old_fid ∈ old ∧
    r.new_fids = (old \ {r.old_fid}) ∪ {r.new_fid} ∧
    (∀ p, r.pre_proof = some p →
      p.verify shaNode = true ∧
      p.verifyWithKv shaLeaf shaNode r.key old = true ∧
      p.path = r.post_proof.path) ∧
    r.post_proof.verify shaNode = true ∧
    r.post_proof.verifyWithKv shaLeaf shaNode r.key r.new_fids = true ∧
    (∀ a w, r.pre_accumulator = some a → r.pre_membership_witness = some w →
      verifyMembership s digest a w r.key = true) ∧
    verifyMembership s digest r.post_accumulator r.post_membership_witness r.key = true := by
  unfold UpdateResponseM.verifyUpdate at hver
  rw [hold] at hver
  simp only [Bool.and_eq_true, decide_eq_true_eq] at hver
  obtain ⟨⟨⟨⟨⟨⟨⟨h1, h2⟩, h3⟩, h4⟩, h5⟩, h6⟩, h7⟩, h8⟩ := hver
  refine ⟨h1, h2, ?_, h4, h5, ?_, h8⟩
  · intro p hp
    rw [hp] at h3 h6
    simp only [Bool.and_eq_true, decide_eq_true_eq] at h3 h6
    exact ⟨h3.1, h3.2, zip_all_eq _ _ h6.1 h6.2⟩
  · intro a w ha hw
    rw [ha, hw] at h7
    exact h7

/-- A free hash algebra used to instantiate the abstract SHA-256 functions in
concrete witnesses: leafH stands for leaf_hash_fids, nodeH for nonleaf_hash. -/
inductive HashW where
  | leafH : String → List String → HashW
  | nodeH : HashW → HashW → HashW
deriving DecidableEq

/-- A concrete UpdateResponse whose pre and post accumulator values differ
(2 versus 4 in the exponent model) while every check of verify_update passes:
key "k", fid set {"a","b"} updated to {"b","c"}, single-leaf Merkle proofs with
empty sibling paths, trapdoor s = 2 and digest constantly 0, so the pre
witness 1 and post witness 2 both satisfy w * (s - 0) = acc. -/
def cexUpdateResponse : UpdateResponseM (ZMod rBLS) HashW :=
  { key := "k"
    old_fid := "a"
    new_fid := "c"
    old_fids := some {"a", "b"}
    new_fids := {"b", "c"}
    pre_proof := some
      { root_hash := leafHashFids HashW.leafH "k" {"a", "b"}
        leaf_hash := leafHashFids HashW.leafH "k" {"a", "b"}
        path := [] }
    pre_accumulator := some 2
    pre_membership_witness := some 1
    post_proof :=
      { root_hash := leafHashFids HashW.leafH "k" {"b", "c"}
        leaf_hash := leafHashFids HashW.leafH "k" {"b", "c"}
        path := [] }
    post_accumulator := 4
    post_membership_witness := 2
    pre_root_hash := some (leafHashFids HashW.leafH "k" {"a", "b"})
    post_root_hash := leafHashFids HashW.leafH "k" {"b", "c"} }

/-- Claim C6 (refutation as stated): verify_update accepts a response whose pre
and post accumulator values differ, because the code never compares them; so
"returns true only if ... the pre and post accumulator values are equal" is
false. -/
theorem claim6_counterexample :
    cexUpdateResponse.verifyUpdate 2 (fun _ => 0) HashW.leafH HashW.nodeH = true ∧
    cexUpdateResponse.pre_accumulator = some 2 ∧
    cexUpdateResponse.post_accumulator = 4 ∧
    (2 : ZMod rBLS) ≠ 4 := by
  exact ⟨by decide, rfl, rfl, by decide⟩

/-- Witness for claim6_amended at the concrete response above. -/
theorem claim6_witness :
    cexUpdateResponse.old_fids = some {"a", "b"} ∧
    ("a" ∈ ({"a", "b"} : Finset String) ∧
      cexUpdateResponse.new_fids =
        (({"a", "b"} : Finset String) \ {"a"}) ∪ {"c"} ∧
      (∀ p, cexUpdateResponse.pre_proof = some p →
        p.verify HashW.nodeH = true ∧
        p.verifyWithKv HashW.leafH HashW.nodeH "k" {"a", "b"} = true ∧
        p.path = cexUpdateResponse.post_proof.path) ∧
      cexUpdateResponse.post_proof.verify HashW.nodeH = true ∧
      cexUpdateResponse.post_proof.verifyWithKv HashW.leafH HashW.nodeH "k"
        cexUpdateResponse.new_fids = true ∧
      (∀ a w, cexUpdateResponse.pre_accumulator = some a →
        cexUpdateResponse.pre_membership_witness = some w →
        verifyMembership 2 (fun _ => (0 : ZMod rBLS)) a w "k" = true) ∧
      verifyMembership 2 (fun _ => (0 : ZMod rBLS))
        cexUpdateResponse.post_accumulator
        cexUpdateResponse.post_membership_witness "k" = true) :=
  ⟨rfl, claim6_amended 2 (fun _ => 0) HashW.leafH HashW.nodeH cexUpdateResponse
    {"a", "b"} rfl (by decide)⟩

/-! ## Polynomial division with remainder and the extended Euclidean algorithm
    (ark_poly divide_with_q_and_r, accumulator_ads utils.rs xgcd)

The executable polynomials stay coefficient lists; for the correctness proofs
each list is mapped to a Mathlib polynomial by toPoly, a ring-homomorphism-like
bridge, and divisibility and degree arguments happen on that side. -/

/-- Coefficient-wise subtraction. -/
def subP (p q : List F) : List F := addP p (negP q)

/-- The polynomial c * X^k * d as a coefficient list. -/
def mulXPowC (k : Nat) (c : F) (d : List F) : List F :=
  List.replicate k (0 : F) ++ d.map (fun e => c * e)

/-- The Mathlib polynomial denoted by a little-endian coefficient list. -/
noncomputable def toPoly : List F → Polynomial F
  | [] => 0
  | c :: p => Polynomial.C c + Polynomial.X * toPoly p

theorem toPoly_nil : toPoly ([] : List F) = 0 := rfl

theorem toPoly_cons (c : F) (p : List F) :
    toPoly (c :: p) = Polynomial.C c + Polynomial.X * toPoly p := rfl

theorem eval_toPoly (s : F) : ∀ p : List F, (toPoly p).eval s = evalP s p := by
  intro p
  induction p with
  | nil => simp [toPoly_nil, evalP_nil]
  | cons c q ih => simp [toPoly_cons, evalP_cons, ih]

theorem toPoly_addP : ∀ p q : List F, toPoly (addP p q) = toPoly p + toPoly q := by
  intro p
  induction p with
  | nil => intro q; simp [addP, toPoly_nil]
  | cons a p ih =>
      intro q
      cases q with
      | nil => simp [addP, toPoly_nil]
      | cons b q =>
          simp only [addP, toPoly_cons, ih, Polynomial.C_add]
          ring

theorem toPoly_negP : ∀ p : List F, toPoly (negP p) = -toPoly p := by
  intro p
  induction p with
  | nil => simp [negP, toPoly_nil]
  | cons a p ih =>
      simp only [negP, List.map_cons, toPoly_cons] at *
      rw [ih]
      simp
      ring

theorem toPoly_subP (p q : List F) : toPoly (subP p q) = toPoly p - toPoly q := by
  rw [subP, toPoly_addP, toPoly_negP]
  ring

theorem toPoly_map_mulRight (a : F) :
    ∀ p : List F, toPoly (p.map (fun c => c * a)) = toPoly p * Polynomial.C a := by
  intro p
  induction p with
  | nil => simp [toPoly_nil]
  | cons c q ih =>
      simp only [List.map_cons, toPoly_cons, ih, Polynomial.C_mul]
      ring

theorem toPoly_map_mulLeft (a : F) :
    ∀ p : List F, toPoly (p.map (fun c => a * c)) = Polynomial.C a * toPoly p := by
  intro p
  induction p with
  | nil => simp [toPoly_nil]
  | cons c q ih =>
      simp only [List.map_cons, toPoly_cons, ih, Polynomial.C_mul]
      ring

theorem toPoly_mulP : ∀ p q : List F, toPoly (mulP p q) = toPoly p * toPoly q := by
  intro p
  induction p with
  | nil => intro q; simp [mulP, toPoly_nil]
  | cons a p ih =>
      intro q
      simp only [mulP, toPoly_addP, toPoly_map_mulLeft, toPoly_cons, ih, Polynomial.C_0]
      ring

theorem toPoly_trimP : ∀ p : List F, toPoly (trimP p) = toPoly p := by
  intro p
  induction p with
  | nil => rfl
  | cons c cs ih =>
      simp only [trimP]
      cases htc : trimP cs with
      | nil =>
          rw [htc] at ih
          by_cases hc : c = 0
          · simp [hc, toPoly_nil, toPoly_cons, ← ih]
          · simp [hc, toPoly_cons, ← ih, toPoly_nil]
      | cons c' cs' =>
          rw [htc] at ih
          simp [toPoly_cons, ih]

theorem toPoly_replicate_append (k : Nat) (d : List F) :
    toPoly (List.replicate k (0 : F) ++ d) = Polynomial.X ^ k * toPoly d := by
  induction k with
  | zero => simp [toPoly_nil]
  | succ n ih =>
      simp only [List.replicate_succ, List.cons_append, toPoly_cons, ih, Polynomial.C_0]
      ring

theorem toPoly_mulXPowC (k : Nat) (c : F) (d : List F) :
    toPoly (mulXPowC k c d) = Polynomial.C c * Polynomial.X ^ k * toPoly d := by
  rw [mulXPowC, toPoly_replicate_append, toPoly_map_mulLeft]
  ring

theorem toPoly_set : ∀ (q : List F) (k : Nat) (c : F), k < q.length →
    toPoly (q.set k c) =
      toPoly q + (Polynomial.C c - Polynomial.C (q.getD k 0)) * Polynomial.X ^ k := by
  intro q
  induction q with
  | nil => intro k c h; simp at h
  | cons a p ih =>
      intro k c h
      cases k with
      | zero =>
          simp only [List.set, toPoly_cons, List.getD, List.get?, pow_zero]
          simp
          ring
      | succ m =>
          have hm : m < p.length := by simpa using h
          have hset : (a :: p).set (m + 1) c = a :: p.set m c := rfl
          have hgd : (a :: p).getD (m + 1) 0 = p.getD m 0 := rfl
          rw [hset, toPoly_cons, ih m c hm, toPoly_cons, hgd]
          ring

theorem degree_toPoly_lt [Nontrivial F] : ∀ p : List F, (toPoly p).degree < (p.length : WithBot Nat) := by
  intro p
  induction p with
  | nil => simp [toPoly_nil]
  | cons c q ih =>
      rw [toPoly_cons, List.length_cons]
      apply lt_of_le_of_lt (Polynomial.degree_add_le _ _)
      rw [max_lt_iff]
      refine ⟨lt_of_le_of_lt Polynomial.degree_C_le ?_, ?_⟩
      · exact_mod_cast Nat.succ_pos q.length
      · calc (Polynomial.X * toPoly q).degree ≤ 1 + (toPoly q).degree := by
              have hmul := Polynomial.degree_mul_le Polynomial.X (toPoly q)
              rwa [Polynomial.degree_X] at hmul
          _ < 1 + (q.length : WithBot Nat) := WithBot.add_lt_add_left (by simp) ih
          _ = ((q.length + 1 : Nat) : WithBot Nat) := by push_cast; ring

/-- The ark invariant on coefficient vectors: no trailing zero (the zero
polynomial is the empty vector). -/
def Trimmed (l : List F) : Prop := l.getLast? ≠ some 0

theorem trimmed_nil : Trimmed ([] : List F) := by simp [Trimmed]

theorem trimmed_trimP : ∀ l : List F, Trimmed (trimP l) := by
  intro l
  induction l with
  | nil => simp [trimP, Trimmed]
  | cons c cs ih =>
      simp only [trimP]
      cases htc : trimP cs with
      | nil =>
          by_cases hc : c = 0
          · simp [hc, Trimmed]
          · simp [hc, Trimmed]
      | cons c' cs' =>
          rw [htc] at ih
          simpa [Trimmed, List.getLast?_cons_cons] using ih

theorem getD_addP : ∀ (p q : List F) (i : Nat),
    (addP p q).getD i 0 = p.getD i 0 + q.getD i 0 := by
  intro p
  induction p with
  | nil => intro q i; simp [addP]
  | cons a p ih =>
      intro q i
      cases q with
      | nil => simp [addP]
      | cons b q =>
          cases i with
          | zero => simp [addP]
          | succ j => simpa [addP] using ih q j

theorem getD_negP : ∀ (p : List F) (i : Nat), (negP p).getD i 0 = -(p.getD i 0) := by
  intro p
  induction p with
  | nil => intro i; simp [negP]
  | cons a p ih =>
      intro i
      cases i with
      | zero => simp [negP]
      | succ j => simpa [negP] using ih j

theorem getD_map_mul (c : F) : ∀ (d : List F) (i : Nat),
    (d.map (fun e => c * e)).getD i 0 = c * d.getD i 0 := by
  intro d
  induction d with
  | nil => intro i; simp
  | cons a d ih =>
      intro i
      cases i with
      | zero => simp
      | succ j => simpa using ih j

theorem getD_mulXPowC : ∀ (k : Nat) (c : F) (d : List F) (i : Nat), k ≤ i →
    (mulXPowC k c d).getD i 0 = c * d.getD (i - k) 0 := by
  intro k
  induction k with
  | zero =>
      intro c d i _
      simp only [mulXPowC, List.replicate, List.nil_append, Nat.sub_zero]
      exact getD_map_mul c d i
  | succ m ih =>
      intro c d i hki
      cases i with
      | zero => omega
      | succ j =>
          have hmj : m ≤ j := Nat.le_of_succ_le_succ hki
          have hstep : mulXPowC (m + 1) c d = (0 : F) :: mulXPowC m c d := by
            simp [mulXPowC, List.replicate_succ]
          rw [hstep]
          simpa [Nat.succ_sub_succ] using ih c d j hmj

theorem length_addP : ∀ p q : List F, (addP p q).length = max p.length q.length := by
  intro p
  induction p with
  | nil => intro q; simp [addP]
  | cons a p ih =>
      intro q
      cases q with
      | nil => simp [addP]
      | cons b q => simp [addP, ih, Nat.succ_max_succ]

theorem length_negP (p : List F) : (negP p).length = p.length := by simp [negP]

theorem length_mulXPowC (k : Nat) (c : F) (d : List F) :
    (mulXPowC k c d).length = k + d.length := by
  simp [mulXPowC]

theorem getD_replicate_zero : ∀ (n j : Nat), (List.replicate n (0 : F)).getD j 0 = 0 := by
  intro n
  induction n with
  | zero => intro j; simp
  | succ m ih =>
      intro j
      cases j with
      | zero => simp [List.replicate_succ]
      | succ i => simpa [List.replicate_succ] using ih i

theorem trimP_length_le : ∀ l : List F, (trimP l).length ≤ l.length := by
  intro l
  induction l with
  | nil => simp [trimP]
  | cons c cs ih =>
      simp only [trimP]
      cases htc : trimP cs with
      | nil => by_cases hc : c = 0 <;> simp [hc]
      | cons c' cs' =>
          rw [htc] at ih
          simpa using ih

theorem trimP_length_le_of_zeros :
    ∀ (l : List F) (n : Nat), (∀ i, n ≤ i → l.getD i 0 = 0) → (trimP l).length ≤ n := by
  intro l
  induction l with
  | nil => intro n _; simp [trimP]
  | cons c cs ih =>
      intro n hz
      cases n with
      | zero =>
          have hc : c = 0 := hz 0 (Nat.le_refl 0)
          have hcs : trimP cs = [] := by
            have : (trimP cs).length ≤ 0 := ih 0 (fun i _ => hz (i + 1) (Nat.zero_le _))
            exact List.eq_nil_of_length_eq_zero (Nat.le_zero.mp this)
          simp [trimP, hcs, hc]
      | succ m =>
          have hcs : (trimP cs).length ≤ m := ih m (fun i hi => hz (i + 1) (by omega))
          simp only [trimP]
          cases htc : trimP cs with
          | nil => by_cases hc : c = 0 <;> simp [hc]
          | cons c' cs' =>
              rw [htc] at hcs
              simpa using hcs

theorem getD_last (l : List F) (hl : l ≠ []) :
    l.getD (l.length - 1) 0 = l.getLast?.getD 0 := by
  induction l with
  | nil => exact absurd rfl hl
  | cons a t ih =>
      cases t with
      | nil => simp
      | cons b u =>
          have hne : b :: u ≠ ([] : List F) := by simp
          have := ih hne
          simpa [List.getLast?_cons_cons, Nat.succ_sub_one] using this

theorem trimmed_getLast_ne_zero (l : List F) (hT : Trimmed l) (hl : l ≠ []) :
    l.getLast?.getD 0 ≠ 0 := by
  cases hgl : l.getLast? with
  | none => exact absurd (List.getLast?_eq_none_iff.mp hgl) hl
  | some v =>
      intro hv
      simp only [Option.getD_some] at hv
      exact hT (hv ▸ hgl)

end RingCore

section FieldCore

variable {F : Type} [Field F] [DecidableEq F]

/-! ### The ark division loop (DenseOrSparsePolynomial::divide_with_q_and_r)

while !remainder.is_zero() and remainder.degree() >= divisor.degree():
  cur_q_coeff = remainder.leading * divisor_leading_inv;
  cur_q_degree = remainder.degree() - divisor.degree();
  quotient[cur_q_degree] = cur_q_coeff;
  remainder -= cur_q_coeff * X^cur_q_degree * divisor; truncate leading zeros.

Both polynomials are trimmed, so is_zero is emptiness and degree is length-1;
the loop is rendered with a fuel argument (the remainder length strictly drops
each iteration, so fuel = initial length always suffices). -/
def divModLoop (dvr : List F) (dinv : F) :
    Nat → List F → List F → List F × List F
  | 0, q, rem => (q, rem)
  | fuel + 1, q, rem =>
      if rem ≠ [] ∧ dvr.length ≤ rem.length then
        let c := rem.getLast?.getD 0 * dinv
        let k := rem.length - dvr.length
        let rem2 := trimP (subP rem (mulXPowC k c dvr))
        divModLoop dvr dinv fuel (q.set k c) rem2
      else (q, rem)

/-- One division step strictly shortens the (trimmed) remainder: the leading
coefficients cancel. -/
theorem divStep_length (dvr rem : List F) (hdT : Trimmed dvr) (hd : dvr ≠ [])
    (hrT : Trimmed rem) (hr : rem ≠ []) (hlen : dvr.length ≤ rem.length) :
    (trimP (subP rem (mulXPowC (rem.length - dvr.length)
      (rem.getLast?.getD 0 * (dvr.getLast?.getD 0)⁻¹) dvr))).length < rem.length := by
  have hd1 : 1 ≤ dvr.length := List.length_pos.mpr hd
  have hr1 : 1 ≤ rem.length := List.length_pos.mpr hr
  set c := rem.getLast?.getD 0 * (dvr.getLast?.getD 0)⁻¹ with hc
  set k := rem.length - dvr.length with hk
  have hzeros : ∀ i, rem.length - 1 ≤ i → (subP rem (mulXPowC k c dvr)).getD i 0 = 0 := by
    intro i hi
    rw [subP, getD_addP, getD_negP]
    rcases Nat.lt_or_ge i rem.length with hlt | hge
    · have hieq : i = rem.length - 1 := by omega
      subst hieq
      rw [getD_last rem hr]
      have hki : k ≤ rem.length - 1 := by omega
      rw [getD_mulXPowC _ _ _ _ hki]
      have hidx : rem.length - 1 - k = dvr.length - 1 := by omega
      rw [hidx, getD_last dvr hd]
      have hdz : dvr.getLast?.getD 0 ≠ 0 := trimmed_getLast_ne_zero dvr hdT hd
      field_simp [hc]
    · have h1 : rem.getD i 0 = 0 := List.getD_eq_default _ _ hge
      have h2 : (mulXPowC k c dvr).getD i 0 = 0 := by
        apply List.getD_eq_default
        rw [length_mulXPowC]
        omega
      rw [h1, h2]
      ring
  have hle := trimP_length_le_of_zeros _ (rem.length - 1) hzeros
  omega

theorem divModLoop_spec (dvr : List F) (hdT : Trimmed dvr) (hd : dvr ≠ []) :
    ∀ (fuel : Nat) (q rem : List F),
      Trimmed rem →
      rem.length ≤ fuel →
      rem.length + 1 ≤ q.length + dvr.length →
      (∀ j, j + dvr.length ≤ rem.length → q.getD j 0 = 0) →
      Trimmed (divModLoop dvr ((dvr.getLast?.getD 0)⁻¹) fuel q rem).2 ∧
      ((divModLoop dvr ((dvr.getLast?.getD 0)⁻¹) fuel q rem).2 = [] ∨
        (divModLoop dvr ((dvr.getLast?.getD 0)⁻¹) fuel q rem).2.length < dvr.length) ∧
      toPoly (divModLoop dvr ((dvr.getLast?.getD 0)⁻¹) fuel q rem).1 * toPoly dvr +
          toPoly (divModLoop dvr ((dvr.getLast?.getD 0)⁻¹) fuel q rem).2 =
        toPoly q * toPoly dvr + toPoly rem := by
  intro fuel
  induction fuel with
  | zero =>
      intro q rem hrT hfuel _ _
      have : rem = [] := List.eq_nil_of_length_eq_zero (Nat.le_zero.mp hfuel)
      subst this
      exact ⟨trimmed_nil, Or.inl rfl, rfl⟩
  | succ n ih =>
      intro q rem hrT hfuel hqlen hqz
      by_cases hguard : rem ≠ [] ∧ dvr.length ≤ rem.length
      · obtain ⟨hr, hlen⟩ := hguard
        have hstep :
            divModLoop dvr ((dvr.getLast?.getD 0)⁻¹) (n + 1) q rem =
              divModLoop dvr ((dvr.getLast?.getD 0)⁻¹) n
                (q.set (rem.length - dvr.length)
                  (rem.getLast?.getD 0 * (dvr.getLast?.getD 0)⁻¹))
                (trimP (subP rem (mulXPowC (rem.length - dvr.length)
                  (rem.getLast?.getD 0 * (dvr.getLast?.getD 0)⁻¹) dvr))) := by
          rw [divModLoop]
          rw [if_pos ⟨hr, hlen⟩]
        set c := rem.getLast?.getD 0 * (dvr.getLast?.getD 0)⁻¹ with hc
        set k := rem.length - dvr.length with hkdef
        set rem2 := trimP (subP rem (mulXPowC k c dvr)) with hrem2
        have hd1 : 1 ≤ dvr.length := List.length_pos.mpr hd
        have hkq : k < q.length := by omega
        have hqk0 : q.getD k 0 = 0 := hqz k (by omega)
        have hlt : rem2.length < rem.length :=
          divStep_length dvr rem hdT hd hrT hr hlen
        have hrec := ih (q.set k c) rem2 (trimmed_trimP _) (by omega)
          (by rw [List.length_set]; omega)
          (by
            intro j hj
            have hjk : j < k := by omega
            rw [List.getD_eq_getElem?_getD]
            rw [List.getElem?_set_ne (by omega)]
            rw [← List.getD_eq_getElem?_getD]
            exact hqz j (by omega))
        rw [hstep]
        refine ⟨hrec.1, hrec.2.1, ?_⟩
        rw [hrec.2.2]
        have hsetP : toPoly (q.set k c) =
            toPoly q + (Polynomial.C c - Polynomial.C (q.getD k 0)) * Polynomial.X ^ k :=
          toPoly_set q k c hkq
        have hrem2P : toPoly rem2 =
            toPoly rem - Polynomial.C c * Polynomial.X ^ k * toPoly dvr := by
          rw [hrem2, toPoly_trimP, toPoly_subP, toPoly_mulXPowC]
        rw [hsetP, hrem2P, hqk0, Polynomial.C_0]
        ring
      · rw [divModLoop, if_neg hguard]
        rcases Decidable.not_and_iff_or_not.mp hguard with h1 | h2
        · have hnil : rem = [] := Decidable.not_not.mp h1
          exact ⟨hrT, Or.inl hnil, rfl⟩
        · have hshort : rem.length < dvr.length := by omega
          exact ⟨hrT, Or.inr hshort, rfl⟩

/-- DenseOrSparsePolynomial::divide_with_q_and_r (ark_poly): division by the
zero polynomial is the None path (matched by the question-mark operator in
utils.rs xgcd); the quotient vector is preallocated with zeros and rebuilt by
from_coefficients_vec, which trims. -/
def divideWithQR (a b : List F) : Option (List F × List F) :=
  if a = [] then some ([], [])
  else if b = [] then none
  else if a.length < b.length then some ([], a)
  else
    let dinv := (b.getLast?.getD 0)⁻¹
    let q0 := List.replicate (a.length - b.length + 1) (0 : F)
    let res := divModLoop b dinv a.length q0 a
    some (trimP res.1, res.2)

theorem divideWithQR_spec (a b : List F) (haT : Trimmed a) (hbT : Trimmed b)
    (hb : b ≠ []) :
    ∃ q r, divideWithQR a b = some (q, r) ∧
      toPoly a = toPoly q * toPoly b + toPoly r ∧
      Trimmed r ∧ (r = [] ∨ r.length < b.length) := by
  by_cases ha : a = []
  · refine ⟨[], [], ?_, ?_, trimmed_nil, Or.inl rfl⟩
    · simp [divideWithQR, ha]
    · subst ha; simp [toPoly_nil]
  · by_cases hab : a.length < b.length
    · refine ⟨[], a, ?_, ?_, haT, Or.inr hab⟩
      · simp [divideWithQR, ha, hb, hab]
      · simp [toPoly_nil]
    · have hb1 : 1 ≤ b.length := List.length_pos.mpr hb
      have hba : b.length ≤ a.length := Nat.le_of_not_lt hab
      have hq0 : ∀ j n, (List.replicate n (0 : F)).getD j 0 = 0 := fun j n =>
        getD_replicate_zero n j
      have hspec := divModLoop_spec b hbT hb a.length
        (List.replicate (a.length - b.length + 1) (0 : F)) a haT (Nat.le_refl _)
        (by rw [List.length_replicate]; omega)
        (fun j _ => hq0 j _)
      refine ⟨trimP (divModLoop b ((b.getLast?.getD 0)⁻¹) a.length
          (List.replicate (a.length - b.length + 1) (0 : F)) a).1,
        (divModLoop b ((b.getLast?.getD 0)⁻¹) a.length
          (List.replicate (a.length - b.length + 1) (0 : F)) a).2,
        ?_, ?_, hspec.1, hspec.2.1⟩
      · simp [divideWithQR, ha, hb, hab]
      · have hrepl : toPoly (List.replicate (a.length - b.length + 1) (0 : F)) = 0 := by
          have h0 : List.replicate (a.length - b.length + 1) (0 : F) =
              List.replicate (a.length - b.length + 1) (0 : F) ++ [] := by simp
          rw [h0, toPoly_replicate_append, toPoly_nil, mul_zero]
        have hiden := hspec.2.2
        rw [hrepl, zero_mul, zero_add] at hiden
        rw [toPoly_trimP, hiden]

/-! ### Degree of a trimmed coefficient list -/

theorem toPoly_append : ∀ p q : List F,
    toPoly (p ++ q) = toPoly p + Polynomial.X ^ p.length * toPoly q := by
  intro p
  induction p with
  | nil => intro q; simp [toPoly_nil]
  | cons c p ih =>
      intro q
      simp only [List.cons_append, toPoly_cons, ih, List.length_cons]
      ring

theorem degree_toPoly_trimmed (l : List F) (hT : Trimmed l) (hl : l ≠ []) :
    (toPoly l).degree = ((l.length - 1 : Nat) : WithBot Nat) := by
  have hc0 : l.getLast hl ≠ 0 := by
    intro h
    exact hT (by rw [List.getLast?_eq_getLast l hl, h])
  have hsplit : l.dropLast ++ [l.getLast hl] = l := List.dropLast_append_getLast hl
  have hlen : l.dropLast.length = l.length - 1 := List.length_dropLast l
  have hXC : (Polynomial.X ^ l.dropLast.length *
      toPoly [l.getLast hl]).degree = (l.dropLast.length : WithBot Nat) := by
    have h1 : toPoly [l.getLast hl] = Polynomial.C (l.getLast hl) := by
      simp [toPoly_cons, toPoly_nil]
    rw [h1, Polynomial.degree_mul, Polynomial.degree_X_pow, Polynomial.degree_C hc0,
      add_zero]
  have h1 : toPoly l = toPoly (l.dropLast ++ [l.getLast hl]) := by rw [hsplit]
  calc (toPoly l).degree
      = (toPoly l.dropLast + Polynomial.X ^ l.dropLast.length *
          toPoly [l.getLast hl]).degree := by rw [h1, toPoly_append]
    _ = (Polynomial.X ^ l.dropLast.length * toPoly [l.getLast hl]).degree := by
        apply Polynomial.degree_add_eq_right_of_degree_lt
        rw [hXC]
        exact degree_toPoly_lt l.dropLast
    _ = ((l.length - 1 : Nat) : WithBot Nat) := by rw [hXC, hlen]

theorem toPoly_ne_zero_of_trimmed (l : List F) (hT : Trimmed l) (hl : l ≠ []) :
    toPoly l ≠ 0 := by
  intro h0
  have := degree_toPoly_trimmed l hT hl
  rw [h0, Polynomial.degree_zero] at this
  exact absurd this.symm (by simp)

theorem toPoly_linear (e : F) :
    toPoly [-e, (1 : F)] = Polynomial.X - Polynomial.C e := by
  simp only [toPoly_cons, toPoly_nil, Polynomial.C_neg, Polynomial.C_1]
  ring

/-! ### The extended Euclidean algorithm (utils.rs xgcd, lines 51-73)

while !a.is_zero():
  (q, r) = b.divide_with_q_and_r(a)?;  b = a; a = r;
  y1, y0 = y0 - q*y1, y1;  x1, x0 = x0 - q*x1, x1
return (b, x0, y0) - so a*x + b*y = g on the returned triple.

Rendered with a fuel bound on iterations: the length of a strictly decreases,
so fuel = initial length + 1 suffices (the fuel-0 return mirrors loop exit). -/
def xgcdLoop : Nat → List F → List F → List F → List F → List F → List F →
    Option (List F × List F × List F)
  | 0, _, b, x0, _, y0, _ => some (b, x0, y0)
  | fuel + 1, a, b, x0, x1, y0, y1 =>
      if a = [] then some (b, x0, y0)
      else
        match divideWithQR b a with
        | none => none
        | some (q, r) =>
            xgcdLoop fuel r a x1 (trimP (subP x0 (mulP q x1))) y1
              (trimP (subP y0 (mulP q y1)))

/-- xgcd (utils.rs 51-73): returns (g, x, y) with a*x + b*y = g = gcd(a, b). -/
def xgcd (a b : List F) : Option (List F × List F × List F) :=
  xgcdLoop (a.length + 1) a b [] [(1 : F)] [(1 : F)] []

theorem xgcdLoop_spec (P Q : Polynomial F) :
    ∀ (fuel : Nat) (a b x0 x1 y0 y1 : List F),
      Trimmed a → Trimmed b → b ≠ [] →
      a.length < fuel →
      toPoly a = toPoly x1 * P + toPoly y1 * Q →
      toPoly b = toPoly x0 * P + toPoly y0 * Q →
      ∃ g xg yg, xgcdLoop fuel a b x0 x1 y0 y1 = some (g, xg, yg) ∧
        g ≠ [] ∧ Trimmed g ∧
        toPoly g = toPoly xg * P + toPoly yg * Q ∧
        toPoly g ∣ toPoly a ∧ toPoly g ∣ toPoly b := by
  intro fuel
  induction fuel with
  | zero =>
      intro a b x0 x1 y0 y1 _ _ _ hlen _ _
      omega
  | succ n ih =>
      intro a b x0 x1 y0 y1 haT hbT hb hlen hbezA hbezB
      by_cases ha : a = []
      · refine ⟨b, x0, y0, ?_, hb, hbT, hbezB, ?_, dvd_rfl⟩
        · rw [xgcdLoop, if_pos ha]
        · rw [ha, toPoly_nil]
          exact dvd_zero _
      · obtain ⟨q, r, hdiv, hiden, hrT, hrlen⟩ := divideWithQR_spec b a hbT haT ha
        have ha1 : 1 ≤ a.length := List.length_pos.mpr ha
        have hrlen2 : r.length < n := by
          rcases hrlen with h | h
          · subst h; simp; omega
          · omega
        have hbezR : toPoly r =
            toPoly (trimP (subP x0 (mulP q x1))) * P +
              toPoly (trimP (subP y0 (mulP q y1))) * Q := by
          rw [toPoly_trimP, toPoly_trimP, toPoly_subP, toPoly_subP, toPoly_mulP,
            toPoly_mulP]
          have : toPoly r = toPoly b - toPoly q * toPoly a := by
            rw [hiden]; ring
          rw [this, hbezA, hbezB]
          ring
        obtain ⟨g, xg, yg, hrec, hgne, hgT, hbez, hdvdR, hdvdA⟩ :=
          ih r a x1 (trimP (subP x0 (mulP q x1))) y1 (trimP (subP y0 (mulP q y1)))
            hrT haT ha hrlen2 hbezR hbezA
        refine ⟨g, xg, yg, ?_, hgne, hgT, hbez, hdvdA, ?_⟩
        · rw [xgcdLoop, if_neg ha, hdiv]
          exact hrec
        · rw [hiden]
          exact dvd_add (Dvd.dvd.mul_left hdvdA (toPoly q)) hdvdR

theorem xgcd_spec (a b : List F) (haT : Trimmed a) (hbT : Trimmed b) (hb : b ≠ []) :
    ∃ g xg yg, xgcd a b = some (g, xg, yg) ∧ g ≠ [] ∧ Trimmed g ∧
      toPoly g = toPoly xg * toPoly a + toPoly yg * toPoly b ∧
      toPoly g ∣ toPoly a ∧ toPoly g ∣ toPoly b := by
  have h := xgcdLoop_spec (toPoly a) (toPoly b) (a.length + 1) a b [] [(1 : F)]
    [(1 : F)] [] haT hbT hb (Nat.lt_succ_self _) ?_ ?_
  · exact h
  · simp [toPoly_cons, toPoly_nil]
  · simp [toPoly_cons, toPoly_nil]

/-! ### compute_non_membership_witness
    (dynamic_accumulator.rs lines 167-202) -/

/-- The accumulation loop building P(X) for the current set
(dynamic_accumulator.rs lines 173-177): p starts at the constant 1 and is
multiplied by each monic linear factor (X - elem) in turn. -/
def buildSetPoly (set : List F) : List F :=
  set.foldl (fun acc e => trimP (mulP acc [-e, (1 : F)])) [(1 : F)]

/-- DynamicAccumulator::compute_non_membership_witness: build P(X) for the set
by repeated multiplication with the monic linear factors, solve the Bezout
identity A(X)P(X) + B(X)(X-element) = gcd by xgcd, fail unless the gcd is a
nonzero constant, normalize, and return (g2^B(s), g2^A(s)). -/
def computeNonMembershipWitness (s element : F) (set : List F) :
    Except String (F × F) :=
  let pPoly := buildSetPoly set
  let elemPoly := [-element, (1 : F)]
  match xgcd pPoly elemPoly with
  | none => Except.error "XGCD failed"
  | some (g, aPoly, bPoly) =>
      if g.length - 1 ≠ 0 then
        Except.error "GCD is not constant, element might be in set"
      else
        let gVal := g.getD 0 0
        if gVal = 0 then Except.error "GCD inverse failed"
        else
          let gInv := gVal⁻¹
          let aNorm := aPoly.map (fun c => c * gInv)
          let bNorm := bPoly.map (fun c => c * gInv)
          Except.ok (polyToG2 s bNorm, polyToG2 s aNorm)

/-- NonMembershipProof::verify (proofs.rs 226-242) in the exponent model:
e(acc, g2^A) * e(g1^(s-x), g2^B) = e(g1, g2) becomes
acc * A + (s - x) * B = 1. -/
def nonMembershipProofVerify (s accValue element witnessB g2a : F) : Bool :=
  decide (accValue * g2a + (s - element) * witnessB = 1)

theorem foldl_linear_trimmed (E : List F) :
    ∀ acc : List F, Trimmed acc →
      Trimmed (E.foldl (fun a e => trimP (mulP a [-e, (1 : F)])) acc) := by
  induction E with
  | nil => intro acc h; exact h
  | cons e E ih =>
      intro acc _
      exact ih _ (trimmed_trimP _)

theorem foldl_linear_toPoly (E : List F) :
    ∀ acc : List F,
      toPoly (E.foldl (fun a e => trimP (mulP a [-e, (1 : F)])) acc) =
        toPoly acc * (E.map (fun e => Polynomial.X - Polynomial.C e)).prod := by
  induction E with
  | nil => intro acc; simp
  | cons e E ih =>
      intro acc
      simp only [List.foldl_cons, List.map_cons, List.prod_cons, ih,
        toPoly_trimP, toPoly_mulP, toPoly_linear]
      ring

theorem buildSetPoly_trimmed (E : List F) : Trimmed (buildSetPoly E) :=
  foldl_linear_trimmed E [(1 : F)] (by simp [Trimmed])

theorem buildSetPoly_toPoly (E : List F) :
    toPoly (buildSetPoly E) =
      (E.map (fun e => Polynomial.X - Polynomial.C e)).prod := by
  rw [buildSetPoly, foldl_linear_toPoly]
  simp [toPoly_cons, toPoly_nil]

theorem buildSetPoly_ne_zero (E : List F) : toPoly (buildSetPoly E) ≠ 0 := by
  rw [buildSetPoly_toPoly]
  apply List.prod_ne_zero
  intro h0
  obtain ⟨e, _, he⟩ := List.mem_map.mp h0
  exact Polynomial.X_sub_C_ne_zero e he

theorem buildSetPoly_eval (E : List F) (t : F) :
    (toPoly (buildSetPoly E)).eval t = (E.map (fun e => t - e)).prod := by
  rw [buildSetPoly_toPoly, Polynomial.eval_list_prod, List.map_map]
  congr 1
  apply List.map_congr_left
  intro e _
  simp

theorem buildSetPoly_root_iff (E : List F) (x : F) :
    (toPoly (buildSetPoly E)).eval x = 0 ↔ x ∈ E := by
  rw [buildSetPoly_eval, List.prod_eq_zero_iff]
  constructor
  · intro h0
    obtain ⟨e, heE, he⟩ := List.mem_map.mp h0
    have hxe : x = e := sub_eq_zero.mp he
    rw [hxe]
    exact heE
  · intro hx
    exact List.mem_map.mpr ⟨x, hx, by simp⟩

/-- Claim C5: constructing the non-membership witnesses for (x, E) returns an
error if and only if x is an element of E; and whenever x is not in E, the
resulting proof verifies (in the exponent model of the pairing equation)
against the commitment of E. -/
theorem claim5_nonmembership (s x : F) (E : List F) :
    ((∃ w, computeNonMembershipWitness s x E = Except.ok w) ↔ x ∉ E) ∧
    (∀ wB wA, computeNonMembershipWitness s x E = Except.ok (wB, wA) →
      nonMembershipProofVerify s (calculateCommitment s E) x wB wA = true) := by
  have hPT : Trimmed (buildSetPoly E) := buildSetPoly_trimmed E
  have hPne0 : toPoly (buildSetPoly E) ≠ 0 := buildSetPoly_ne_zero E
  have hPnil : buildSetPoly E ≠ [] := by
    intro h
    exact hPne0 (by rw [h, toPoly_nil])
  have hET : Trimmed [-x, (1 : F)] := by simp [Trimmed]
  have hEnil : ([-x, (1 : F)] : List F) ≠ [] := by simp
  obtain ⟨g, xg, yg, hxgcd, hgne, hgT, hbez, hdvdP, hdvdE⟩ :=
    xgcd_spec (buildSetPoly E) [-x, (1 : F)] hPT hET hEnil
  rw [toPoly_linear] at hbez hdvdE
  have hgne0 : toPoly g ≠ 0 := toPoly_ne_zero_of_trimmed g hgT hgne
  have hg1 : 1 ≤ g.length := List.length_pos.mpr hgne
  by_cases hxE : x ∈ E
  · -- x in E: X - C x divides both inputs, hence the gcd, which cannot be
    -- constant; the degree check fires and the construction errors out.
    have hdvd1 : (Polynomial.X - Polynomial.C x) ∣ toPoly (buildSetPoly E) :=
      Polynomial.dvd_iff_isRoot.mpr ((buildSetPoly_root_iff E x).mpr hxE)
    have hdvdg : (Polynomial.X - Polynomial.C x) ∣ toPoly g := by
      rw [hbez]
      exact dvd_add (Dvd.dvd.mul_left hdvd1 (toPoly xg))
        (dvd_mul_left _ (toPoly yg))
    have hdegle := Polynomial.degree_le_of_dvd hdvdg hgne0
    rw [Polynomial.degree_X_sub_C, degree_toPoly_trimmed g hgT hgne] at hdegle
    have hglen2 : 1 ≤ g.length - 1 := by exact_mod_cast hdegle
    have herr : computeNonMembershipWitness s x E =
        Except.error "GCD is not constant, element might be in set" := by
      unfold computeNonMembershipWitness
      dsimp only
      rw [hxgcd]
      dsimp only
      rw [if_pos (show g.length - 1 ≠ 0 by omega)]
    refine ⟨⟨?_, fun hnot => absurd hxE hnot⟩, ?_⟩
    · rintro ⟨w, hw⟩
      rw [herr] at hw
      exact absurd hw (by simp)
    · intro wB wA hok
      rw [herr] at hok
      exact absurd hok (by simp)
  · -- x not in E: the gcd divides X - C x but cannot be a multiple of it
    -- (that would make x a root of P), so it is a nonzero constant; the
    -- construction succeeds and the Bezout identity evaluated at s gives the
    -- verification equation.
    have hdegle := Polynomial.degree_le_of_dvd hdvdE
      (Polynomial.X_sub_C_ne_zero x)
    rw [Polynomial.degree_X_sub_C, degree_toPoly_trimmed g hgT hgne] at hdegle
    have hglen2 : g.length - 1 ≤ 1 := by exact_mod_cast hdegle
    have hglen : g.length = 1 := by
      rcases Nat.lt_or_ge g.length 2 with h2 | h2
      · omega
      · exfalso
        have hdeg1 : (toPoly g).degree = (1 : WithBot Nat) := by
          rw [degree_toPoly_trimmed g hgT hgne]
          have : g.length - 1 = 1 := by omega
          rw [this]
          rfl
        obtain ⟨t, ht⟩ := hdvdE
        have hdegt : t.degree = 0 := by
          have hdmul := congrArg Polynomial.degree ht
          rw [Polynomial.degree_X_sub_C, Polynomial.degree_mul, hdeg1] at hdmul
          have ht0 : t ≠ 0 := by
            intro h
            rw [h, mul_zero] at ht
            exact Polynomial.X_sub_C_ne_zero x ht
          rcases Polynomial.degree_eq_natDegree ht0 with hnd
          rw [hnd] at hdmul ⊢
          have : (1 : WithBot Nat) = 1 + (t.natDegree : WithBot Nat) := hdmul
          have hnat : (t.natDegree : WithBot Nat) = 0 := by
            rcases Nat.eq_zero_or_pos t.natDegree with h0 | hpos
            · rw [h0]; rfl
            · exfalso
              have : (1 : WithBot Nat) < 1 + (t.natDegree : WithBot Nat) := by
                have h1 : (0 : WithBot Nat) < (t.natDegree : WithBot Nat) := by
                  exact_mod_cast hpos
                calc (1 : WithBot Nat) = 1 + 0 := by rfl
                  _ < 1 + (t.natDegree : WithBot Nat) :=
                    WithBot.add_lt_add_left (by simp) h1
              rw [← hdmul] at this
              exact lt_irrefl _ this
          exact hnat
        have hunit : IsUnit t := Polynomial.isUnit_iff_degree_eq_zero.mpr hdegt
        obtain ⟨u, hu⟩ := hunit
        have hdvdgE : (Polynomial.X - Polynomial.C x) ∣ toPoly g := by
          refine ⟨(↑u⁻¹ : Polynomial F), ?_⟩
          rw [ht, ← hu, mul_assoc, Units.mul_inv, mul_one]
        have : (Polynomial.X - Polynomial.C x) ∣ toPoly (buildSetPoly E) :=
          dvd_trans hdvdgE hdvdP
        exact hxE ((buildSetPoly_root_iff E x).mp
          (Polynomial.dvd_iff_isRoot.mp this))
    obtain ⟨gv, hgv⟩ := List.length_eq_one.mp hglen
    have hgv0 : gv ≠ 0 := by
      have := trimmed_getLast_ne_zero g hgT hgne
      rw [hgv] at this
      simpa using this
    have hok : computeNonMembershipWitness s x E =
        Except.ok (polyToG2 s (yg.map (fun c => c * gv⁻¹)),
          polyToG2 s (xg.map (fun c => c * gv⁻¹))) := by
      have hgd : g.getD 0 0 = gv := by rw [hgv]; rfl
      unfold computeNonMembershipWitness
      dsimp only
      rw [hxgcd]
      dsimp only
      rw [if_neg (show ¬ g.length - 1 ≠ 0 by rw [hglen]; simp),
        if_neg (show ¬ g.getD 0 0 = 0 by rw [hgd]; exact hgv0), hgd]
    have hgC : toPoly g = Polynomial.C gv := by
      rw [hgv]
      simp [toPoly_cons, toPoly_nil]
    have hverify : ∀ wB wA, computeNonMembershipWitness s x E = Except.ok (wB, wA) →
        nonMembershipProofVerify s (calculateCommitment s E) x wB wA = true := by
      intro wB wA hw
      rw [hok] at hw
      have hp : (polyToG2 s (yg.map (fun c => c * gv⁻¹)),
          polyToG2 s (xg.map (fun c => c * gv⁻¹))) = (wB, wA) :=
        Except.ok.inj hw
      have hwB : wB = polyToG2 s (yg.map (fun c => c * gv⁻¹)) :=
        (congrArg Prod.fst hp).symm
      have hwA : wA = polyToG2 s (xg.map (fun c => c * gv⁻¹)) :=
        (congrArg Prod.snd hp).symm
      subst hwB hwA
      unfold nonMembershipProofVerify polyToG2
      rw [decide_eq_true_eq]
      have hbezEval := congrArg (Polynomial.eval s) hbez
      rw [hgC] at hbezEval
      simp only [Polynomial.eval_add, Polynomial.eval_mul, Polynomial.eval_sub,
        Polynomial.eval_C, Polynomial.eval_X] at hbezEval
      have hcc : calculateCommitment s E = (toPoly (buildSetPoly E)).eval s := by
        rw [calculateCommitment_eq_prod, buildSetPoly_eval]
      rw [hcc, ← eval_toPoly, ← eval_toPoly, toPoly_map_mulRight, toPoly_map_mulRight]
      simp only [Polynomial.eval_mul, Polynomial.eval_C]
      rw [eq_comm, ← sub_eq_zero]
      have hgoal : (toPoly (buildSetPoly E)).eval s * ((toPoly xg).eval s * gv⁻¹) +
          (s - x) * ((toPoly yg).eval s * gv⁻¹) =
          ((toPoly xg).eval s * (toPoly (buildSetPoly E)).eval s +
            (toPoly yg).eval s * (s - x)) * gv⁻¹ := by ring
      rw [hgoal, ← hbezEval, mul_inv_cancel₀ hgv0]
      ring
    exact ⟨⟨fun _ => hxE, fun _ => ⟨_, hok⟩⟩, hverify⟩

end FieldCore

/-!
### The Merkle accumulator forest (src/node.rs, src/tree.rs)

`node.rs` defines the current fid-set `Node`; `tree.rs` still pattern-matches the
pre-refactor single-fid leaf (`Node::Leaf { key, fid, .. }`), so the two files do
not agree on the leaf payload.  We embed the `tree.rs` forest operations over the
current `Node` of `node.rs`: wherever `tree.rs` stores a single `fid : String` we
store the one-element fid set `{fid}` (exactly what its `Set::from_vec(vec![fid])`
constructions build), and `select` returns the fid set of the leaf as in `node.rs`.
Everything else (routing by `has_key`, tombstoning, hash and accumulator
recomputation, the normalize stack) is transcribed line by line from `tree.rs`.

Group elements stay in the exponent model of the accumulator sections; hashing is
an abstract pair of functions `shaLeaf`/`shaNode` standing for the SHA-256
constructions of `crypto.rs`, and `digest : String → F` stands for the key
digest-to-field map.
-/

section ForestCore

variable {F : Type} [CommRing F] [DecidableEq F]
variable {HashT : Type} [DecidableEq HashT]

/-- node.rs 6-22: a binomial Merkle tree node.  `Leaf` carries the key, the fid
set, the level and the tombstone bit; `NonLeaf` caches its hash, live-key set and
accumulator value alongside the level and the two children. -/
inductive Node (F HashT : Type) where
  | leaf (key : String) (fids : Finset String) (level : Nat) (deleted : Bool)
  | nonleaf (hash : HashT) (keys : Finset String) (acc : F) (level : Nat)
      (left : Node F HashT) (right : Node F HashT)
deriving DecidableEq

/-- Node::level (node.rs 25-30). -/
def Node.level : Node F HashT → Nat
  | .leaf _ _ lvl _ => lvl
  | .nonleaf _ _ _ lvl _ _ => lvl

/-- crypto.rs 8: `EMPTY_HASH = leaf_hash_fids("", Set::new())`. -/
def emptyHash (shaLeaf : String → List String → HashT) : HashT :=
  leafHashFids shaLeaf "" ∅

/-- Modelled from the spec: crypto.rs 9 caches
`DynamicAccumulator::empty_commitment()`, which is absent from `src/`; per the
spec (and `DynamicAccumulator::new`, dynamic_accumulator.rs 44-51) the empty
set's accumulator is `g1^1`, the commitment of the empty digest list. -/
def emptyAcc (s : F) : F := calculateCommitment s []

/-- Modelled from the spec (section 4.4): `digest_set_from_set` is called
throughout `src/` but its defining module (`digest.rs`) is missing; it maps each
key of the set through the digest-to-field reduction.  The enumeration order of
the hash set is canonicalized here to the sorted key list, which is faithful
because the spec leaves the order unspecified and every consumer is
order-insensitive. -/
def digestSetFromSet (digest : String → F) (ks : Finset String) : List F :=
  (sortedList ks).map digest

/-- Modelled from the spec (section 4.5, batch_add):
`DynamicAccumulator::incremental_add_with_default_trapdoor` is called by
node.rs 352 but absent from `src/`; it multiplies the accumulator exponent by
`∏ (s - x)` over the added digests. -/
def incrementalAdd (s : F) (acc : F) (diff : List F) : F :=
  acc * (diff.map (fun x => s - x)).prod

/-- Modelled from the spec (section 4.7, step 2):
`DynamicAccumulator::incremental_union` is called by tree.rs 178/232/262 but
absent from `src/`; `acc = batch_add(acc(L), Δ)` where `Δ` is the list of right
digests that do not occur among the left digests.  The right accumulator
argument is accepted but unused, mirroring the call signature
`incremental_union(left_acc, right_acc, left_digest, right_digest)`. -/
def incrementalUnion (s : F) (leftAcc rightAcc : F) (dl dr : List F) : F :=
  incrementalAdd s leftAcc (dr.filter (fun x => decide (x ∉ dl)))

/-- Node::hash (node.rs 32-46): a tombstoned leaf contributes the empty hash. -/
def Node.hashOf (shaLeaf : String → List String → HashT) : Node F HashT → HashT
  | .leaf k fids _ del => if del then emptyHash shaLeaf else leafHashFids shaLeaf k fids
  | .nonleaf h _ _ _ _ _ => h

/-- Node::acc (node.rs 48-61): a tombstoned leaf contributes the empty-set
accumulator, a live leaf the commitment of its single digested key. -/
def Node.accOf (s : F) (digest : String → F) : Node F HashT → F
  | .leaf k _ _ del =>
      if del then emptyAcc s else calculateCommitment s (digestSetFromSet digest {k})
  | .nonleaf _ _ a _ _ _ => a

/-- Node::keys (node.rs 63-74). -/
def Node.keysOf : Node F HashT → Finset String
  | .leaf k _ _ del => if del then ∅ else {k}
  | .nonleaf _ ks _ _ _ _ => ks

/-- Node::has_key (node.rs 76-81). -/
def Node.hasKey (n : Node F HashT) (target : String) : Bool :=
  match n with
  | .leaf k _ _ del => !del && decide (k = target)
  | .nonleaf _ ks _ _ _ _ => decide (target ∈ ks)

/-- Node::select (node.rs 115-134): the fid set of the live leaf for the key,
routed through `has_key` on the left child. -/
def Node.selectN : Node F HashT → String → Option (Finset String)
  | .leaf k fids _ del, target =>
      if k = target ∧ del = false then some fids else none
  | .nonleaf _ _ _ _ l r, target =>
      if l.hasKey target then l.selectN target else r.selectN target

/-- Node::recurse_select_with_proof (node.rs 138-171): also collect the sibling
hashes `(sibling_hash, sibling_is_left)` on the unwind. -/
def Node.rswp (shaLeaf : String → List String → HashT) :
    Node F HashT → String → Option (Finset String × List (HashT × Bool))
  | .leaf k fids _ del, target =>
      if k = target ∧ del = false then some (fids, []) else none
  | .nonleaf _ _ _ _ l r, target =>
      if l.hasKey target then
        match l.rswp shaLeaf target with
        | some (fids, path) => some (fids, path ++ [(r.hashOf shaLeaf, false)])
        | none => none
      else if r.hasKey target then
        match r.rswp shaLeaf target with
        | some (fids, path) => some (fids, path ++ [(l.hashOf shaLeaf, true)])
        | none => none
      else none

/-- Node::insert_fid (node.rs 206-233): add a fid to the live leaf for the key;
the changed flag reports whether the fid set grew, and ancestors on the path
recompute their hash when it did. -/
def Node.insertFid (shaLeaf : String → List String → HashT)
    (shaNode : HashT → HashT → HashT) :
    Node F HashT → String → String → Node F HashT × Bool
  | .leaf k fids lvl del, target, fid =>
      if k = target ∧ del = false then
        (Node.leaf k (fids ∪ {fid}) lvl del, decide ((fids ∪ {fid}).card ≠ fids.card))
      else (Node.leaf k fids lvl del, false)
  | .nonleaf h ks a lvl l r, target, fid =>
      if l.hasKey target then
        let p := l.insertFid shaLeaf shaNode target fid
        (Node.nonleaf (if p.2 then shaNode (p.1.hashOf shaLeaf) (r.hashOf shaLeaf) else h)
          ks a lvl p.1 r, p.2)
      else
        let p := r.insertFid shaLeaf shaNode target fid
        (Node.nonleaf (if p.2 then shaNode (l.hashOf shaLeaf) (p.1.hashOf shaLeaf) else h)
          ks a lvl l p.1, p.2)

/-- Node::delete_fid (node.rs 237-267): remove a fid from the live leaf for the
key; when the fid set empties the leaf is tombstoned. -/
def Node.deleteFid (shaLeaf : String → List String → HashT)
    (shaNode : HashT → HashT → HashT) :
    Node F HashT → String → String → Node F HashT × Bool
  | .leaf k fids lvl del, target, fid =>
      if k = target ∧ del = false then
        (Node.leaf k (fids.erase fid) lvl (decide (fids.erase fid = ∅)),
          (decide ((fids.erase fid).card ≠ fids.card) || decide (fids.erase fid = ∅)))
      else (Node.leaf k fids lvl del, false)
  | .nonleaf h ks a lvl l r, target, fid =>
      if l.hasKey target then
        let p := l.deleteFid shaLeaf shaNode target fid
        (Node.nonleaf (if p.2 then shaNode (p.1.hashOf shaLeaf) (r.hashOf shaLeaf) else h)
          ks a lvl p.1 r, p.2)
      else
        let p := r.deleteFid shaLeaf shaNode target fid
        (Node.nonleaf (if p.2 then shaNode (l.hashOf shaLeaf) (p.1.hashOf shaLeaf) else h)
          ks a lvl l p.1, p.2)

/-- Node::update_fid (node.rs 271-303): replace one fid by another in the live
leaf for the key, provided the old fid is present. -/
def Node.updateFid (shaLeaf : String → List String → HashT)
    (shaNode : HashT → HashT → HashT) :
    Node F HashT → String → String → String → Node F HashT × Bool
  | .leaf k fids lvl del, target, oldFid, newFid =>
      if k = target ∧ del = false then
        if oldFid ∈ fids then (Node.leaf k ((fids.erase oldFid) ∪ {newFid}) lvl del, true)
        else (Node.leaf k fids lvl del, false)
      else (Node.leaf k fids lvl del, false)
  | .nonleaf h ks a lvl l r, target, oldFid, newFid =>
      if l.hasKey target then
        let p := l.updateFid shaLeaf shaNode target oldFid newFid
        (Node.nonleaf (if p.2 then shaNode (p.1.hashOf shaLeaf) (r.hashOf shaLeaf) else h)
          ks a lvl p.1 r, p.2)
      else
        let p := r.updateFid shaLeaf shaNode target oldFid newFid
        (Node.nonleaf (if p.2 then shaNode (l.hashOf shaLeaf) (p.1.hashOf shaLeaf) else h)
          ks a lvl l p.1, p.2)

/-- AccumulatorTree::node_merge (tree.rs 253-272): build a parent whose key set
is the union of the children's, whose accumulator is the incremental union of
the children's and whose level is one above the right child's. -/
def nodeMergeT (s : F) (digest : String → F) (shaLeaf : String → List String → HashT)
    (shaNode : HashT → HashT → HashT) (l r : Node F HashT) : Node F HashT :=
  Node.nonleaf (shaNode (l.hashOf shaLeaf) (r.hashOf shaLeaf))
    (l.keysOf ∪ r.keysOf)
    (incrementalUnion s (l.accOf s digest) (r.accOf s digest)
      (digestSetFromSet digest l.keysOf) (digestSetFromSet digest r.keysOf))
    (r.level + 1) l r

/-- AccumulatorTree::node_delete_recursive (tree.rs 145-196): tombstone the live
leaf for the key and rebuild every internal node (hash, key set and incremental
accumulator) on the way back up, preserving levels. -/
def nodeDeleteRec (s : F) (digest : String → F) (shaLeaf : String → List String → HashT)
    (shaNode : HashT → HashT → HashT) : Node F HashT → String → Node F HashT
  | .leaf k fids lvl del, target =>
      if k = target ∧ del = false then Node.leaf k fids lvl true
      else Node.leaf k fids lvl del
  | .nonleaf _ _ _ lvl l r, target =>
      let l' := nodeDeleteRec s digest shaLeaf shaNode l target
      let r' := nodeDeleteRec s digest shaLeaf shaNode r target
      Node.nonleaf (shaNode (l'.hashOf shaLeaf) (r'.hashOf shaLeaf))
        (l'.keysOf ∪ r'.keysOf)
        (incrementalUnion s (l'.accOf s digest) (r'.accOf s digest)
          (digestSetFromSet digest l'.keysOf) (digestSetFromSet digest r'.keysOf))
        lvl l' r'

/-- AccumulatorTree::node_revive_recursive (tree.rs 199-250): clear the
tombstone of the matching leaf, setting its fid set to the single new fid, and
rebuild every internal node on the way back up, preserving levels. -/
def nodeReviveRec (s : F) (digest : String → F) (shaLeaf : String → List String → HashT)
    (shaNode : HashT → HashT → HashT) : Node F HashT → String → String → Node F HashT
  | .leaf k fids lvl del, target, newFid =>
      if k = target ∧ del = true then Node.leaf k {newFid} lvl false
      else Node.leaf k fids lvl del
  | .nonleaf _ _ _ lvl l r, target, newFid =>
      let l' := nodeReviveRec s digest shaLeaf shaNode l target newFid
      let r' := nodeReviveRec s digest shaLeaf shaNode r target newFid
      Node.nonleaf (shaNode (l'.hashOf shaLeaf) (r'.hashOf shaLeaf))
        (l'.keysOf ∪ r'.keysOf)
        (incrementalUnion s (l'.accOf s digest) (r'.accOf s digest)
          (digestSetFromSet digest l'.keysOf) (digestSetFromSet digest r'.keysOf))
        lvl l' r'

/-- AccumulatorTree::node_update_recursive (tree.rs 116-142): replace the fid
payload of the live leaf for the key (in the fid-set `Node` the stored payload
becomes `{new_fid}`) and recompute ancestor hashes when it changed. -/
def nodeUpdateRec (shaLeaf : String → List String → HashT)
    (shaNode : HashT → HashT → HashT) :
    Node F HashT → String → String → Node F HashT × Bool
  | .leaf k fids lvl del, target, newFid =>
      if k = target ∧ del = false then (Node.leaf k {newFid} lvl del, true)
      else (Node.leaf k fids lvl del, false)
  | .nonleaf h ks a lvl l r, target, newFid =>
      if l.hasKey target then
        let p := nodeUpdateRec shaLeaf shaNode l target newFid
        (Node.nonleaf (if p.2 then shaNode (p.1.hashOf shaLeaf) (r.hashOf shaLeaf) else h)
          ks a lvl p.1 r, p.2)
      else
        let p := nodeUpdateRec shaLeaf shaNode r target newFid
        (Node.nonleaf (if p.2 then shaNode (l.hashOf shaLeaf) (p.1.hashOf shaLeaf) else h)
          ks a lvl l p.1, p.2)

/-- One insertion step of the stable sort `roots.sort_by_key(|n| n.level())`
(tree.rs 279): place the node before the first position of greater-or-equal
level. -/
def insertByLevel (x : Node F HashT) : List (Node F HashT) → List (Node F HashT)
  | [] => [x]
  | y :: ys => if y.level < x.level then y :: insertByLevel x ys else x :: y :: ys

/-- `roots.sort_by_key(|n| n.level())` (tree.rs 279) as an insertion sort. -/
def sortByLevel (l : List (Node F HashT)) : List (Node F HashT) :=
  l.foldr insertByLevel []

/-- The inner while-loop of AccumulatorTree::normalize (tree.rs 283-294): the
stack is represented head-first (head = top of the Vec); while the top has the
current node's level, pop it and merge, then push. -/
def pushMerge (s : F) (digest : String → F) (shaLeaf : String → List String → HashT)
    (shaNode : HashT → HashT → HashT) :
    List (Node F HashT) → Node F HashT → List (Node F HashT)
  | [], cur => [cur]
  | top :: rest, cur =>
      if top.level = cur.level then
        pushMerge s digest shaLeaf shaNode rest (nodeMergeT s digest shaLeaf shaNode top cur)
      else cur :: top :: rest

/-- AccumulatorTree::normalize (tree.rs 278-297): sort the roots by level, sweep
them through the merge stack, and store the stack back as the root vector (the
head-first stack list is reversed to recover Vec order). -/
def normalizeF (s : F) (digest : String → F) (shaLeaf : String → List String → HashT)
    (shaNode : HashT → HashT → HashT) (roots : List (Node F HashT)) :
    List (Node F HashT) :=
  ((sortByLevel roots).foldl (pushMerge s digest shaLeaf shaNode) []).reverse

/-- `roots.iter().position(p)` followed by `roots.remove(idx)` (tree.rs 301-302,
490-491): the first element satisfying the predicate together with the
remaining list in order. -/
def extractFirst (p : Node F HashT → Bool) :
    List (Node F HashT) → Option (Node F HashT × List (Node F HashT))
  | [] => none
  | x :: xs =>
      if p x then some (x, xs)
      else
        match extractFirst p xs with
        | some (y, rest) => some (y, x :: rest)
        | none => none

/-- `roots.iter_mut().find(p)` followed by an in-place mutation (tree.rs
434-436): rewrite the first element satisfying the predicate. -/
def mapFirst (p : Node F HashT → Bool) (f : Node F HashT → Node F HashT) :
    List (Node F HashT) → List (Node F HashT)
  | [] => []
  | x :: xs => if p x then f x :: xs else x :: mapFirst p f xs

/-- AccumulatorTree::insert (tree.rs 299-316): if some root has the key, remove
that root, apply the revive pass and normalize; otherwise push a fresh level-0
live leaf with the one-element fid set and normalize. -/
def forestInsert (s : F) (digest : String → F) (shaLeaf : String → List String → HashT)
    (shaNode : HashT → HashT → HashT) (roots : List (Node F HashT))
    (key fid : String) : List (Node F HashT) :=
  match extractFirst (fun r => r.hasKey key) roots with
  | some (root, rest) =>
      normalizeF s digest shaLeaf shaNode
        (rest ++ [nodeReviveRec s digest shaLeaf shaNode root key fid])
  | none =>
      normalizeF s digest shaLeaf shaNode (roots ++ [Node.leaf key {fid} 0 false])

/-- AccumulatorTree::delete (tree.rs 489-496): remove the first root having the
key, tombstone the key's leaf in it, push it back and normalize; a forest
without the key is untouched. -/
def forestDelete (s : F) (digest : String → F) (shaLeaf : String → List String → HashT)
    (shaNode : HashT → HashT → HashT) (roots : List (Node F HashT))
    (key : String) : List (Node F HashT) :=
  match extractFirst (fun r => r.hasKey key) roots with
  | some (root, rest) =>
      normalizeF s digest shaLeaf shaNode
        (rest ++ [nodeDeleteRec s digest shaLeaf shaNode root key])
  | none => roots

/-- AccumulatorTree::update (tree.rs 433-437): rewrite the fid payload for the
key inside the first root having it; no normalization. -/
def forestUpdate (shaLeaf : String → List String → HashT)
    (shaNode : HashT → HashT → HashT) (roots : List (Node F HashT))
    (key newFid : String) : List (Node F HashT) :=
  mapFirst (fun r => r.hasKey key) (fun r => (nodeUpdateRec shaLeaf shaNode r key newFid).1)
    roots

/-- AccumulatorTree::select (tree.rs 391-398): the first root that resolves the
key wins. -/
def forestSelect (roots : List (Node F HashT)) (key : String) : Option (Finset String) :=
  roots.findSome? (fun r => r.selectN key)

/-- A public mutation of the tree (tree.rs insert/update/delete). -/
inductive ForestOp where
  | ins (key fid : String)
  | upd (key newFid : String)
  | del (key : String)
deriving DecidableEq

/-- Apply one public mutation to the root list. -/
def applyOp (s : F) (digest : String → F) (shaLeaf : String → List String → HashT)
    (shaNode : HashT → HashT → HashT) (roots : List (Node F HashT)) :
    ForestOp → List (Node F HashT)
  | .ins k f => forestInsert s digest shaLeaf shaNode roots k f
  | .upd k f => forestUpdate shaLeaf shaNode roots k f
  | .del k => forestDelete s digest shaLeaf shaNode roots k

/-- Apply a sequence of public mutations starting from the empty forest
(AccumulatorTree::new, tree.rs 17-19). -/
def applyOps (s : F) (digest : String → F) (shaLeaf : String → List String → HashT)
    (shaNode : HashT → HashT → HashT) (ops : List ForestOp) : List (Node F HashT) :=
  ops.foldl (applyOp s digest shaLeaf shaNode) []

/-- The key named by a mutation. -/
def ForestOp.key : ForestOp → String
  | .ins k _ => k
  | .upd k _ => k
  | .del k => k

/-- All keys named by a sequence of mutations. -/
def opsKeys (ops : List ForestOp) : Finset String := (ops.map ForestOp.key).toFinset

/-- The set of keys of non-tombstoned leaves of a subtree (the semantic reading
of "key set", independent of the cached `keys` fields). -/
def liveKeys : Node F HashT → Finset String
  | .leaf k _ _ del => if del then ∅ else {k}
  | .nonleaf _ _ _ _ l r => liveKeys l ∪ liveKeys r

/-- The keys of tombstoned leaves of a subtree. -/
def deadKeys : Node F HashT → Finset String
  | .leaf k _ _ del => if del then {k} else ∅
  | .nonleaf _ _ _ _ l r => deadKeys l ∪ deadKeys r

/-- The structural skeleton of a node: levels, leaf keys and leaf fid sets, but
none of the cached hashes, key sets, accumulators or tombstone bits. -/
inductive NShape where
  | leafS (key : String) (fids : Finset String) (level : Nat)
  | nodeS (level : Nat) (left right : NShape)
deriving DecidableEq

/-- Forget everything about a node except its structural skeleton. -/
def Node.shape : Node F HashT → NShape
  | .leaf k fids lvl _ => NShape.leafS k fids lvl
  | .nonleaf _ _ _ lvl l r => NShape.nodeS lvl l.shape r.shape

/-- The per-node well-formedness invariant of the claim: every internal node
caches the union of its children's live keys, the commitment of the digests of
that key set, and the combined hash of its children. -/
def NodeWF (s : F) (digest : String → F) (shaLeaf : String → List String → HashT)
    (shaNode : HashT → HashT → HashT) : Node F HashT → Prop
  | .leaf _ _ _ _ => True
  | .nonleaf h ks a _ l r =>
      NodeWF s digest shaLeaf shaNode l ∧ NodeWF s digest shaLeaf shaNode r ∧
      ks = liveKeys l ∪ liveKeys r ∧
      a = calculateCommitment s (digestSetFromSet digest ks) ∧
      h = shaNode (l.hashOf shaLeaf) (r.hashOf shaLeaf)

instance instDecNodeWF (s : F) (digest : String → F)
    (shaLeaf : String → List String → HashT) (shaNode : HashT → HashT → HashT) :
    (n : Node F HashT) → Decidable (NodeWF s digest shaLeaf shaNode n)
  | .leaf _ _ _ _ => isTrue trivial
  | .nonleaf h ks a lvl l r =>
      haveI : Decidable (NodeWF s digest shaLeaf shaNode l) :=
        instDecNodeWF s digest shaLeaf shaNode l
      haveI : Decidable (NodeWF s digest shaLeaf shaNode r) :=
        instDecNodeWF s digest shaLeaf shaNode r
      inferInstanceAs (Decidable (NodeWF s digest shaLeaf shaNode l ∧
        NodeWF s digest shaLeaf shaNode r ∧
        ks = liveKeys l ∪ liveKeys r ∧
        a = calculateCommitment s (digestSetFromSet digest ks) ∧
        h = shaNode (l.hashOf shaLeaf) (r.hashOf shaLeaf)))

/-- The digest map separates the keys of `K` (hash collisions are confined to
keys that never appear). -/
def InjOnKeys (digest : String → F) (K : Finset String) : Prop :=
  ∀ k1 ∈ K, ∀ k2 ∈ K, digest k1 = digest k2 → k1 = k2

instance instDecInjOnKeys (digest : String → F) (K : Finset String) :
    Decidable (InjOnKeys digest K) := by
  unfold InjOnKeys
  infer_instance

/-- A root acceptable for the forest invariant: well formed, with all its live
keys drawn from the ambient key set `K`. -/
def WFRoot (s : F) (digest : String → F) (shaLeaf : String → List String → HashT)
    (shaNode : HashT → HashT → HashT) (K : Finset String) (r : Node F HashT) : Prop :=
  NodeWF s digest shaLeaf shaNode r ∧ r.keysOf ⊆ K

/-- The forest invariant: every root is well formed with keys in `K`, and the
root levels are strictly increasing along the vector. -/
def ForestInv (s : F) (digest : String → F) (shaLeaf : String → List String → HashT)
    (shaNode : HashT → HashT → HashT) (K : Finset String)
    (roots : List (Node F HashT)) : Prop :=
  (∀ r ∈ roots, WFRoot s digest shaLeaf shaNode K r) ∧
  List.Pairwise (fun a b => a.level < b.level) roots

theorem sortedList_coe (ks : Finset String) :
    (sortedList ks : Multiset String) = ks.val := by
  rcases ks with ⟨m, hm⟩
  induction m using Quotient.inductionOn with
  | h l =>
      exact Quotient.sound (List.perm_insertionSort strLe l)

theorem mem_sortedList (ks : Finset String) (a : String) :
    a ∈ sortedList ks ↔ a ∈ ks := by
  rw [← Multiset.mem_coe, sortedList_coe]
  exact Iff.rfl

/-- A sorted key-set enumeration multiplies out to the `Finset` product. -/
theorem prod_map_sortedList (g : String → F) (ks : Finset String) :
    ((sortedList ks).map g).prod = ks.prod g := by
  rw [Finset.prod_eq_multiset_prod, ← sortedList_coe]
  simp

/-- The commitment of the digests of a key set, as a `Finset` product. -/
theorem commit_keys_prod (s : F) (digest : String → F) (ks : Finset String) :
    calculateCommitment s (digestSetFromSet digest ks)
      = ks.prod (fun k => s - digest k) := by
  rw [calculateCommitment_eq_prod, digestSetFromSet, List.map_map]
  exact prod_map_sortedList _ ks

theorem nodeWF_leaf (s : F) (digest : String → F)
    (shaLeaf : String → List String → HashT) (shaNode : HashT → HashT → HashT)
    (k : String) (fids : Finset String) (lvl : Nat) (del : Bool) :
    NodeWF s digest shaLeaf shaNode (Node.leaf k fids lvl del) := trivial

theorem nodeWF_nonleaf_iff (s : F) (digest : String → F)
    (shaLeaf : String → List String → HashT) (shaNode : HashT → HashT → HashT)
    (h : HashT) (ks : Finset String) (a : F) (lvl : Nat) (l r : Node F HashT) :
    NodeWF s digest shaLeaf shaNode (Node.nonleaf h ks a lvl l r) ↔
      (NodeWF s digest shaLeaf shaNode l ∧ NodeWF s digest shaLeaf shaNode r ∧
       ks = liveKeys l ∪ liveKeys r ∧
       a = calculateCommitment s (digestSetFromSet digest ks) ∧
       h = shaNode (l.hashOf shaLeaf) (r.hashOf shaLeaf)) := Iff.rfl

/-- Under the invariant, the cached key set is exactly the live-leaf key set. -/
theorem keysOf_eq_liveKeys (s : F) (digest : String → F)
    (shaLeaf : String → List String → HashT) (shaNode : HashT → HashT → HashT) :
    ∀ n : Node F HashT, NodeWF s digest shaLeaf shaNode n → n.keysOf = liveKeys n
  | .leaf _ _ _ _, _ => rfl
  | .nonleaf _ _ _ _ _ _, hwf => hwf.2.2.1

/-- Under the invariant, `has_key` answers live-key membership. -/
theorem hasKey_iff_mem_liveKeys (s : F) (digest : String → F)
    (shaLeaf : String → List String → HashT) (shaNode : HashT → HashT → HashT) :
    ∀ n : Node F HashT, NodeWF s digest shaLeaf shaNode n → ∀ k : String,
      (n.hasKey k = true ↔ k ∈ liveKeys n)
  | .leaf k' fids lvl del, _, k => by
      cases del <;> simp [Node.hasKey, liveKeys, eq_comm]
  | .nonleaf h ks a lvl l r, hwf, k => by
      simp only [Node.hasKey, liveKeys, decide_eq_true_eq]
      rw [hwf.2.2.1]

/-- Under the invariant, the cached accumulator of any node is the commitment
of the digests of its cached key set. -/
theorem accOf_eq_commit (s : F) (digest : String → F)
    (shaLeaf : String → List String → HashT) (shaNode : HashT → HashT → HashT) :
    ∀ n : Node F HashT, NodeWF s digest shaLeaf shaNode n →
      n.accOf s digest = calculateCommitment s (digestSetFromSet digest n.keysOf)
  | .leaf k fids lvl del, _ => by
      cases del
      · simp [Node.accOf, Node.keysOf]
      · simp only [Node.accOf, Node.keysOf, if_true]
        rfl
  | .nonleaf h ks a lvl l r, hwf => hwf.2.2.2.1

theorem hashOf_leaf_live (shaLeaf : String → List String → HashT)
    (k : String) (fids : Finset String) (lvl : Nat) :
    (Node.leaf (F := F) k fids lvl false).hashOf shaLeaf = leafHashFids shaLeaf k fids := rfl

theorem level_nodeMergeT (s : F) (digest : String → F)
    (shaLeaf : String → List String → HashT) (shaNode : HashT → HashT → HashT)
    (l r : Node F HashT) :
    (nodeMergeT s digest shaLeaf shaNode l r).level = r.level + 1 := rfl

theorem WFRoot_children (s : F) (digest : String → F)
    (shaLeaf : String → List String → HashT) (shaNode : HashT → HashT → HashT)
    (K : Finset String) (h : HashT) (ks : Finset String) (a : F) (lvl : Nat)
    (l r : Node F HashT)
    (hwf : WFRoot s digest shaLeaf shaNode K (Node.nonleaf h ks a lvl l r)) :
    WFRoot s digest shaLeaf shaNode K l ∧ WFRoot s digest shaLeaf shaNode K r := by
  obtain ⟨hn, hsub⟩ := hwf
  have hks : ks = liveKeys l ∪ liveKeys r := hn.2.2.1
  have hlsub : l.keysOf ⊆ K := by
    rw [keysOf_eq_liveKeys s digest shaLeaf shaNode l hn.1]
    intro x hx
    exact hsub (by rw [Node.keysOf, hks]; exact Finset.mem_union_left _ hx)
  have hrsub : r.keysOf ⊆ K := by
    rw [keysOf_eq_liveKeys s digest shaLeaf shaNode r hn.2.1]
    intro x hx
    exact hsub (by rw [Node.keysOf, hks]; exact Finset.mem_union_right _ hx)
  exact ⟨⟨hn.1, hlsub⟩, ⟨hn.2.1, hrsub⟩⟩

/-- Filtering mapped digests agrees with mapping filtered keys when the digest
map reflects membership. -/
theorem filter_map_of_inj (g : String → F) (la : List String) :
    ∀ lb : List String, (∀ k ∈ lb, (g k ∈ la.map g ↔ k ∈ la)) →
    (lb.map g).filter (fun x => decide (x ∉ la.map g))
      = (lb.filter (fun k => decide (k ∉ la))).map g
  | [], _ => rfl
  | k :: t, h => by
      have ht := filter_map_of_inj g la t (fun k' hk' => h k' (List.mem_cons_of_mem _ hk'))
      have hk := h k (List.mem_cons_self k t)
      by_cases hmem : k ∈ la
      · have h1 : g k ∈ la.map g := hk.mpr hmem
        have hp : (decide (g k ∉ la.map g)) = false := decide_eq_false (not_not_intro h1)
        have hq : (decide (k ∉ la)) = false := decide_eq_false (not_not_intro hmem)
        rw [List.map_cons, List.filter_cons, List.filter_cons, hp, hq,
          if_neg Bool.false_ne_true, if_neg Bool.false_ne_true]
        exact ht
      · have h1 : g k ∉ la.map g := fun hc => hmem (hk.mp hc)
        have hp : (decide (g k ∉ la.map g)) = true := decide_eq_true h1
        have hq : (decide (k ∉ la)) = true := decide_eq_true hmem
        rw [List.map_cons, List.filter_cons, List.filter_cons, hp, hq,
          if_pos rfl, if_pos rfl, List.map_cons, ht]

theorem prod_filter_sortedList (f : String → F) (p : String → Prop) [DecidablePred p]
    (B : Finset String) :
    (((sortedList B).filter (fun k => decide (p k))).map f).prod = (B.filter p).prod f := by
  rw [Finset.prod_eq_multiset_prod, Finset.filter_val, ← sortedList_coe]
  simp

/-- The key algebraic fact behind node composition: when the digest map
separates the keys in play, the incremental union of the commitment of `A`
with the digests of `B` is the commitment of `A ∪ B`. -/
theorem incUnion_commit (s : F) (digest : String → F) (K : Finset String)
    (hinj : InjOnKeys digest K) (A B : Finset String) (hA : A ⊆ K) (hB : B ⊆ K)
    (ra : F) :
    incrementalUnion s (calculateCommitment s (digestSetFromSet digest A)) ra
      (digestSetFromSet digest A) (digestSetFromSet digest B)
      = calculateCommitment s (digestSetFromSet digest (A ∪ B)) := by
  have hiff : ∀ k ∈ sortedList B,
      (digest k ∈ (sortedList A).map digest ↔ k ∈ sortedList A) := by
    intro k hk
    constructor
    · intro hc
      rcases List.mem_map.mp hc with ⟨k', hk', he⟩
      have hk'A : k' ∈ A := (mem_sortedList A k').mp hk'
      have hkB : k ∈ B := (mem_sortedList B k).mp hk
      have hkk : k' = k := hinj k' (hA hk'A) k (hB hkB) he
      rw [← hkk]; exact hk'
    · intro hc; exact List.mem_map_of_mem digest hc
  have hpred : ∀ k ∈ sortedList B, (decide (k ∉ sortedList A)) = (decide (k ∉ A)) := by
    intro k hk
    simp [mem_sortedList]
  unfold incrementalUnion incrementalAdd
  show calculateCommitment s (digestSetFromSet digest A)
      * ((((sortedList B).map digest).filter
            (fun x => decide (x ∉ (sortedList A).map digest))).map (fun x => s - x)).prod
      = _
  rw [filter_map_of_inj digest (sortedList A) (sortedList B) hiff,
    List.filter_congr hpred, List.map_map]
  simp only [Function.comp_def]
  rw [prod_filter_sortedList (fun k => s - digest k) (fun k => k ∉ A) B]
  rw [commit_keys_prod, commit_keys_prod, ← Finset.sdiff_eq_filter,
    ← Finset.union_sdiff_self_eq_union,
    Finset.prod_union Finset.disjoint_sdiff]

/-- Internal nodes rebuilt by tree.rs (delete/revive back-propagation and
node_merge) from two invariant-respecting children respect the invariant. -/
theorem rebuild_WF (s : F) (digest : String → F)
    (shaLeaf : String → List String → HashT) (shaNode : HashT → HashT → HashT)
    (K : Finset String) (hinj : InjOnKeys digest K) (l r : Node F HashT) (lvl : Nat)
    (hl : WFRoot s digest shaLeaf shaNode K l) (hr : WFRoot s digest shaLeaf shaNode K r) :
    WFRoot s digest shaLeaf shaNode K
      (Node.nonleaf (shaNode (l.hashOf shaLeaf) (r.hashOf shaLeaf))
        (l.keysOf ∪ r.keysOf)
        (incrementalUnion s (l.accOf s digest) (r.accOf s digest)
          (digestSetFromSet digest l.keysOf) (digestSetFromSet digest r.keysOf))
        lvl l r) := by
  obtain ⟨hln, hlsub⟩ := hl
  obtain ⟨hrn, hrsub⟩ := hr
  constructor
  · refine ⟨hln, hrn, ?_, ?_, rfl⟩
    · rw [keysOf_eq_liveKeys s digest shaLeaf shaNode l hln,
        keysOf_eq_liveKeys s digest shaLeaf shaNode r hrn]
    · rw [accOf_eq_commit s digest shaLeaf shaNode l hln]
      exact incUnion_commit s digest K hinj l.keysOf r.keysOf hlsub hrsub _
  · simp only [Node.keysOf]
    intro x hx
    rcases Finset.mem_union.mp hx with h | h
    · exact hlsub h
    · exact hrsub h

/-- tree.rs node_merge preserves the invariant. -/
theorem nodeMergeT_WF (s : F) (digest : String → F)
    (shaLeaf : String → List String → HashT) (shaNode : HashT → HashT → HashT)
    (K : Finset String) (hinj : InjOnKeys digest K) (l r : Node F HashT)
    (hl : WFRoot s digest shaLeaf shaNode K l) (hr : WFRoot s digest shaLeaf shaNode K r) :
    WFRoot s digest shaLeaf shaNode K (nodeMergeT s digest shaLeaf shaNode l r) :=
  rebuild_WF s digest shaLeaf shaNode K hinj l r (r.level + 1) hl hr

theorem insertByLevel_perm (x : Node F HashT) :
    ∀ l : List (Node F HashT), (insertByLevel x l).Perm (x :: l)
  | [] => List.Perm.refl _
  | y :: ys => by
      simp only [insertByLevel]
      by_cases h : y.level < x.level
      · rw [if_pos h]
        exact ((insertByLevel_perm x ys).cons y).trans (List.Perm.swap x y ys)
      · rw [if_neg h]

theorem sortByLevel_perm (l : List (Node F HashT)) : (sortByLevel l).Perm l := by
  induction l with
  | nil => exact List.Perm.refl _
  | cons x xs ih =>
      have h1 : sortByLevel (x :: xs) = insertByLevel x (sortByLevel xs) := rfl
      rw [h1]
      exact (insertByLevel_perm x (sortByLevel xs)).trans (ih.cons x)

theorem insertByLevel_sorted (x : Node F HashT) :
    ∀ l : List (Node F HashT), List.Pairwise (fun a b => a.level ≤ b.level) l →
    List.Pairwise (fun a b => a.level ≤ b.level) (insertByLevel x l)
  | [], _ => List.pairwise_singleton _ _
  | y :: ys, h => by
      simp only [insertByLevel]
      by_cases hc : y.level < x.level
      · rw [if_pos hc]
        refine List.Pairwise.cons ?_ (insertByLevel_sorted x ys (List.Pairwise.of_cons h))
        intro z hz
        have hz' := (insertByLevel_perm x ys).mem_iff.mp hz
        rcases List.mem_cons.mp hz' with rfl | hzys
        · exact le_of_lt hc
        · exact (List.pairwise_cons.mp h).1 z hzys
      · rw [if_neg hc]
        refine List.Pairwise.cons ?_ h
        intro z hz
        rcases List.mem_cons.mp hz with rfl | hzys
        · exact le_of_not_lt hc
        · exact le_trans (le_of_not_lt hc) ((List.pairwise_cons.mp h).1 z hzys)

theorem sortByLevel_sorted (l : List (Node F HashT)) :
    List.Pairwise (fun a b => a.level ≤ b.level) (sortByLevel l) := by
  induction l with
  | nil => exact List.Pairwise.nil
  | cons x xs ih => exact insertByLevel_sorted x (sortByLevel xs) ih

theorem sortByLevel_eq_self :
    ∀ l : List (Node F HashT), List.Pairwise (fun a b => a.level ≤ b.level) l →
    sortByLevel l = l
  | [], _ => rfl
  | y :: ys, h => by
      have h1 : sortByLevel (y :: ys) = insertByLevel y (sortByLevel ys) := rfl
      rw [h1, sortByLevel_eq_self ys (List.Pairwise.of_cons h)]
      cases ys with
      | nil => rfl
      | cons z zs =>
          have hle : y.level ≤ z.level :=
            (List.pairwise_cons.mp h).1 z (List.mem_cons_self z zs)
          simp only [insertByLevel, if_neg (not_lt.mpr hle)]

theorem foldr_insert_below (x : Node F HashT) :
    ∀ (M acc : List (Node F HashT)), (∀ y ∈ M, x.level < y.level) →
      M.foldr insertByLevel (x :: acc) = x :: M.foldr insertByLevel acc
  | [], _, _ => rfl
  | y :: M', acc, h => by
      have hy : x.level < y.level := h y (List.mem_cons_self _ _)
      have ih := foldr_insert_below x M' acc (fun z hz => h z (List.mem_cons_of_mem _ hz))
      simp only [List.foldr_cons]
      rw [ih]
      simp only [insertByLevel, if_pos hy]

/-- Appending a node strictly below every level of the list sorts to consing it. -/
theorem sortByLevel_append_single (M : List (Node F HashT)) (x : Node F HashT)
    (h : ∀ y ∈ M, x.level < y.level) :
    sortByLevel (M ++ [x]) = x :: sortByLevel M := by
  unfold sortByLevel
  rw [List.foldr_append]
  exact foldr_insert_below x M [] h

/-- Once the current node's level exceeds the stack top's, the rest of a
strictly increasing sweep only pushes. -/
theorem pushRun (s : F) (digest : String → F) (shaLeaf : String → List String → HashT)
    (shaNode : HashT → HashT → HashT) :
    ∀ (todo : List (Node F HashT)) (top : Node F HashT) (S : List (Node F HashT)),
      (∀ z ∈ todo, top.level < z.level) →
      List.Pairwise (fun a b => a.level < b.level) todo →
      todo.foldl (pushMerge s digest shaLeaf shaNode) (top :: S)
        = todo.reverse ++ top :: S
  | [], _, _, _, _ => rfl
  | z :: todo', top, S, hlt, hp => by
      have hz : top.level < z.level := hlt z (List.mem_cons_self _ _)
      have h1 : pushMerge s digest shaLeaf shaNode (top :: S) z = z :: top :: S := by
        simp only [pushMerge, if_neg (Nat.ne_of_lt hz)]
      simp only [List.foldl_cons]
      rw [h1, pushRun s digest shaLeaf shaNode todo' z (top :: S)
        ((List.pairwise_cons.mp hp).1) (List.Pairwise.of_cons hp)]
      simp

/-- The normalize sweep of a strictly increasing root list only pushes:
the stack ends up holding exactly the input, reversed. -/
theorem foldl_pushMerge_strict (s : F) (digest : String → F)
    (shaLeaf : String → List String → HashT) (shaNode : HashT → HashT → HashT)
    (todo : List (Node F HashT))
    (hp : List.Pairwise (fun a b => a.level < b.level) todo) :
    todo.foldl (pushMerge s digest shaLeaf shaNode) [] = todo.reverse := by
  cases todo with
  | nil => rfl
  | cons t rest =>
      simp only [List.foldl_cons]
      have h1 : pushMerge s digest shaLeaf shaNode [] t = [t] := rfl
      rw [h1, pushRun s digest shaLeaf shaNode rest t []
        ((List.pairwise_cons.mp hp).1) (List.Pairwise.of_cons hp)]
      simp

/-- The normalize sweep from a singleton stack, over a strictly increasing input
whose levels all dominate the stack top: merges may cascade through the carry,
but the final stack is well formed with strictly increasing (reversed) levels. -/
theorem carry_fold (s : F) (digest : String → F) (shaLeaf : String → List String → HashT)
    (shaNode : HashT → HashT → HashT) (K : Finset String) (hinj : InjOnKeys digest K) :
    ∀ (todo : List (Node F HashT)) (m : Node F HashT),
      List.Pairwise (fun a b => a.level < b.level) todo →
      (∀ y ∈ todo, m.level ≤ y.level) →
      WFRoot s digest shaLeaf shaNode K m →
      (∀ y ∈ todo, WFRoot s digest shaLeaf shaNode K y) →
      (∀ r ∈ todo.foldl (pushMerge s digest shaLeaf shaNode) [m],
          WFRoot s digest shaLeaf shaNode K r) ∧
      List.Pairwise (fun a b => a.level < b.level)
        (todo.foldl (pushMerge s digest shaLeaf shaNode) [m]).reverse
  | [], m, _, _, hm, _ => by
      refine ⟨?_, ?_⟩
      · intro r hr
        rw [List.foldl_nil] at hr
        have hrm : r = m := List.mem_singleton.mp hr
        rw [hrm]
        exact hm
      · simp
  | y :: todo', m, hp, hle, hm, hwf => by
      simp only [List.foldl_cons]
      by_cases hc : m.level = y.level
      · have h1 : pushMerge s digest shaLeaf shaNode [m] y
            = [nodeMergeT s digest shaLeaf shaNode m y] := by
          simp only [pushMerge, if_pos hc]
        rw [h1]
        have hywf := hwf y (List.mem_cons_self _ _)
        have hmywf : WFRoot s digest shaLeaf shaNode K
            (nodeMergeT s digest shaLeaf shaNode m y) :=
          nodeMergeT_WF s digest shaLeaf shaNode K hinj m y hm hywf
        refine carry_fold s digest shaLeaf shaNode K hinj todo'
          (nodeMergeT s digest shaLeaf shaNode m y)
          (List.Pairwise.of_cons hp) ?_ hmywf
          (fun z hz => hwf z (List.mem_cons_of_mem _ hz))
        intro z hz
        rw [level_nodeMergeT]
        exact (List.pairwise_cons.mp hp).1 z hz
      · have hmlt : m.level < y.level := lt_of_le_of_ne (hle y (List.mem_cons_self _ _)) hc
        have h1 : pushMerge s digest shaLeaf shaNode [m] y = y :: [m] := by
          simp only [pushMerge, if_neg hc]
        rw [h1, pushRun s digest shaLeaf shaNode todo' y [m]
          ((List.pairwise_cons.mp hp).1) (List.Pairwise.of_cons hp)]
        constructor
        · intro r hr
          rcases List.mem_append.mp hr with h | h
          · exact hwf _ (List.mem_cons_of_mem _ (List.mem_reverse.mp h))
          · rcases List.mem_cons.mp h with h1 | h2
            · rw [h1]
              exact hwf y (List.mem_cons_self _ _)
            · have hrm : r = m := List.mem_singleton.mp h2
              rw [hrm]
              exact hm
        · have hgoal : (todo'.reverse ++ y :: [m]).reverse = m :: y :: todo' := by simp
          rw [hgoal]
          refine List.Pairwise.cons ?_ (List.Pairwise.cons ?_ (List.Pairwise.of_cons hp))
          · intro z hz
            rcases List.mem_cons.mp hz with rfl | h2
            · exact hmlt
            · exact lt_trans hmlt ((List.pairwise_cons.mp hp).1 z h2)
          · exact (List.pairwise_cons.mp hp).1

/-- Normalizing a root list whose levels are pairwise distinct performs no
merges: it only sorts the roots by level. -/
theorem normalizeF_of_distinct (s : F) (digest : String → F)
    (shaLeaf : String → List String → HashT) (shaNode : HashT → HashT → HashT)
    (l : List (Node F HashT))
    (h : List.Pairwise (fun a b => a.level ≠ b.level) l) :
    normalizeF s digest shaLeaf shaNode l = sortByLevel l ∧
    List.Pairwise (fun a b => a.level < b.level) (sortByLevel l) := by
  have hperm := sortByLevel_perm l
  have hsorted := sortByLevel_sorted l
  have hne : List.Pairwise (fun a b : Node F HashT => a.level ≠ b.level) (sortByLevel l) :=
    (List.Perm.pairwise_iff (fun hab => Ne.symm hab) hperm).mpr h
  have hlt : List.Pairwise (fun a b : Node F HashT => a.level < b.level) (sortByLevel l) :=
    (hsorted.and hne).imp (fun hab => lt_of_le_of_ne hab.1 hab.2)
  refine ⟨?_, hlt⟩
  unfold normalizeF
  rw [foldl_pushMerge_strict s digest shaLeaf shaNode _ hlt, List.reverse_reverse]

/-- Normalizing a strictly increasing root list headed by a level matching the
one appended node (the fresh-leaf insertion pattern) yields a well-formed root
list with strictly increasing levels. -/
theorem normalizeF_carry (s : F) (digest : String → F)
    (shaLeaf : String → List String → HashT) (shaNode : HashT → HashT → HashT)
    (K : Finset String) (hinj : InjOnKeys digest K)
    (z : Node F HashT) (L' : List (Node F HashT)) (x : Node F HashT)
    (hxz : x.level = z.level)
    (hL' : List.Pairwise (fun a b => a.level < b.level) L')
    (hgt : ∀ y ∈ L', z.level < y.level)
    (hwf : ∀ y ∈ (z :: L') ++ [x], WFRoot s digest shaLeaf shaNode K y) :
    (∀ r ∈ normalizeF s digest shaLeaf shaNode ((z :: L') ++ [x]),
        WFRoot s digest shaLeaf shaNode K r) ∧
    List.Pairwise (fun a b => a.level < b.level)
      (normalizeF s digest shaLeaf shaNode ((z :: L') ++ [x])) := by
  have hsort : sortByLevel ((z :: L') ++ [x]) = z :: x :: L' := by
    rw [List.cons_append]
    have h1 : sortByLevel (z :: (L' ++ [x])) = insertByLevel z (sortByLevel (L' ++ [x])) := rfl
    rw [h1, sortByLevel_append_single L' x (fun y hy => hxz ▸ hgt y hy),
      sortByLevel_eq_self L' (hL'.imp (fun hab => le_of_lt hab))]
    simp only [insertByLevel, hxz, lt_self_iff_false, if_neg, if_false, not_false_iff]
  have hzx : z.level = x.level := hxz.symm
  have hmerge : pushMerge s digest shaLeaf shaNode [z] x
      = [nodeMergeT s digest shaLeaf shaNode z x] := by
    simp only [pushMerge, if_pos hzx]
  unfold normalizeF
  rw [hsort]
  simp only [List.foldl_cons]
  have h2 : pushMerge s digest shaLeaf shaNode [] z = [z] := rfl
  rw [h2, hmerge]
  have hzwf := hwf z (List.mem_cons_self _ _)
  have hxwf : WFRoot s digest shaLeaf shaNode K x := by
    refine hwf x ?_
    simp
  have hmwf : WFRoot s digest shaLeaf shaNode K (nodeMergeT s digest shaLeaf shaNode z x) :=
    nodeMergeT_WF s digest shaLeaf shaNode K hinj z x hzwf hxwf
  have hcarry := carry_fold s digest shaLeaf shaNode K hinj L'
    (nodeMergeT s digest shaLeaf shaNode z x) hL'
    (by
      intro y hy
      rw [level_nodeMergeT, hxz]
      exact Nat.succ_le_of_lt (hgt y hy))
    hmwf
    (fun y hy => hwf y (List.mem_cons_of_mem _ (List.mem_append_left _ hy)))
  refine ⟨?_, hcarry.2⟩
  intro r hr
  exact hcarry.1 r (List.mem_reverse.mp hr)

theorem nodeReviveRec_level (s : F) (digest : String → F)
    (shaLeaf : String → List String → HashT) (shaNode : HashT → HashT → HashT) :
    ∀ (n : Node F HashT) (key f : String),
      (nodeReviveRec s digest shaLeaf shaNode n key f).level = n.level
  | .leaf _ _ _ _, _, _ => by
      simp only [nodeReviveRec]
      split <;> rfl
  | .nonleaf _ _ _ _ _ _, _, _ => rfl

theorem nodeDeleteRec_level (s : F) (digest : String → F)
    (shaLeaf : String → List String → HashT) (shaNode : HashT → HashT → HashT) :
    ∀ (n : Node F HashT) (key : String),
      (nodeDeleteRec s digest shaLeaf shaNode n key).level = n.level
  | .leaf _ _ _ _, _ => by
      simp only [nodeDeleteRec]
      split <;> rfl
  | .nonleaf _ _ _ _ _ _, _ => rfl

/-- Tombstoning a key rewrites no structure: the skeleton survives `delete`. -/
theorem nodeDeleteRec_shape (s : F) (digest : String → F)
    (shaLeaf : String → List String → HashT) (shaNode : HashT → HashT → HashT) :
    ∀ (n : Node F HashT) (key : String),
      (nodeDeleteRec s digest shaLeaf shaNode n key).shape = n.shape
  | .leaf _ _ _ _, _ => by
      simp only [nodeDeleteRec]
      split <;> rfl
  | .nonleaf h ks a lvl l r, key => by
      show NShape.nodeS lvl (nodeDeleteRec s digest shaLeaf shaNode l key).shape
          (nodeDeleteRec s digest shaLeaf shaNode r key).shape = _
      rw [nodeDeleteRec_shape s digest shaLeaf shaNode l key,
        nodeDeleteRec_shape s digest shaLeaf shaNode r key]
      rfl

theorem nodeReviveRec_WF (s : F) (digest : String → F)
    (shaLeaf : String → List String → HashT) (shaNode : HashT → HashT → HashT)
    (K : Finset String) (hinj : InjOnKeys digest K) (key f : String) (hkey : key ∈ K) :
    ∀ n : Node F HashT, WFRoot s digest shaLeaf shaNode K n →
      WFRoot s digest shaLeaf shaNode K (nodeReviveRec s digest shaLeaf shaNode n key f)
  | .leaf k fids lvl del, hn => by
      simp only [nodeReviveRec]
      by_cases hc : k = key ∧ del = true
      · rw [if_pos hc]
        refine ⟨trivial, ?_⟩
        show ({k} : Finset String) ⊆ K
        rw [hc.1]
        exact Finset.singleton_subset_iff.mpr hkey
      · rw [if_neg hc]
        exact hn
  | .nonleaf h ks a lvl l r, hn => by
      obtain ⟨hl, hr⟩ := WFRoot_children s digest shaLeaf shaNode K h ks a lvl l r hn
      exact rebuild_WF s digest shaLeaf shaNode K hinj
        (nodeReviveRec s digest shaLeaf shaNode l key f)
        (nodeReviveRec s digest shaLeaf shaNode r key f) lvl
        (nodeReviveRec_WF s digest shaLeaf shaNode K hinj key f hkey l hl)
        (nodeReviveRec_WF s digest shaLeaf shaNode K hinj key f hkey r hr)

theorem nodeDeleteRec_WF (s : F) (digest : String → F)
    (shaLeaf : String → List String → HashT) (shaNode : HashT → HashT → HashT)
    (K : Finset String) (hinj : InjOnKeys digest K) (key : String) :
    ∀ n : Node F HashT, WFRoot s digest shaLeaf shaNode K n →
      WFRoot s digest shaLeaf shaNode K (nodeDeleteRec s digest shaLeaf shaNode n key)
  | .leaf k fids lvl del, hn => by
      simp only [nodeDeleteRec]
      by_cases hc : k = key ∧ del = false
      · rw [if_pos hc]
        refine ⟨trivial, ?_⟩
        show (∅ : Finset String) ⊆ K
        exact Finset.empty_subset K
      · rw [if_neg hc]
        exact hn
  | .nonleaf h ks a lvl l r, hn => by
      obtain ⟨hl, hr⟩ := WFRoot_children s digest shaLeaf shaNode K h ks a lvl l r hn
      exact rebuild_WF s digest shaLeaf shaNode K hinj
        (nodeDeleteRec s digest shaLeaf shaNode l key)
        (nodeDeleteRec s digest shaLeaf shaNode r key) lvl
        (nodeDeleteRec_WF s digest shaLeaf shaNode K hinj key l hl)
        (nodeDeleteRec_WF s digest shaLeaf shaNode K hinj key r hr)

theorem nodeUpdateRec_unchanged (shaLeaf : String → List String → HashT)
    (shaNode : HashT → HashT → HashT) :
    ∀ (n : Node F HashT) (key f : String),
      (nodeUpdateRec shaLeaf shaNode n key f).2 = false →
      (nodeUpdateRec shaLeaf shaNode n key f).1 = n
  | .leaf k fids lvl del, key, f => by
      simp only [nodeUpdateRec]
      by_cases hc : k = key ∧ del = false
      · rw [if_pos hc]
        intro h2
        cases h2
      · rw [if_neg hc]
        intro _
        rfl
  | .nonleaf h ks a lvl l r, key, f => by
      simp only [nodeUpdateRec]
      by_cases hc : l.hasKey key = true
      · rw [if_pos hc]
        dsimp only
        intro h2
        rw [nodeUpdateRec_unchanged shaLeaf shaNode l key f h2, h2]
        rfl
      · rw [if_neg hc]
        dsimp only
        intro h2
        rw [nodeUpdateRec_unchanged shaLeaf shaNode r key f h2, h2]
        rfl

theorem nodeUpdateRec_level (shaLeaf : String → List String → HashT)
    (shaNode : HashT → HashT → HashT) :
    ∀ (n : Node F HashT) (key f : String),
      (nodeUpdateRec shaLeaf shaNode n key f).1.level = n.level
  | .leaf _ _ _ _, _, _ => by
      simp only [nodeUpdateRec]
      split <;> rfl
  | .nonleaf _ _ _ _ l _, key, _ => by
      simp only [nodeUpdateRec]
      by_cases hc : l.hasKey key = true
      · rw [if_pos hc]
        rfl
      · rw [if_neg hc]
        rfl

theorem nodeUpdateRec_liveKeys (shaLeaf : String → List String → HashT)
    (shaNode : HashT → HashT → HashT) :
    ∀ (n : Node F HashT) (key f : String),
      liveKeys ((nodeUpdateRec shaLeaf shaNode n key f).1) = liveKeys n
  | .leaf k fids lvl del, key, f => by
      simp only [nodeUpdateRec]
      by_cases hc : k = key ∧ del = false
      · rw [if_pos hc]
        rfl
      · rw [if_neg hc]
  | .nonleaf h ks a lvl l r, key, f => by
      simp only [nodeUpdateRec]
      by_cases hc : l.hasKey key = true
      · rw [if_pos hc]
        dsimp only
        show liveKeys ((nodeUpdateRec shaLeaf shaNode l key f).1) ∪ liveKeys r = _
        rw [nodeUpdateRec_liveKeys shaLeaf shaNode l key f]
        rfl
      · rw [if_neg hc]
        dsimp only
        show liveKeys l ∪ liveKeys ((nodeUpdateRec shaLeaf shaNode r key f).1) = _
        rw [nodeUpdateRec_liveKeys shaLeaf shaNode r key f]
        rfl

theorem nodeUpdateRec_WF (s : F) (digest : String → F)
    (shaLeaf : String → List String → HashT) (shaNode : HashT → HashT → HashT)
    (K : Finset String) :
    ∀ (n : Node F HashT) (key f : String), WFRoot s digest shaLeaf shaNode K n →
      WFRoot s digest shaLeaf shaNode K (nodeUpdateRec shaLeaf shaNode n key f).1
  | .leaf k fids lvl del, key, f, hn => by
      simp only [nodeUpdateRec]
      by_cases hc : k = key ∧ del = false
      · rw [if_pos hc]
        exact ⟨trivial, hn.2⟩
      · rw [if_neg hc]
        exact hn
  | .nonleaf h ks a lvl l r, key, f, hn => by
      obtain ⟨hlw, hrw⟩ := WFRoot_children s digest shaLeaf shaNode K h ks a lvl l r hn
      obtain ⟨hwfn, hsub⟩ := hn
      simp only [nodeUpdateRec]
      by_cases hc : l.hasKey key = true
      · rw [if_pos hc]
        dsimp only
        refine ⟨⟨(nodeUpdateRec_WF s digest shaLeaf shaNode K l key f hlw).1,
          hwfn.2.1, ?_, hwfn.2.2.2.1, ?_⟩, hsub⟩
        · rw [nodeUpdateRec_liveKeys shaLeaf shaNode l key f]
          exact hwfn.2.2.1
        · cases hflag : (nodeUpdateRec shaLeaf shaNode l key f).2
          · rw [if_neg Bool.false_ne_true, nodeUpdateRec_unchanged shaLeaf shaNode l key f hflag]
            exact hwfn.2.2.2.2
          · rw [if_pos rfl]
      · rw [if_neg hc]
        dsimp only
        refine ⟨⟨hwfn.1, (nodeUpdateRec_WF s digest shaLeaf shaNode K r key f hrw).1,
          ?_, hwfn.2.2.2.1, ?_⟩, hsub⟩
        · rw [nodeUpdateRec_liveKeys shaLeaf shaNode r key f]
          exact hwfn.2.2.1
        · cases hflag : (nodeUpdateRec shaLeaf shaNode r key f).2
          · rw [if_neg Bool.false_ne_true, nodeUpdateRec_unchanged shaLeaf shaNode r key f hflag]
            exact hwfn.2.2.2.2
          · rw [if_pos rfl]

theorem extractFirst_spec (p : Node F HashT → Bool) :
    ∀ (l : List (Node F HashT)) (x : Node F HashT) (rest : List (Node F HashT)),
      extractFirst p l = some (x, rest) →
      ∃ l1 l2, l = l1 ++ x :: l2 ∧ rest = l1 ++ l2 ∧
        (∀ y ∈ l1, p y = false) ∧ p x = true
  | [], x, rest, h => by cases h
  | a :: as, x, rest, h => by
      simp only [extractFirst] at h
      by_cases hc : p a = true
      · rw [if_pos hc] at h
        cases h
        exact ⟨[], as, rfl, rfl, by simp, hc⟩
      · rw [if_neg hc] at h
        have hpa : p a = false := by
          cases hpa2 : p a
          · rfl
          · exact absurd hpa2 hc
        cases hrec : extractFirst p as with
        | none =>
            rw [hrec] at h
            cases h
        | some q =>
            obtain ⟨x2, rest2⟩ := q
            rw [hrec] at h
            have h5 := Option.some.inj h
            have hx1 : x2 = x := congrArg Prod.fst h5
            have hx2 : a :: rest2 = rest := congrArg Prod.snd h5
            obtain ⟨l1, l2, h1, h2, h3, h4⟩ := extractFirst_spec p as x2 rest2 hrec
            refine ⟨a :: l1, l2, ?_, ?_, ?_, by rw [← hx1]; exact h4⟩
            · rw [← hx1, List.cons_append, ← h1]
            · rw [← hx2, List.cons_append, ← h2]
            · intro y hy
              rcases List.mem_cons.mp hy with h6 | h6
              · rw [h6]
                exact hpa
              · exact h3 y h6

theorem forestInsert_inv (s : F) (digest : String → F)
    (shaLeaf : String → List String → HashT) (shaNode : HashT → HashT → HashT)
    (K : Finset String) (hinj : InjOnKeys digest K)
    (roots : List (Node F HashT)) (key fid : String) (hkey : key ∈ K)
    (hinv : ForestInv s digest shaLeaf shaNode K roots) :
    ForestInv s digest shaLeaf shaNode K
      (forestInsert s digest shaLeaf shaNode roots key fid) := by
  obtain ⟨hwf, hlt⟩ := hinv
  unfold forestInsert
  cases hex : extractFirst (fun r => r.hasKey key) roots with
  | some q =>
      obtain ⟨root, rest⟩ := q
      dsimp only
      obtain ⟨l1, l2, hdec, hrest, _, _⟩ := extractFirst_spec _ roots root rest hex
      have hpermroots : roots.Perm (root :: rest) := by
        rw [hdec, hrest]
        exact List.perm_middle
      have hne_roots : List.Pairwise (fun a b : Node F HashT => a.level ≠ b.level) roots :=
        hlt.imp (fun hab => Nat.ne_of_lt hab)
      have hne1 : List.Pairwise (fun a b : Node F HashT => a.level ≠ b.level) (root :: rest) :=
        (List.Perm.pairwise_iff (fun hab => Ne.symm hab) hpermroots).mp hne_roots
      have hrvlvl : (nodeReviveRec s digest shaLeaf shaNode root key fid).level = root.level :=
        nodeReviveRec_level s digest shaLeaf shaNode root key fid
      have hne2 : List.Pairwise (fun a b : Node F HashT => a.level ≠ b.level)
          (rest ++ [nodeReviveRec s digest shaLeaf shaNode root key fid]) := by
        rw [List.pairwise_append]
        refine ⟨(List.pairwise_cons.mp hne1).2, List.pairwise_singleton _ _, ?_⟩
        intro a ha b hb
        have hb' : b = nodeReviveRec s digest shaLeaf shaNode root key fid :=
          List.mem_singleton.mp hb
        rw [hb', hrvlvl]
        exact fun he => ((List.pairwise_cons.mp hne1).1 a ha) he.symm
      have hwf2 : ∀ y ∈ rest ++ [nodeReviveRec s digest shaLeaf shaNode root key fid],
          WFRoot s digest shaLeaf shaNode K y := by
        intro y hy
        rcases List.mem_append.mp hy with h1 | h1
        · exact hwf y (hpermroots.mem_iff.mpr (List.mem_cons_of_mem _ h1))
        · have h2 : y = nodeReviveRec s digest shaLeaf shaNode root key fid :=
            List.mem_singleton.mp h1
          rw [h2]
          exact nodeReviveRec_WF s digest shaLeaf shaNode K hinj key fid hkey root
            (hwf root (hpermroots.mem_iff.mpr (List.mem_cons_self _ _)))
      obtain ⟨heq, hstrict⟩ := normalizeF_of_distinct s digest shaLeaf shaNode _ hne2
      rw [heq]
      refine ⟨?_, hstrict⟩
      intro r hr
      exact hwf2 r ((sortByLevel_perm _).subset hr)
  | none =>
      have hnlwf : WFRoot s digest shaLeaf shaNode K (Node.leaf key {fid} 0 false) := by
        refine ⟨trivial, ?_⟩
        show ({key} : Finset String) ⊆ K
        exact Finset.singleton_subset_iff.mpr hkey
      cases roots with
      | nil =>
          have hne : List.Pairwise (fun a b : Node F HashT => a.level ≠ b.level)
              ([] ++ [Node.leaf key {fid} 0 false]) := List.pairwise_singleton _ _
          obtain ⟨heq, hstrict⟩ := normalizeF_of_distinct s digest shaLeaf shaNode _ hne
          rw [heq]
          refine ⟨?_, hstrict⟩
          intro r hr
          have hr2 := (sortByLevel_perm _).subset hr
          rcases List.mem_singleton.mp hr2 with rfl
          exact hnlwf
      | cons z L' =>
          by_cases hz : z.level = 0
          · have hcarry := normalizeF_carry s digest shaLeaf shaNode K hinj z L'
              (Node.leaf key {fid} 0 false) (by rw [hz]; rfl)
              (List.Pairwise.of_cons hlt) ((List.pairwise_cons.mp hlt).1)
              (by
                intro y hy
                rcases List.mem_append.mp hy with h1 | h1
                · exact hwf y h1
                · rcases List.mem_singleton.mp h1 with rfl
                  exact hnlwf)
            exact hcarry
          · have hpos : ∀ a ∈ z :: L', 0 < a.level := by
              intro a ha
              rcases List.mem_cons.mp ha with h1 | h1
              · rw [h1]
                exact Nat.pos_of_ne_zero hz
              · exact lt_trans (Nat.pos_of_ne_zero hz) ((List.pairwise_cons.mp hlt).1 a h1)
            have hne : List.Pairwise (fun a b : Node F HashT => a.level ≠ b.level)
                ((z :: L') ++ [Node.leaf key {fid} 0 false]) := by
              rw [List.pairwise_append]
              refine ⟨hlt.imp (fun hab => Nat.ne_of_lt hab), List.pairwise_singleton _ _, ?_⟩
              intro a ha b hb
              rcases List.mem_singleton.mp hb with rfl
              exact Nat.pos_iff_ne_zero.mp (hpos a ha)
            obtain ⟨heq, hstrict⟩ := normalizeF_of_distinct s digest shaLeaf shaNode _ hne
            rw [heq]
            refine ⟨?_, hstrict⟩
            intro r hr
            have hr2 := (sortByLevel_perm _).subset hr
            rcases List.mem_append.mp hr2 with h1 | h1
            · exact hwf r h1
            · rcases List.mem_singleton.mp h1 with rfl
              exact hnlwf

theorem forestDelete_inv (s : F) (digest : String → F)
    (shaLeaf : String → List String → HashT) (shaNode : HashT → HashT → HashT)
    (K : Finset String) (hinj : InjOnKeys digest K)
    (roots : List (Node F HashT)) (key : String)
    (hinv : ForestInv s digest shaLeaf shaNode K roots) :
    ForestInv s digest shaLeaf shaNode K
      (forestDelete s digest shaLeaf shaNode roots key) := by
  obtain ⟨hwf, hlt⟩ := hinv
  unfold forestDelete
  cases hex : extractFirst (fun r => r.hasKey key) roots with
  | some q =>
      obtain ⟨root, rest⟩ := q
      dsimp only
      obtain ⟨l1, l2, hdec, hrest, _, _⟩ := extractFirst_spec _ roots root rest hex
      have hpermroots : roots.Perm (root :: rest) := by
        rw [hdec, hrest]
        exact List.perm_middle
      have hne_roots : List.Pairwise (fun a b : Node F HashT => a.level ≠ b.level) roots :=
        hlt.imp (fun hab => Nat.ne_of_lt hab)
      have hne1 : List.Pairwise (fun a b : Node F HashT => a.level ≠ b.level) (root :: rest) :=
        (List.Perm.pairwise_iff (fun hab => Ne.symm hab) hpermroots).mp hne_roots
      have hdlvl : (nodeDeleteRec s digest shaLeaf shaNode root key).level = root.level :=
        nodeDeleteRec_level s digest shaLeaf shaNode root key
      have hne2 : List.Pairwise (fun a b : Node F HashT => a.level ≠ b.level)
          (rest ++ [nodeDeleteRec s digest shaLeaf shaNode root key]) := by
        rw [List.pairwise_append]
        refine ⟨(List.pairwise_cons.mp hne1).2, List.pairwise_singleton _ _, ?_⟩
        intro a ha b hb
        have hb' : b = nodeDeleteRec s digest shaLeaf shaNode root key :=
          List.mem_singleton.mp hb
        rw [hb', hdlvl]
        exact fun he => ((List.pairwise_cons.mp hne1).1 a ha) he.symm
      have hwf2 : ∀ y ∈ rest ++ [nodeDeleteRec s digest shaLeaf shaNode root key],
          WFRoot s digest shaLeaf shaNode K y := by
        intro y hy
        rcases List.mem_append.mp hy with h1 | h1
        · exact hwf y (hpermroots.mem_iff.mpr (List.mem_cons_of_mem _ h1))
        · have h2 : y = nodeDeleteRec s digest shaLeaf shaNode root key :=
            List.mem_singleton.mp h1
          rw [h2]
          exact nodeDeleteRec_WF s digest shaLeaf shaNode K hinj key root
            (hwf root (hpermroots.mem_iff.mpr (List.mem_cons_self _ _)))
      obtain ⟨heq, hstrict⟩ := normalizeF_of_distinct s digest shaLeaf shaNode _ hne2
      rw [heq]
      refine ⟨?_, hstrict⟩
      intro r hr
      exact hwf2 r ((sortByLevel_perm _).subset hr)
  | none =>
      exact ⟨hwf, hlt⟩

theorem mapFirst_map_level (p : Node F HashT → Bool) (g : Node F HashT → Node F HashT)
    (hglvl : ∀ n, (g n).level = n.level) :
    ∀ roots : List (Node F HashT),
      (mapFirst p g roots).map Node.level = roots.map Node.level
  | [] => rfl
  | x :: xs => by
      simp only [mapFirst]
      by_cases hc : p x = true
      · rw [if_pos hc]
        simp [hglvl x]
      · rw [if_neg hc]
        simp [mapFirst_map_level p g hglvl xs]

theorem mapFirst_WF (s : F) (digest : String → F)
    (shaLeaf : String → List String → HashT) (shaNode : HashT → HashT → HashT)
    (K : Finset String) (p : Node F HashT → Bool) (g : Node F HashT → Node F HashT)
    (hg : ∀ n, WFRoot s digest shaLeaf shaNode K n → WFRoot s digest shaLeaf shaNode K (g n)) :
    ∀ roots : List (Node F HashT), (∀ r ∈ roots, WFRoot s digest shaLeaf shaNode K r) →
      ∀ r ∈ mapFirst p g roots, WFRoot s digest shaLeaf shaNode K r
  | [], _, r, hr => by cases hr
  | x :: xs, hwf, r, hr => by
      simp only [mapFirst] at hr
      by_cases hc : p x = true
      · rw [if_pos hc] at hr
        rcases List.mem_cons.mp hr with h1 | h1
        · rw [h1]
          exact hg x (hwf x (List.mem_cons_self _ _))
        · exact hwf r (List.mem_cons_of_mem _ h1)
      · rw [if_neg hc] at hr
        rcases List.mem_cons.mp hr with h1 | h1
        · rw [h1]
          exact hwf x (List.mem_cons_self _ _)
        · exact mapFirst_WF s digest shaLeaf shaNode K p g hg xs
            (fun y hy => hwf y (List.mem_cons_of_mem _ hy)) r h1

theorem forestUpdate_inv (s : F) (digest : String → F)
    (shaLeaf : String → List String → HashT) (shaNode : HashT → HashT → HashT)
    (K : Finset String) (roots : List (Node F HashT)) (key f : String)
    (hinv : ForestInv s digest shaLeaf shaNode K roots) :
    ForestInv s digest shaLeaf shaNode K (forestUpdate shaLeaf shaNode roots key f) := by
  obtain ⟨hwf, hlt⟩ := hinv
  unfold forestUpdate
  constructor
  · exact mapFirst_WF s digest shaLeaf shaNode K _ _
      (fun n hn => nodeUpdateRec_WF s digest shaLeaf shaNode K n key f hn) roots hwf
  · have hglvl : ∀ n : Node F HashT, ((nodeUpdateRec shaLeaf shaNode n key f).1).level = n.level :=
      fun n => nodeUpdateRec_level shaLeaf shaNode n key f
    have hmap := mapFirst_map_level (fun r => r.hasKey key)
      (fun r => (nodeUpdateRec shaLeaf shaNode r key f).1) hglvl roots
    have h1 : List.Pairwise (· < ·) (roots.map Node.level) := List.pairwise_map.mpr hlt
    rw [← hmap] at h1
    exact List.pairwise_map.mp h1

theorem applyOp_inv (s : F) (digest : String → F)
    (shaLeaf : String → List String → HashT) (shaNode : HashT → HashT → HashT)
    (K : Finset String) (hinj : InjOnKeys digest K) (roots : List (Node F HashT))
    (op : ForestOp) (hkey : op.key ∈ K)
    (hinv : ForestInv s digest shaLeaf shaNode K roots) :
    ForestInv s digest shaLeaf shaNode K (applyOp s digest shaLeaf shaNode roots op) := by
  cases op with
  | ins k f => exact forestInsert_inv s digest shaLeaf shaNode K hinj roots k f hkey hinv
  | upd k f => exact forestUpdate_inv s digest shaLeaf shaNode K roots k f hinv
  | del k => exact forestDelete_inv s digest shaLeaf shaNode K hinj roots k hinv

theorem foldl_applyOp_inv (s : F) (digest : String → F)
    (shaLeaf : String → List String → HashT) (shaNode : HashT → HashT → HashT)
    (K : Finset String) (hinj : InjOnKeys digest K) :
    ∀ (ops : List ForestOp) (roots : List (Node F HashT)),
      (∀ op ∈ ops, op.key ∈ K) → ForestInv s digest shaLeaf shaNode K roots →
      ForestInv s digest shaLeaf shaNode K
        (ops.foldl (applyOp s digest shaLeaf shaNode) roots)
  | [], _, _, hinv => hinv
  | op :: ops', roots, hkeys, hinv =>
      foldl_applyOp_inv s digest shaLeaf shaNode K hinj ops' _
        (fun o ho => hkeys o (List.mem_cons_of_mem _ ho))
        (applyOp_inv s digest shaLeaf shaNode K hinj roots op
          (hkeys op (List.mem_cons_self _ _)) hinv)

/-- C1: after any sequence of insert, update and delete operations starting
from the empty forest, every node of every root satisfies the internal-node
invariant — its cached key set equals the union of its children's live keys,
its cached accumulator equals the commitment of the digests of that key set,
and its cached hash equals the combined hash of its children — and the root
levels are pairwise distinct.  The accumulator clause rests on the digests
separating the keys the operations mention (`InjOnKeys`), because the
incremental union diffs key sets at the digest level. -/
theorem claim1_forest_invariant (s : F) (digest : String → F)
    (shaLeaf : String → List String → HashT) (shaNode : HashT → HashT → HashT)
    (ops : List ForestOp) (hinj : InjOnKeys digest (opsKeys ops)) :
    (∀ r ∈ applyOps s digest shaLeaf shaNode ops, NodeWF s digest shaLeaf shaNode r) ∧
    List.Pairwise (fun a b : Node F HashT => a.level ≠ b.level)
      (applyOps s digest shaLeaf shaNode ops) := by
  have hempty : ForestInv s digest shaLeaf shaNode (opsKeys ops) [] := by
    refine ⟨?_, List.Pairwise.nil⟩
    intro r hr
    cases hr
  have hinv := foldl_applyOp_inv s digest shaLeaf shaNode (opsKeys ops) hinj ops []
    (fun op hop => List.mem_toFinset.mpr (List.mem_map_of_mem ForestOp.key hop)) hempty
  exact ⟨fun r hr => (hinv.1 r hr).1, hinv.2.imp (fun hab => Nat.ne_of_lt hab)⟩

/-- C8: on a forest whose root levels are strictly increasing (the shape every
normalized forest has), delete replaces the first root containing the key by
its tombstoned copy, in place: every other root is untouched, the replaced
root keeps its skeleton (levels, leaf keys, fid sets), and the root skeleton
list is unchanged — the normalize call merges nothing and re-sorts to the
original order, so only hashes, accumulators and the tombstone bit change. -/
theorem claim8_delete_frame (s : F) (digest : String → F)
    (shaLeaf : String → List String → HashT) (shaNode : HashT → HashT → HashT)
    (roots : List (Node F HashT)) (key : String)
    (hlt : List.Pairwise (fun a b : Node F HashT => a.level < b.level) roots)
    (root : Node F HashT) (rest : List (Node F HashT))
    (hex : extractFirst (fun r => r.hasKey key) roots = some (root, rest)) :
    (∃ l1 l2, roots = l1 ++ root :: l2 ∧
      forestDelete s digest shaLeaf shaNode roots key
        = l1 ++ (nodeDeleteRec s digest shaLeaf shaNode root key) :: l2) ∧
    (nodeDeleteRec s digest shaLeaf shaNode root key).shape = root.shape ∧
    (forestDelete s digest shaLeaf shaNode roots key).map Node.shape
      = roots.map Node.shape := by
  obtain ⟨l1, l2, hdec, hrest, hfirst, hpx⟩ := extractFirst_spec _ roots root rest hex
  have hshape : (nodeDeleteRec s digest shaLeaf shaNode root key).shape = root.shape :=
    nodeDeleteRec_shape s digest shaLeaf shaNode root key
  have hdlvl : (nodeDeleteRec s digest shaLeaf shaNode root key).level = root.level :=
    nodeDeleteRec_level s digest shaLeaf shaNode root key
  have hforest : forestDelete s digest shaLeaf shaNode roots key
      = normalizeF s digest shaLeaf shaNode
          (rest ++ [nodeDeleteRec s digest shaLeaf shaNode root key]) := by
    unfold forestDelete
    rw [hex]
  have hpermroots : roots.Perm (root :: rest) := by
    rw [hdec, hrest]
    exact List.perm_middle
  have hne_roots : List.Pairwise (fun a b : Node F HashT => a.level ≠ b.level) roots :=
    hlt.imp (fun hab => Nat.ne_of_lt hab)
  have hne1 : List.Pairwise (fun a b : Node F HashT => a.level ≠ b.level) (root :: rest) :=
    (List.Perm.pairwise_iff (fun hab => Ne.symm hab) hpermroots).mp hne_roots
  have hne2 : List.Pairwise (fun a b : Node F HashT => a.level ≠ b.level)
      (rest ++ [nodeDeleteRec s digest shaLeaf shaNode root key]) := by
    rw [List.pairwise_append]
    refine ⟨(List.pairwise_cons.mp hne1).2, List.pairwise_singleton _ _, ?_⟩
    intro a ha b hb
    have hb' : b = nodeDeleteRec s digest shaLeaf shaNode root key :=
      List.mem_singleton.mp hb
    rw [hb', hdlvl]
    exact fun he => ((List.pairwise_cons.mp hne1).1 a ha) he.symm
  obtain ⟨heq, hsortlt⟩ := normalizeF_of_distinct s digest shaLeaf shaNode _ hne2
  have hltR : List.Pairwise (fun a b : Node F HashT => a.level < b.level)
      (l1 ++ nodeDeleteRec s digest shaLeaf shaNode root key :: l2) := by
    have hltroots := hlt
    rw [hdec, List.pairwise_append] at hltroots
    obtain ⟨h1, h2, h3⟩ := hltroots
    rw [List.pairwise_append]
    refine ⟨h1, ?_, ?_⟩
    · rw [List.pairwise_cons] at h2 ⊢
      constructor
      · intro b hb
        rw [hdlvl]
        exact h2.1 b hb
      · exact h2.2
    · intro a ha b hb
      rcases List.mem_cons.mp hb with h4 | h4
      · rw [h4, hdlvl]
        exact h3 a ha root (List.mem_cons_self _ _)
      · exact h3 a ha b (List.mem_cons_of_mem _ h4)
  have hperm : (sortByLevel
      (rest ++ [nodeDeleteRec s digest shaLeaf shaNode root key])).Perm
      (l1 ++ nodeDeleteRec s digest shaLeaf shaNode root key :: l2) := by
    refine (sortByLevel_perm _).trans ?_
    rw [hrest]
    exact (List.perm_append_singleton _ _).trans List.perm_middle.symm
  haveI : IsAntisymm (Node F HashT) (fun a b => a.level < b.level) :=
    ⟨fun a b h1 h2 => absurd h1 (lt_asymm h2)⟩
  have hEQ : sortByLevel (rest ++ [nodeDeleteRec s digest shaLeaf shaNode root key])
      = l1 ++ nodeDeleteRec s digest shaLeaf shaNode root key :: l2 :=
    List.eq_of_perm_of_sorted hperm hsortlt hltR
  refine ⟨⟨l1, l2, hdec, ?_⟩, hshape, ?_⟩
  · rw [hforest, heq, hEQ]
  · rw [hforest, heq, hEQ, hdec]
    simp [hshape]

/-- The key resolves to exactly one live leaf, holding the given fid set: at
every internal node on the way down, the other subtree does not contain the
key among its live leaves. -/
def UniqueLeaf : Node F HashT → String → Finset String → Prop
  | .leaf k' fids _ del, k, fs => k' = k ∧ del = false ∧ fids = fs
  | .nonleaf _ _ _ _ l r, k, fs =>
      (UniqueLeaf l k fs ∧ k ∉ liveKeys r) ∨ (k ∉ liveKeys l ∧ UniqueLeaf r k fs)

instance instDecUniqueLeaf :
    (n : Node F HashT) → (k : String) → (fs : Finset String) → Decidable (UniqueLeaf n k fs)
  | .leaf k' fids _ del, k, fs =>
      inferInstanceAs (Decidable (k' = k ∧ del = false ∧ fids = fs))
  | .nonleaf _ _ _ _ l r, k, fs =>
      haveI : Decidable (UniqueLeaf l k fs) := instDecUniqueLeaf l k fs
      haveI : Decidable (UniqueLeaf r k fs) := instDecUniqueLeaf r k fs
      inferInstanceAs (Decidable ((UniqueLeaf l k fs ∧ k ∉ liveKeys r) ∨
        (k ∉ liveKeys l ∧ UniqueLeaf r k fs)))

theorem uniqueLeaf_mem_liveKeys :
    ∀ (n : Node F HashT) (k : String) (fs : Finset String),
      UniqueLeaf n k fs → k ∈ liveKeys n
  | .leaf k' fids lvl del, k, fs, hu => by
      obtain ⟨h1, h2, _⟩ := hu
      simp [liveKeys, h2, h1]
  | .nonleaf _ _ _ _ l r, k, fs, hu => by
      show k ∈ liveKeys l ∪ liveKeys r
      rcases hu with ⟨h1, _⟩ | ⟨_, h2⟩
      · exact Finset.mem_union_left _ (uniqueLeaf_mem_liveKeys l k fs h1)
      · exact Finset.mem_union_right _ (uniqueLeaf_mem_liveKeys r k fs h2)

theorem hasKey_false_of_not_mem (s : F) (digest : String → F)
    (shaLeaf : String → List String → HashT) (shaNode : HashT → HashT → HashT)
    (n : Node F HashT) (hwf : NodeWF s digest shaLeaf shaNode n) (k : String)
    (hk : k ∉ liveKeys n) : n.hasKey k = false := by
  cases hcase : n.hasKey k
  · rfl
  · exact absurd ((hasKey_iff_mem_liveKeys s digest shaLeaf shaNode n hwf k).mp hcase) hk

/-- A well-formed node without the key resolves it to nothing. -/
theorem selectN_none_of_not_hasKey (s : F) (digest : String → F)
    (shaLeaf : String → List String → HashT) (shaNode : HashT → HashT → HashT) :
    ∀ n : Node F HashT, NodeWF s digest shaLeaf shaNode n → ∀ k : String,
      n.hasKey k = false → n.selectN k = none
  | .leaf k' fids lvl del, _, k, hk => by
      simp only [Node.selectN]
      by_cases hc : k' = k ∧ del = false
      · exfalso
        rcases hc with ⟨hc1, hc2⟩
        rw [Node.hasKey, hc1, hc2] at hk
        simp at hk
      · rw [if_neg hc]
  | .nonleaf h ks a lvl l r, hwf, k, hk => by
      have hks : k ∉ liveKeys l ∪ liveKeys r := by
        rw [← hwf.2.2.1]
        simp only [Node.hasKey] at hk
        exact of_decide_eq_false hk
      have hkl : l.hasKey k = false :=
        hasKey_false_of_not_mem s digest shaLeaf shaNode l hwf.1 k
          (fun hm => hks (Finset.mem_union_left _ hm))
      have hkr : r.hasKey k = false :=
        hasKey_false_of_not_mem s digest shaLeaf shaNode r hwf.2.1 k
          (fun hm => hks (Finset.mem_union_right _ hm))
      simp only [Node.selectN]
      rw [hkl, if_neg Bool.false_ne_true]
      exact selectN_none_of_not_hasKey s digest shaLeaf shaNode r hwf.2.1 k hkr

/-- A well-formed node resolves its unique live leaf for the key. -/
theorem selectN_uniqueLeaf (s : F) (digest : String → F)
    (shaLeaf : String → List String → HashT) (shaNode : HashT → HashT → HashT) :
    ∀ (n : Node F HashT) (k : String) (fs : Finset String),
      NodeWF s digest shaLeaf shaNode n → UniqueLeaf n k fs → n.selectN k = some fs
  | .leaf k' fids lvl del, k, fs, _, hu => by
      obtain ⟨h1, h2, h3⟩ := hu
      simp only [Node.selectN]
      rw [if_pos ⟨h1, h2⟩, h3]
  | .nonleaf h ks a lvl l r, k, fs, hwf, hu => by
      simp only [Node.selectN]
      rcases hu with ⟨h1, h2⟩ | ⟨h1, h2⟩
      · have hkl : l.hasKey k = true :=
          (hasKey_iff_mem_liveKeys s digest shaLeaf shaNode l hwf.1 k).mpr
            (uniqueLeaf_mem_liveKeys l k fs h1)
        rw [hkl, if_pos rfl]
        exact selectN_uniqueLeaf s digest shaLeaf shaNode l k fs hwf.1 h1
      · have hkl : l.hasKey k = false :=
          hasKey_false_of_not_mem s digest shaLeaf shaNode l hwf.1 k h1
        rw [hkl, if_neg Bool.false_ne_true]
        exact selectN_uniqueLeaf s digest shaLeaf shaNode r k fs hwf.2.1 h2

/-- Node::insert_fid really adds the fid: the unique live leaf's set becomes
`fs ∪ {f}`, and the updated node still holds the key and resolves to it. -/
theorem insertFid_spec (s : F) (digest : String → F)
    (shaLeaf : String → List String → HashT) (shaNode : HashT → HashT → HashT)
    (k f : String) (fs : Finset String) :
    ∀ n : Node F HashT, NodeWF s digest shaLeaf shaNode n → UniqueLeaf n k fs →
      ((Node.insertFid shaLeaf shaNode n k f).1.hasKey k = true ∧
       (Node.insertFid shaLeaf shaNode n k f).1.selectN k = some (fs ∪ {f}))
  | .leaf k' fids lvl del, _, hu => by
      obtain ⟨h1, h2, h3⟩ := hu
      simp only [Node.insertFid]
      rw [if_pos ⟨h1, h2⟩]
      constructor
      · show (!del && decide (k' = k)) = true
        rw [h1, h2]
        simp
      · simp only [Node.selectN]
        rw [if_pos ⟨h1, h2⟩, h3]
  | .nonleaf h ks a lvl l r, hwf, hu => by
      have hmem : k ∈ ks := by
        rw [hwf.2.2.1]
        rcases hu with ⟨h1, _⟩ | ⟨_, h2⟩
        · exact Finset.mem_union_left _ (uniqueLeaf_mem_liveKeys l k _ h1)
        · exact Finset.mem_union_right _ (uniqueLeaf_mem_liveKeys r k _ h2)
      simp only [Node.insertFid]
      rcases hu with ⟨h1, h2⟩ | ⟨h1, h2⟩
      · have hkl : l.hasKey k = true :=
          (hasKey_iff_mem_liveKeys s digest shaLeaf shaNode l hwf.1 k).mpr
            (uniqueLeaf_mem_liveKeys l k fs h1)
        rw [if_pos hkl]
        dsimp only
        have ih := insertFid_spec s digest shaLeaf shaNode k f fs l hwf.1 h1
        refine ⟨decide_eq_true hmem, ?_⟩
        simp only [Node.selectN]
        rw [ih.1, if_pos rfl]
        exact ih.2
      · have hkl : l.hasKey k = false :=
          hasKey_false_of_not_mem s digest shaLeaf shaNode l hwf.1 k h1
        rw [if_neg (by rw [hkl]; exact Bool.false_ne_true)]
        dsimp only
        have ih := insertFid_spec s digest shaLeaf shaNode k f fs r hwf.2.1 h2
        refine ⟨decide_eq_true hmem, ?_⟩
        simp only [Node.selectN]
        rw [hkl, if_neg Bool.false_ne_true]
        exact ih.2

/-- Node::delete_fid really removes just the fid: with another fid remaining
the leaf stays live and resolves to `fs \ {f}`; deleting the last fid
tombstones the leaf, so the key no longer resolves. -/
theorem deleteFid_spec (s : F) (digest : String → F)
    (shaLeaf : String → List String → HashT) (shaNode : HashT → HashT → HashT)
    (k f : String) (fs : Finset String) :
    ∀ n : Node F HashT, NodeWF s digest shaLeaf shaNode n → UniqueLeaf n k fs → f ∈ fs →
      ((fs ≠ {f} → ((Node.deleteFid shaLeaf shaNode n k f).1.hasKey k = true ∧
          (Node.deleteFid shaLeaf shaNode n k f).1.selectN k = some (fs.erase f))) ∧
       (fs = {f} → (Node.deleteFid shaLeaf shaNode n k f).1.selectN k = none))
  | .leaf k' fids lvl del, _, hu, hf => by
      obtain ⟨h1, h2, h3⟩ := hu
      simp only [Node.deleteFid]
      rw [if_pos ⟨h1, h2⟩, h3]
      constructor
      · intro hne
        have herase : fs.erase f ≠ ∅ := by
          intro he
          apply hne
          apply Finset.eq_singleton_iff_unique_mem.mpr
          refine ⟨hf, ?_⟩
          intro x hx
          by_contra hxf
          have hxe : x ∈ fs.erase f := Finset.mem_erase.mpr ⟨hxf, hx⟩
          rw [he] at hxe
          exact absurd hxe (Finset.not_mem_empty x)
        have hdecide : decide (fs.erase f = ∅) = false := decide_eq_false herase
        rw [hdecide]
        constructor
        · show (!false && decide (k' = k)) = true
          rw [h1]
          simp
        · simp [Node.selectN, h1]
      · intro heq
        have herase : fs.erase f = ∅ := by
          rw [heq]
          exact Finset.erase_singleton f
        have hdecide : decide (fs.erase f = ∅) = true := decide_eq_true herase
        rw [hdecide]
        simp only [Node.selectN]
        rw [if_neg]
        intro hc
        exact Bool.false_ne_true hc.2.symm
  | .nonleaf h ks a lvl l r, hwf, hu, hf => by
      have hmem : k ∈ ks := by
        rw [hwf.2.2.1]
        rcases hu with ⟨h1, _⟩ | ⟨_, h2⟩
        · exact Finset.mem_union_left _ (uniqueLeaf_mem_liveKeys l k _ h1)
        · exact Finset.mem_union_right _ (uniqueLeaf_mem_liveKeys r k _ h2)
      simp only [Node.deleteFid]
      rcases hu with ⟨h1, h2⟩ | ⟨h1, h2⟩
      · have hkl : l.hasKey k = true :=
          (hasKey_iff_mem_liveKeys s digest shaLeaf shaNode l hwf.1 k).mpr
            (uniqueLeaf_mem_liveKeys l k fs h1)
        rw [if_pos hkl]
        dsimp only
        have ih := deleteFid_spec s digest shaLeaf shaNode k f fs l hwf.1 h1 hf
        have hrnone : r.selectN k = none :=
          selectN_none_of_not_hasKey s digest shaLeaf shaNode r hwf.2.1 k
            (hasKey_false_of_not_mem s digest shaLeaf shaNode r hwf.2.1 k h2)
        constructor
        · intro hne
          obtain ⟨ihk, ihsel⟩ := ih.1 hne
          refine ⟨decide_eq_true hmem, ?_⟩
          simp only [Node.selectN]
          rw [ihk, if_pos rfl]
          exact ihsel
        · intro heq
          have ihsel := ih.2 heq
          simp only [Node.selectN]
          cases hflag : (Node.deleteFid shaLeaf shaNode l k f).1.hasKey k
          · rw [if_neg Bool.false_ne_true]
            exact hrnone
          · rw [if_pos rfl]
            exact ihsel
      · have hkl : l.hasKey k = false :=
          hasKey_false_of_not_mem s digest shaLeaf shaNode l hwf.1 k h1
        rw [if_neg (by rw [hkl]; exact Bool.false_ne_true)]
        dsimp only
        have ih := deleteFid_spec s digest shaLeaf shaNode k f fs r hwf.2.1 h2 hf
        constructor
        · intro hne
          obtain ⟨ihk, ihsel⟩ := ih.1 hne
          refine ⟨decide_eq_true hmem, ?_⟩
          simp only [Node.selectN]
          rw [hkl, if_neg Bool.false_ne_true]
          exact ihsel
        · intro heq
          simp only [Node.selectN]
          rw [hkl, if_neg Bool.false_ne_true]
          exact ih.2 heq

/-- The revive pass of tree.rs insert is the identity on a well-formed root
that holds no tombstoned leaf for the key: it rebuilds every internal node
from unchanged children, reproducing the cached hash, key set and
accumulator. -/
theorem nodeReviveRec_id (s : F) (digest : String → F)
    (shaLeaf : String → List String → HashT) (shaNode : HashT → HashT → HashT)
    (K : Finset String) (hinj : InjOnKeys digest K) (k f : String) :
    ∀ n : Node F HashT, WFRoot s digest shaLeaf shaNode K n → k ∉ deadKeys n →
      nodeReviveRec s digest shaLeaf shaNode n k f = n
  | .leaf k' fids lvl del, _, htf => by
      simp only [nodeReviveRec]
      rw [if_neg]
      intro hc
      apply htf
      show k ∈ deadKeys (Node.leaf k' fids lvl del)
      simp [deadKeys, hc.2, hc.1]
  | .nonleaf h ks a lvl l r, hn, htf => by
      obtain ⟨hlw, hrw⟩ := WFRoot_children s digest shaLeaf shaNode K h ks a lvl l r hn
      have htl : k ∉ deadKeys l := fun hm => htf (Finset.mem_union_left _ hm)
      have htr : k ∉ deadKeys r := fun hm => htf (Finset.mem_union_right _ hm)
      show Node.nonleaf
          (shaNode ((nodeReviveRec s digest shaLeaf shaNode l k f).hashOf shaLeaf)
            ((nodeReviveRec s digest shaLeaf shaNode r k f).hashOf shaLeaf))
          ((nodeReviveRec s digest shaLeaf shaNode l k f).keysOf ∪
            (nodeReviveRec s digest shaLeaf shaNode r k f).keysOf)
          (incrementalUnion s
            ((nodeReviveRec s digest shaLeaf shaNode l k f).accOf s digest)
            ((nodeReviveRec s digest shaLeaf shaNode r k f).accOf s digest)
            (digestSetFromSet digest (nodeReviveRec s digest shaLeaf shaNode l k f).keysOf)
            (digestSetFromSet digest (nodeReviveRec s digest shaLeaf shaNode r k f).keysOf))
          lvl (nodeReviveRec s digest shaLeaf shaNode l k f)
          (nodeReviveRec s digest shaLeaf shaNode r k f) = _
      rw [nodeReviveRec_id s digest shaLeaf shaNode K hinj k f l hlw htl,
        nodeReviveRec_id s digest shaLeaf shaNode K hinj k f r hrw htr]
      obtain ⟨hwfn, _⟩ := hn
      have hks : l.keysOf ∪ r.keysOf = ks := by
        rw [keysOf_eq_liveKeys s digest shaLeaf shaNode l hwfn.1,
          keysOf_eq_liveKeys s digest shaLeaf shaNode r hwfn.2.1]
        exact hwfn.2.2.1.symm
      have hacc : incrementalUnion s (l.accOf s digest) (r.accOf s digest)
          (digestSetFromSet digest l.keysOf) (digestSetFromSet digest r.keysOf) = a := by
        rw [accOf_eq_commit s digest shaLeaf shaNode l hwfn.1,
          incUnion_commit s digest K hinj l.keysOf r.keysOf hlw.2 hrw.2, hks]
        exact hwfn.2.2.2.1.symm
      have hh : shaNode (l.hashOf shaLeaf) (r.hashOf shaLeaf) = h := hwfn.2.2.2.2.symm
      rw [hks, hacc, hh]

theorem findSome?_none (sel : Node F HashT → Option (Finset String)) :
    ∀ l : List (Node F HashT), (∀ r ∈ l, sel r = none) → l.findSome? sel = none
  | [], _ => rfl
  | x :: xs, h => by
      rw [List.findSome?_cons, h x (List.mem_cons_self _ _)]
      exact findSome?_none sel xs (fun r hr => h r (List.mem_cons_of_mem _ hr))

theorem findSome?_some_of_agree (sel : Node F HashT → Option (Finset String))
    (v : Finset String) :
    ∀ l : List (Node F HashT), (∀ r ∈ l, sel r = none ∨ sel r = some v) →
      (∃ r ∈ l, sel r = some v) → l.findSome? sel = some v
  | [], _, hex => absurd hex (by simp)
  | x :: xs, hag, hex => by
      rw [List.findSome?_cons]
      cases hx : sel x with
      | some w =>
          have hv : sel x = some v := by
            rcases hag x (List.mem_cons_self _ _) with h | h
            · rw [h] at hx
              cases hx
            · exact h
          rw [hx] at hv
          exact hv
      | none =>
          have hex' : ∃ r ∈ xs, sel r = some v := by
            rcases hex with ⟨r, hr, hrv⟩
            rcases List.mem_cons.mp hr with h1 | h1
            · rw [h1, hx] at hrv
              cases hrv
            · exact ⟨r, h1, hrv⟩
          exact findSome?_some_of_agree sel v xs
            (fun r hr => hag r (List.mem_cons_of_mem _ hr)) hex'

/-- After the delete pass, the key resolves to nothing in that root: whichever
way the (stale) cached key sets route the lookup, every leaf for the key is
tombstoned. -/
theorem nodeDeleteRec_selectN_none (s : F) (digest : String → F)
    (shaLeaf : String → List String → HashT) (shaNode : HashT → HashT → HashT) :
    ∀ (n : Node F HashT) (k : String),
      (nodeDeleteRec s digest shaLeaf shaNode n k).selectN k = none
  | .leaf k' fids lvl del, k => by
      simp only [nodeDeleteRec]
      by_cases hc : k' = k ∧ del = false
      · rw [if_pos hc]
        simp only [Node.selectN]
        rw [if_neg]
        intro h2
        exact Bool.false_ne_true h2.2.symm
      · rw [if_neg hc]
        simp only [Node.selectN]
        rw [if_neg hc]
  | .nonleaf h ks a lvl l r, k => by
      show (if (nodeDeleteRec s digest shaLeaf shaNode l k).hasKey k = true then
          (nodeDeleteRec s digest shaLeaf shaNode l k).selectN k
        else (nodeDeleteRec s digest shaLeaf shaNode r k).selectN k) = none
      cases hflag : (nodeDeleteRec s digest shaLeaf shaNode l k).hasKey k
      · rw [if_neg Bool.false_ne_true]
        exact nodeDeleteRec_selectN_none s digest shaLeaf shaNode r k
      · rw [if_pos rfl]
        exact nodeDeleteRec_selectN_none s digest shaLeaf shaNode l k

instance instDecWFRoot (s : F) (digest : String → F)
    (shaLeaf : String → List String → HashT) (shaNode : HashT → HashT → HashT)
    (K : Finset String) (r : Node F HashT) :
    Decidable (WFRoot s digest shaLeaf shaNode K r) := by
  unfold WFRoot
  infer_instance

instance instDecForestInv (s : F) (digest : String → F)
    (shaLeaf : String → List String → HashT) (shaNode : HashT → HashT → HashT)
    (K : Finset String) (roots : List (Node F HashT)) :
    Decidable (ForestInv s digest shaLeaf shaNode K roots) := by
  unfold ForestInv
  infer_instance

/-- C2 corrected: on a forest already holding the key as a live leaf, insert
does not touch the fid set — the revive pass is the identity there and
normalize only permutes, so `select` is unchanged (it still returns `F`, not
`F ∪ {f}`).  The claimed behavior belongs to `Node::insert_fid`, which tree.rs
insert never calls: `insert_fid` does extend the unique live leaf's fid set to
`F ∪ {f}`. -/
theorem claim2_amended (s : F) (digest : String → F)
    (shaLeaf : String → List String → HashT) (shaNode : HashT → HashT → HashT)
    (K : Finset String) (hinj : InjOnKeys digest K)
    (n : Node F HashT) (k f : String) (fs : Finset String)
    (hwfn : NodeWF s digest shaLeaf shaNode n) (hu : UniqueLeaf n k fs)
    (roots : List (Node F HashT)) (r0 : Node F HashT) (rest : List (Node F HashT))
    (hinv : ForestInv s digest shaLeaf shaNode K roots)
    (hex : extractFirst (fun r => r.hasKey k) roots = some (r0, rest))
    (hrest : ∀ r ∈ rest, r.hasKey k = false)
    (htf : k ∉ deadKeys r0) :
    (Node.insertFid shaLeaf shaNode n k f).1.selectN k = some (fs ∪ {f}) ∧
    forestSelect (forestInsert s digest shaLeaf shaNode roots k f) k
      = forestSelect roots k := by
  obtain ⟨hwf, hlt⟩ := hinv
  obtain ⟨l1, l2, hdec, hrest2, _, _⟩ := extractFirst_spec _ roots r0 rest hex
  have hpermroots : roots.Perm (r0 :: rest) := by
    rw [hdec, hrest2]
    exact List.perm_middle
  have hr0mem : r0 ∈ roots := hpermroots.mem_iff.mpr (List.mem_cons_self _ _)
  have hr0wf := hwf r0 hr0mem
  refine ⟨(insertFid_spec s digest shaLeaf shaNode k f fs n hwfn hu).2, ?_⟩
  have hid : nodeReviveRec s digest shaLeaf shaNode r0 k f = r0 :=
    nodeReviveRec_id s digest shaLeaf shaNode K hinj k f r0 hr0wf htf
  have hforest : forestInsert s digest shaLeaf shaNode roots k f
      = normalizeF s digest shaLeaf shaNode (rest ++ [r0]) := by
    unfold forestInsert
    rw [hex]
    dsimp only
    rw [hid]
  have hne_roots : List.Pairwise (fun a b : Node F HashT => a.level ≠ b.level) roots :=
    hlt.imp (fun hab => Nat.ne_of_lt hab)
  have hne1 : List.Pairwise (fun a b : Node F HashT => a.level ≠ b.level) (r0 :: rest) :=
    (List.Perm.pairwise_iff (fun hab => Ne.symm hab) hpermroots).mp hne_roots
  have hne2 : List.Pairwise (fun a b : Node F HashT => a.level ≠ b.level) (rest ++ [r0]) := by
    rw [List.pairwise_append]
    refine ⟨(List.pairwise_cons.mp hne1).2, List.pairwise_singleton _ _, ?_⟩
    intro a ha b hb
    have hb' : b = r0 := List.mem_singleton.mp hb
    rw [hb']
    exact fun he => ((List.pairwise_cons.mp hne1).1 a ha) he.symm
  obtain ⟨heq, _⟩ := normalizeF_of_distinct s digest shaLeaf shaNode _ hne2
  have hpermTot : (sortByLevel (rest ++ [r0])).Perm roots :=
    (sortByLevel_perm _).trans ((List.perm_append_singleton _ _).trans hpermroots.symm)
  rw [hforest, heq]
  unfold forestSelect
  have hselrest : ∀ r ∈ rest, r.selectN k = none := fun r hr =>
    selectN_none_of_not_hasKey s digest shaLeaf shaNode r
      ((hwf r (hpermroots.mem_iff.mpr (List.mem_cons_of_mem _ hr))).1) k (hrest r hr)
  cases hv : r0.selectN k with
  | none =>
      have hallroots : ∀ r ∈ roots, r.selectN k = none := by
        intro r hr
        rcases List.mem_cons.mp (hpermroots.subset hr) with h1 | h1
        · rw [h1]
          exact hv
        · exact hselrest r h1
      have hallsort : ∀ r ∈ sortByLevel (rest ++ [r0]), r.selectN k = none :=
        fun r hr => hallroots r (hpermTot.subset hr)
      rw [findSome?_none _ _ hallsort, findSome?_none _ _ hallroots]
  | some v =>
      have hag : ∀ r ∈ roots, r.selectN k = none ∨ r.selectN k = some v := by
        intro r hr
        rcases List.mem_cons.mp (hpermroots.subset hr) with h1 | h1
        · right
          rw [h1]
          exact hv
        · left
          exact hselrest r h1
      have hagsort : ∀ r ∈ sortByLevel (rest ++ [r0]),
          r.selectN k = none ∨ r.selectN k = some v :=
        fun r hr => hag r (hpermTot.subset hr)
      rw [findSome?_some_of_agree _ v _ hagsort ⟨r0, hpermTot.mem_iff.mpr hr0mem, hv⟩,
        findSome?_some_of_agree _ v _ hag ⟨r0, hr0mem, hv⟩]

/-- C3 corrected: the fid-level delete the claim describes exists only as
`Node::delete_fid`, which does remove just the fid (leaving `F \ {f}` and
tombstoning exactly when `f` was the last fid); the tree-level delete of
tree.rs takes no fid at all — it tombstones the whole leaf, after which the
key resolves to nothing. -/
theorem claim3_amended (s : F) (digest : String → F)
    (shaLeaf : String → List String → HashT) (shaNode : HashT → HashT → HashT)
    (K : Finset String)
    (n : Node F HashT) (k f : String) (fs : Finset String)
    (hwfn : NodeWF s digest shaLeaf shaNode n) (hu : UniqueLeaf n k fs) (hf : f ∈ fs)
    (roots : List (Node F HashT)) (r0 : Node F HashT) (rest : List (Node F HashT))
    (hinv : ForestInv s digest shaLeaf shaNode K roots)
    (hex : extractFirst (fun r => r.hasKey k) roots = some (r0, rest))
    (hrest : ∀ r ∈ rest, r.hasKey k = false) :
    ((fs ≠ {f} → (Node.deleteFid shaLeaf shaNode n k f).1.selectN k
        = some (fs.erase f)) ∧
     (fs = {f} → (Node.deleteFid shaLeaf shaNode n k f).1.selectN k = none)) ∧
    forestSelect (forestDelete s digest shaLeaf shaNode roots k) k = none := by
  obtain ⟨hwf, hlt⟩ := hinv
  obtain ⟨l1, l2, hdec, hrest2, _, _⟩ := extractFirst_spec _ roots r0 rest hex
  have hpermroots : roots.Perm (r0 :: rest) := by
    rw [hdec, hrest2]
    exact List.perm_middle
  have hspec := deleteFid_spec s digest shaLeaf shaNode k f fs n hwfn hu hf
  refine ⟨⟨fun hne => (hspec.1 hne).2, hspec.2⟩, ?_⟩
  have hforest : forestDelete s digest shaLeaf shaNode roots k
      = normalizeF s digest shaLeaf shaNode
          (rest ++ [nodeDeleteRec s digest shaLeaf shaNode r0 k]) := by
    unfold forestDelete
    rw [hex]
  have hne_roots : List.Pairwise (fun a b : Node F HashT => a.level ≠ b.level) roots :=
    hlt.imp (fun hab => Nat.ne_of_lt hab)
  have hne1 : List.Pairwise (fun a b : Node F HashT => a.level ≠ b.level) (r0 :: rest) :=
    (List.Perm.pairwise_iff (fun hab => Ne.symm hab) hpermroots).mp hne_roots
  have hdlvl : (nodeDeleteRec s digest shaLeaf shaNode r0 k).level = r0.level :=
    nodeDeleteRec_level s digest shaLeaf shaNode r0 k
  have hne2 : List.Pairwise (fun a b : Node F HashT => a.level ≠ b.level)
      (rest ++ [nodeDeleteRec s digest shaLeaf shaNode r0 k]) := by
    rw [List.pairwise_append]
    refine ⟨(List.pairwise_cons.mp hne1).2, List.pairwise_singleton _ _, ?_⟩
    intro a ha b hb
    have hb' : b = nodeDeleteRec s digest shaLeaf shaNode r0 k := List.mem_singleton.mp hb
    rw [hb', hdlvl]
    exact fun he => ((List.pairwise_cons.mp hne1).1 a ha) he.symm
  obtain ⟨heq, _⟩ := normalizeF_of_distinct s digest shaLeaf shaNode _ hne2
  rw [hforest, heq]
  unfold forestSelect
  apply findSome?_none
  intro r hr
  rcases List.mem_append.mp ((sortByLevel_perm _).subset hr) with h1 | h1
  · exact selectN_none_of_not_hasKey s digest shaLeaf shaNode r
      ((hwf r (hpermroots.mem_iff.mpr (List.mem_cons_of_mem _ h1))).1) k (hrest r h1)
  · have hr' : r = nodeDeleteRec s digest shaLeaf shaNode r0 k := List.mem_singleton.mp h1
    rw [hr']
    exact nodeDeleteRec_selectN_none s digest shaLeaf shaNode r0 k

theorem digestSetFromSet_singleton (digest : String → F) (k : String) :
    digestSetFromSet digest {k} = [digest k] := by
  have h2 : sortedList {k} = [k] := by
    have hcoe : (sortedList {k} : Multiset String) = ({k} : Finset String).val :=
      sortedList_coe _
    have hperm : (sortedList {k}).Perm [k] := by
      rw [← Multiset.coe_eq_coe]
      rw [hcoe]
      rfl
    exact List.perm_singleton.mp hperm
  rw [digestSetFromSet, h2]
  rfl

/-- A well-formed node holding the key yields a proof from
recurse_select_with_proof. -/
theorem rswp_isSome (s : F) (digest : String → F)
    (shaLeaf : String → List String → HashT) (shaNode : HashT → HashT → HashT) :
    ∀ n : Node F HashT, NodeWF s digest shaLeaf shaNode n → ∀ k : String,
      n.hasKey k = true →
      ∃ fids path, n.rswp shaLeaf k = some (fids, path)
  | .leaf k' fids lvl del, _, k, hk => by
      simp only [Node.hasKey] at hk
      have hdel : del = false := by
        cases del
        · rfl
        · simp at hk
      have hkk : k' = k := by
        cases hd : decide (k' = k)
        · rw [hd, Bool.and_false] at hk
          cases hk
        · exact of_decide_eq_true hd
      refine ⟨fids, [], ?_⟩
      simp only [Node.rswp]
      rw [if_pos ⟨hkk, hdel⟩]
  | .nonleaf h ks a lvl l r, hwf, k, hk => by
      simp only [Node.rswp]
      by_cases hcl : l.hasKey k = true
      · rw [if_pos hcl]
        obtain ⟨fids, path, hsome⟩ := rswp_isSome s digest shaLeaf shaNode l hwf.1 k hcl
        rw [hsome]
        exact ⟨fids, path ++ [(r.hashOf shaLeaf, false)], rfl⟩
      · have hmem : k ∈ liveKeys l ∪ liveKeys r := by
          rw [← hwf.2.2.1]
          simp only [Node.hasKey] at hk
          exact of_decide_eq_true hk
        have hml : k ∉ liveKeys l := fun hm =>
          hcl ((hasKey_iff_mem_liveKeys s digest shaLeaf shaNode l hwf.1 k).mpr hm)
        have hmr : k ∈ liveKeys r := by
          rcases Finset.mem_union.mp hmem with h1 | h1
          · exact absurd h1 hml
          · exact h1
        have hcr : r.hasKey k = true :=
          (hasKey_iff_mem_liveKeys s digest shaLeaf shaNode r hwf.2.1 k).mpr hmr
        rw [if_neg hcl, if_pos hcr]
        obtain ⟨fids, path, hsome⟩ := rswp_isSome s digest shaLeaf shaNode r hwf.2.1 k hcr
        rw [hsome]
        exact ⟨fids, path ++ [(l.hashOf shaLeaf, true)], rfl⟩

end ForestCore

section ForestField

variable {F : Type} [Field F] [DecidableEq F]
variable {HashT : Type} [DecidableEq HashT]

/-- accumulator_ads NonMembershipProof (proofs.rs 199-209) in the exponent
model: the digested element, the witness g2^B(s) and g2^A(s). -/
structure AccNonMemProofM (F : Type) where
  element : F
  witness : F
  g2_a : F
deriving DecidableEq

/-- src/response.rs NonMembershipProof (7-14). -/
structure NonMembershipProofM (F : Type) where
  key : String
  accumulator : F
  acc_proof : AccNonMemProofM F
deriving DecidableEq

/-- src/response.rs QueryResponse (79-92). -/
structure QueryResponseM (F HashT : Type) where
  fids : Option (Finset String)
  proof : Option (ProofM HashT)
  root_hash : Option HashT
  accumulator : Option F
  membership_witness : Option F
  nonmembership : Option (NonMembershipProofM F)

/-- response.rs NonMembershipProof::new (18-42): digest the key and run the
Bezout construction against the digest set of all keys; a key in the set
yields None. -/
def nonMembershipProofNew (s : F) (digest : String → F) (key : String)
    (accumulator : F) (allKeys : Finset String) : Option (NonMembershipProofM F) :=
  match computeNonMembershipWitness s (digest key) (digestSetFromSet digest allKeys) with
  | Except.ok (w, a) => some ⟨key, accumulator, ⟨digest key, w, a⟩⟩
  | Except.error _ => none

/-- AccumulatorTree::select_nonmembership_proof (tree.rs 360-389): refuse when
any root has the key; otherwise commit to the union of all root key sets and
build the Bezout non-membership proof against it. -/
def selectNonmembershipProof (s : F) (digest : String → F)
    (roots : List (Node F HashT)) (key : String) : Option (NonMembershipProofM F) :=
  if roots.any (fun r => r.hasKey key) then none
  else
    let allKeys := roots.foldl (fun acc r => acc ∪ r.keysOf) ∅
    let globalAcc :=
      if allKeys = ∅ then emptyAcc s
      else calculateCommitment s (digestSetFromSet digest allKeys)
    nonMembershipProofNew s digest key globalAcc allKeys

/-- The root loop of select_with_proof (tree.rs 403-427): the first root whose
recursive proof search succeeds, with the found fid set and sibling path. -/
def findProofRoot (shaLeaf : String → List String → HashT) (key : String) :
    List (Node F HashT) → Option (Node F HashT × Finset String × List (HashT × Bool))
  | [] => none
  | r :: rs =>
      match r.rswp shaLeaf key with
      | some (fids, path) => some (r, fids, path)
      | none => findProofRoot shaLeaf key rs

/-- AccumulatorTree::select_with_proof (tree.rs 402-431).  The parameter `cmw`
models `DynamicAccumulator::compute_membership_witness` (= compute_delete,
dynamic_accumulator.rs 160-162), whose behavior is build-dependent: in
test/debug builds it divides the exponent by (s - element), in production it
always errors because the trapdoor is absent.  `Option.getD` is the
`.unwrap_or(acc_val)` on line 417: a failed witness computation silently
substitutes the accumulator value itself. -/
def selectWithProof (s : F) (digest : String → F)
    (shaLeaf : String → List String → HashT) (shaNode : HashT → HashT → HashT)
    (cmw : F → F → Option F) (roots : List (Node F HashT)) (key : String) :
    QueryResponseM F HashT :=
  match findProofRoot shaLeaf key roots with
  | some (r, fids, path) =>
      let rootH := r.hashOf shaLeaf
      let accVal := r.accOf s digest
      let keyElem := (digestSetFromSet digest {key}).headD 0
      let accWitness := (cmw accVal keyElem).getD accVal
      ⟨some fids, some ⟨rootH, leafHashFids shaLeaf key fids, path⟩, some rootH,
        some accVal, some accWitness, none⟩
  | none =>
      ⟨none, none, none, none, none, selectNonmembershipProof s digest roots key⟩

/-- The roots loop succeeds on a well-formed forest holding the key. -/
theorem findProofRoot_some (s : F) (digest : String → F)
    (shaLeaf : String → List String → HashT) (shaNode : HashT → HashT → HashT)
    (k : String) :
    ∀ roots : List (Node F HashT),
      (∀ r ∈ roots, NodeWF s digest shaLeaf shaNode r) →
      (∃ r ∈ roots, r.hasKey k = true) →
      ∃ r fids path, findProofRoot shaLeaf k roots = some (r, fids, path)
  | [], _, hex => absurd hex (by simp)
  | x :: xs, hwf, hex => by
      simp only [findProofRoot]
      cases hx : x.rswp shaLeaf k with
      | some q =>
          exact ⟨x, q.1, q.2, rfl⟩
      | none =>
          have hxf : x.hasKey k = false := by
            cases hcase : x.hasKey k
            · rfl
            · obtain ⟨fids, path, hsome⟩ :=
                rswp_isSome s digest shaLeaf shaNode x (hwf x (List.mem_cons_self _ _)) k hcase
              rw [hsome] at hx
              cases hx
          have hex' : ∃ r ∈ xs, r.hasKey k = true := by
            rcases hex with ⟨r, hr, hrk⟩
            rcases List.mem_cons.mp hr with h1 | h1
            · rw [h1, hxf] at hrk
              cases hrk
            · exact ⟨r, h1, hrk⟩
          exact findProofRoot_some s digest shaLeaf shaNode k xs
            (fun r hr => hwf r (List.mem_cons_of_mem _ hr)) hex'

/-- C10: for every well-formed forest holding the key as a live leaf,
select_with_proof always produces a present membership witness and no error
outcome: the witness equals `compute_membership_witness(acc, digest key)` when
that succeeds, and silently falls back to the subtree's accumulator value
itself when it fails — as it always does in production builds, where the
computation needs the absent trapdoor. -/
theorem claim10_membership_witness_fallback (s : F) (digest : String → F)
    (shaLeaf : String → List String → HashT) (shaNode : HashT → HashT → HashT)
    (cmw : F → F → Option F) (K : Finset String)
    (roots : List (Node F HashT)) (k : String)
    (hinv : ForestInv s digest shaLeaf shaNode K roots)
    (hk : ∃ r ∈ roots, r.hasKey k = true) :
    ∃ acc w,
      (selectWithProof s digest shaLeaf shaNode cmw roots k).accumulator = some acc ∧
      (selectWithProof s digest shaLeaf shaNode cmw roots k).membership_witness = some w ∧
      w = (cmw acc (digest k)).getD acc ∧
      (cmw acc (digest k) = none → w = acc) := by
  obtain ⟨r, fids, path, hfind⟩ := findProofRoot_some s digest shaLeaf shaNode k roots
    (fun r hr => (hinv.1 r hr).1) hk
  refine ⟨r.accOf s digest,
    (cmw (r.accOf s digest) (digest k)).getD (r.accOf s digest), ?_, ?_, rfl, ?_⟩
  · unfold selectWithProof
    rw [hfind]
  · unfold selectWithProof
    rw [hfind]
    dsimp only
    rw [digestSetFromSet_singleton]
    rfl
  · intro hnone
    rw [hnone]
    rfl

end ForestField

/-- An injective-on-small-keys digest for witnesses: the code of the first
character. -/
def digestW : String → ZMod 101 := fun k => ((k.data.headD 'x').toNat : ZMod 101)

/-- A concrete operation sequence exercising insert, delete and update. -/
def opsW : List ForestOp :=
  [ForestOp.ins "a" "f1", ForestOp.ins "b" "f2", ForestOp.ins "c" "f3",
   ForestOp.del "b", ForestOp.upd "a" "f9"]

/-- A level-0 leaf root for the C8 witness forest. -/
def r0W8 : Node (ZMod 101) HashW := Node.leaf "c" {"f"} 0 false

/-- A level-1 two-leaf root for the C8 witness forest (cached fields arbitrary:
the frame property needs no well-formedness). -/
def r1W8 : Node (ZMod 101) HashW :=
  Node.nonleaf (HashW.leafH "h" []) {"a", "b"} 7 1
    (Node.leaf "a" {"fa"} 0 false) (Node.leaf "b" {"fb"} 0 false)

theorem claim8_witness :
    (List.Pairwise (fun a b : Node (ZMod 101) HashW => a.level < b.level) [r0W8, r1W8] ∧
     extractFirst (fun r => r.hasKey "a") [r0W8, r1W8] = some (r1W8, [r0W8])) ∧
    ((∃ l1 l2, [r0W8, r1W8] = l1 ++ r1W8 :: l2 ∧
        forestDelete (2 : ZMod 101) digestW HashW.leafH HashW.nodeH [r0W8, r1W8] "a"
          = l1 ++ (nodeDeleteRec (2 : ZMod 101) digestW HashW.leafH HashW.nodeH r1W8 "a") :: l2) ∧
     (nodeDeleteRec (2 : ZMod 101) digestW HashW.leafH HashW.nodeH r1W8 "a").shape
       = r1W8.shape ∧
     (forestDelete (2 : ZMod 101) digestW HashW.leafH HashW.nodeH [r0W8, r1W8] "a").map
         Node.shape
       = ([r0W8, r1W8] : List (Node (ZMod 101) HashW)).map Node.shape) :=
  ⟨⟨by decide, by decide⟩,
   claim8_delete_frame (2 : ZMod 101) digestW HashW.leafH HashW.nodeH [r0W8, r1W8] "a"
     (by decide) r1W8 [r0W8] (by decide)⟩

/-- A one-root forest: live leaf for "k" with fid set {"f1"}. -/
def leafW2 : Node (ZMod 101) HashW := Node.leaf "k" {"f1"} 0 false

/-- C2 counterexample: inserting ("k","f2") into a forest where "k" is live
with fids {"f1"} leaves select("k") at {"f1"} — not {"f1","f2"} as claimed —
because tree.rs insert only runs the revive pass, which no-ops on live
leaves, and never calls insert_fid. -/
theorem claim2_counterexample :
    forestSelect (forestInsert (2 : ZMod 101) digestW HashW.leafH HashW.nodeH
      [leafW2] "k" "f2") "k" = some {"f1"} ∧
    some ({"f1"} : Finset String) ≠ some ({"f1"} ∪ {"f2"} : Finset String) := by
  decide

theorem claim2_witness :
    (InjOnKeys digestW ({"k"} : Finset String) ∧
     NodeWF (2 : ZMod 101) digestW HashW.leafH HashW.nodeH leafW2 ∧
     UniqueLeaf leafW2 "k" {"f1"} ∧
     ForestInv (2 : ZMod 101) digestW HashW.leafH HashW.nodeH {"k"} [leafW2] ∧
     extractFirst (fun r => r.hasKey "k") [leafW2] = some (leafW2, []) ∧
     (∀ r ∈ ([] : List (Node (ZMod 101) HashW)), r.hasKey "k" = false) ∧
     "k" ∉ deadKeys leafW2) ∧
    ((Node.insertFid HashW.leafH HashW.nodeH leafW2 "k" "f2").1.selectN "k"
       = some ({"f1"} ∪ {"f2"}) ∧
     forestSelect (forestInsert (2 : ZMod 101) digestW HashW.leafH HashW.nodeH
       [leafW2] "k" "f2") "k" = forestSelect [leafW2] "k") :=
  ⟨⟨by decide, by decide, by decide, by decide, by decide, by decide, by decide⟩,
   claim2_amended (2 : ZMod 101) digestW HashW.leafH HashW.nodeH {"k"} (by decide)
     leafW2 "k" "f2" {"f1"} (by decide) (by decide)
     [leafW2] leafW2 [] (by decide) (by decide) (by decide) (by decide)⟩

/-- A one-root forest: live leaf for "k" with fid set {"f1","f2"}. -/
def leafW3 : Node (ZMod 101) HashW := Node.leaf "k" {"f1", "f2"} 0 false

/-- C3 counterexample: the tree-level delete takes only the key — there is no
delete(k, f) — and tombstones the whole leaf: with fids {"f1","f2"},
delete("k") leaves select("k") = none rather than the claimed {"f2"}. -/
theorem claim3_counterexample :
    forestSelect (forestDelete (2 : ZMod 101) digestW HashW.leafH HashW.nodeH
      [leafW3] "k") "k" = none ∧
    (none : Option (Finset String))
      ≠ some (({"f1", "f2"} : Finset String).erase "f1") := by
  decide

theorem claim3_witness :
    (NodeWF (2 : ZMod 101) digestW HashW.leafH HashW.nodeH leafW3 ∧
     UniqueLeaf leafW3 "k" {"f1", "f2"} ∧
     "f1" ∈ ({"f1", "f2"} : Finset String) ∧
     ForestInv (2 : ZMod 101) digestW HashW.leafH HashW.nodeH {"k"} [leafW3] ∧
     extractFirst (fun r => r.hasKey "k") [leafW3] = some (leafW3, []) ∧
     (∀ r ∈ ([] : List (Node (ZMod 101) HashW)), r.hasKey "k" = false)) ∧
    ((( ({"f1", "f2"} : Finset String) ≠ {"f1"} →
        (Node.deleteFid HashW.leafH HashW.nodeH leafW3 "k" "f1").1.selectN "k"
          = some (({"f1", "f2"} : Finset String).erase "f1")) ∧
      (({"f1", "f2"} : Finset String) = {"f1"} →
        (Node.deleteFid HashW.leafH HashW.nodeH leafW3 "k" "f1").1.selectN "k" = none)) ∧
     forestSelect (forestDelete (2 : ZMod 101) digestW HashW.leafH HashW.nodeH
       [leafW3] "k") "k" = none) :=
  ⟨⟨by decide, by decide, by decide, by decide, by decide, by decide⟩,
   claim3_amended (2 : ZMod 101) digestW HashW.leafH HashW.nodeH {"k"}
     leafW3 "k" "f1" {"f1", "f2"} (by decide) (by decide) (by decide)
     [leafW3] leafW3 [] (by decide) (by decide) (by decide)⟩

theorem claim10_witness :
    (ForestInv (2 : ZMod 101) digestW HashW.leafH HashW.nodeH {"k"} [leafW2] ∧
     (∃ r ∈ [leafW2], r.hasKey "k" = true)) ∧
    (∃ acc w,
      (selectWithProof (2 : ZMod 101) digestW HashW.leafH HashW.nodeH
        (fun _ _ => none) [leafW2] "k").accumulator = some acc ∧
      (selectWithProof (2 : ZMod 101) digestW HashW.leafH HashW.nodeH
        (fun _ _ => none) [leafW2] "k").membership_witness = some w ∧
      w = ((fun _ _ => (none : Option (ZMod 101))) acc (digestW "k")).getD acc ∧
      ((fun _ _ => (none : Option (ZMod 101))) acc (digestW "k") = none → w = acc)) :=
  ⟨⟨by decide, ⟨leafW2, List.mem_cons_self _ _, by decide⟩⟩,
   claim10_membership_witness_fallback (2 : ZMod 101) digestW HashW.leafH HashW.nodeH
     (fun _ _ => none) {"k"} [leafW2] "k" (by decide)
     ⟨leafW2, List.mem_cons_self _ _, by decide⟩⟩

theorem claim1_witness :
    InjOnKeys digestW (opsKeys opsW) ∧
    ((∀ r ∈ applyOps (2 : ZMod 101) digestW HashW.leafH HashW.nodeH opsW,
        NodeWF (2 : ZMod 101) digestW HashW.leafH HashW.nodeH r) ∧
     List.Pairwise (fun a b : Node (ZMod 101) HashW => a.level ≠ b.level)
       (applyOps (2 : ZMod 101) digestW HashW.leafH HashW.nodeH opsW)) :=
  ⟨by decide,
   claim1_forest_invariant (2 : ZMod 101) digestW HashW.leafH HashW.nodeH opsW (by decide)⟩

end AccTree
